import Mathlib

/-!
# Kernel heap allocator (`src/kernel/utils/kheap.c`)

A shallow embedding of the descriptor table and of `kmalloc` / `kfree`.

* A descriptor pointer is the index of its slot in `kernel_heap_table.block`;
  `none` is `null`.
* `size_t` values are naturals below `2 ^ 32`; every addition and subtraction
  of the source is taken modulo `2 ^ 32`.
* The constants of `utils/kheap.h` (`KHEAP_MAX_ENTRIES`, `KHEAP_START_ADDR`,
  `KHEAP_END_ADDR`) are not part of the sources at hand and are parameters.
* The embedding is the release configuration: `kassert` expands to nothing
  and the body of `kheap_validate` (under `#ifdef DEBUG`) is compiled out.
  `kheap_validate` is embedded separately as a checker.
* `kpanic` halts the kernel; a result records the table as it is at that
  moment.
-/

namespace KHeap

/-- The width of `size_t` on the 32-bit target. -/
def WORD : Nat := 4294967296

/-- Addition of two `size_t` values. -/
def add32 (a b : Nat) : Nat := (a + b) % WORD

/-- Subtraction of two `size_t` values. -/
def sub32 (a b : Nat) : Nat := (a + (WORD - b % WORD)) % WORD

/-- The descriptor `struct kernel_heap_entry_t`. -/
structure kernel_heap_entry_t where
  is_valid : Bool
  is_buzy : Bool
  addr : Nat
  size : Nat
  prev : Option Nat
  next : Option Nat
  deriving DecidableEq

/-- A descriptor after `memset(entry, 0, sizeof(struct kernel_heap_entry_t))`. -/
def entry_zero : kernel_heap_entry_t :=
  ⟨false, false, 0, 0, none, none⟩

/-- The array `kernel_heap_table.block`. -/
abbrev Table := List kernel_heap_entry_t

/-- The constants of `utils/kheap.h`. -/
structure Config where
  KHEAP_MAX_ENTRIES : Nat
  KHEAP_START_ADDR : Nat
  KHEAP_END_ADDR : Nat
  deriving DecidableEq

/-- The messages given to `kpanic` by the allocator. -/
inductive kpanic_msg where
  | MSG_KERNEL_HEAP_EXCEED
  | MSG_KERNEL_HEAP_TABLE_EXCEED
  | invalid_kernel_heap_address_to_free
  | kernel_heap_corrupted
  | assertion_failed
  deriving DecidableEq

/-- The outcome of a call: it returns, or it halts in `kpanic`. -/
inductive Result (α : Type) where
  | ret (val : α) (t : Table)
  | panic (msg : kpanic_msg) (t : Table)
  deriving DecidableEq

/-- The table after `kheap_init` (without the self test): `memset` to zero. -/
def kheap_init (c : Config) : Table :=
  List.replicate c.KHEAP_MAX_ENTRIES entry_zero

/-- Read of the descriptor in slot `i`. -/
def rd (t : Table) (i : Nat) : kernel_heap_entry_t := t.getD i entry_zero

/-- Write through a descriptor pointer: slot `i` becomes `f` of its content. -/
def upd (t : Table) (i : Nat) (f : kernel_heap_entry_t → kernel_heap_entry_t) : Table :=
  t.set i (f (rd t i))

/-- The assignment `entry->is_valid = v` for the descriptor in slot `i`. -/
def set_is_valid (t : Table) (i : Nat) (v : Bool) : Table :=
  upd t i (fun e => { e with is_valid := v })

/-- The assignment `entry->is_buzy = v`. -/
def set_is_buzy (t : Table) (i : Nat) (v : Bool) : Table :=
  upd t i (fun e => { e with is_buzy := v })

/-- The assignment `entry->addr = v`. -/
def set_addr (t : Table) (i : Nat) (v : Nat) : Table :=
  upd t i (fun e => { e with addr := v })

/-- The assignment `entry->size = v`. -/
def set_size (t : Table) (i : Nat) (v : Nat) : Table :=
  upd t i (fun e => { e with size := v })

/-- The assignment `entry->prev = v`. -/
def set_prev (t : Table) (i : Nat) (v : Option Nat) : Table :=
  upd t i (fun e => { e with prev := v })

/-- The assignment `entry->next = v`. -/
def set_next (t : Table) (i : Nat) (v : Option Nat) : Table :=
  upd t i (fun e => { e with next := v })

/-- The call `memset(entry, 0, sizeof(struct kernel_heap_entry_t))`. -/
def memset_entry (t : Table) (i : Nat) : Table :=
  upd t i (fun _ => entry_zero)

/-- The function `kheap_table_entries_start`: the address of the first slot. -/
def kheap_table_entries_start : Nat := 0

/-- The function `kheap_table_entries_next`. -/
def kheap_table_entries_next (c : Config) (entry : Option Nat) : Option Nat :=
  match entry with
  | none => some kheap_table_entries_start
  | some i => if i + 1 < c.KHEAP_MAX_ENTRIES then some (i + 1) else none

/-- The function `kheap_table_entries_end`: the address of the last slot. -/
def kheap_table_entries_end (c : Config) : Nat := c.KHEAP_MAX_ENTRIES - 1

/-- The loop `for (e = first; e != kheap_table_entries_end(); e = next(e))`
with a body that returns the first slot satisfying `p`: it examines `n`
slots from slot `i` on. -/
def scan_slots (p : kernel_heap_entry_t → Bool) (t : Table) : Nat → Nat → Option Nat
  | _, 0 => none
  | i, n + 1 => if p (rd t i) then some i else scan_slots p t (i + 1) n

/-- The loop `for (; entry != kheap_table_entries_end(); entry =
kheap_table_entries_next(entry))` of the source with a body that returns the
first entry satisfying `p`, run for at most `fuel` entries. The source never
reaches it with a null `entry`. -/
def entries_loop (c : Config) (p : kernel_heap_entry_t → Bool) (t : Table) :
    Nat → Option Nat → Option Nat
  | 0, _ => none
  | _ + 1, none => none
  | fuel + 1, some i =>
    if i = kheap_table_entries_end c then none
    else if p (rd t i) then some i
    else entries_loop c p t fuel (kheap_table_entries_next c (some i))

/-- The first slot examined by a scan that starts after `entry`, the slot
that `kheap_table_entries_next(entry)` gives. -/
def scan_start (entry : Option Nat) : Nat :=
  match entry with
  | none => kheap_table_entries_start
  | some i => i + 1

/-- The function `kheap_find_block`: the slots after `entry` and before the
last slot are examined in order. `kmalloc` passes null or a slot that an
earlier call found, never the last slot. -/
def kheap_find_block (c : Config) (t : Table) (entry : Option Nat)
    (is_valid is_buzy : Bool) : Option Nat :=
  scan_slots (fun e => e.is_valid == is_valid && e.is_buzy == is_buzy) t
    (scan_start entry) (kheap_table_entries_end c - scan_start entry)

/-- The function `kheap_find_first_valid_block`. -/
def kheap_find_first_valid_block (c : Config) (t : Table) (entry : Option Nat) : Option Nat :=
  scan_slots (fun e => e.is_valid == true) t
    (scan_start entry) (kheap_table_entries_end c - scan_start entry)

/-- The loop of `kheap_get_highest_entry` over `n` slots from slot `i` on,
carrying `highest_entry` and `max_right_border`. -/
def highest_loop (t : Table) : Nat → Nat → Option Nat → Nat → Option Nat
  | _, 0, highest_entry, _ => highest_entry
  | i, n + 1, highest_entry, max_right_border =>
    if (rd t i).is_valid == true then
      let right_border := add32 (rd t i).addr (rd t i).size
      if right_border ≥ max_right_border then
        highest_loop t (i + 1) n (some i) right_border
      else highest_loop t (i + 1) n highest_entry max_right_border
    else highest_loop t (i + 1) n highest_entry max_right_border

/-- The function `kheap_get_highest_entry`. -/
def kheap_get_highest_entry (c : Config) (t : Table) : Option Nat :=
  highest_loop t kheap_table_entries_start (kheap_table_entries_end c) none 0

/-- The branch of `kmalloc` for `current->size < size` with a free left
sibling `sibling = current->prev` (lines 58-89): the result is the returned
`current->addr` and the table. -/
def kmalloc_take_left (t : Table) (current sibling size : Nat) : Nat × Table :=
  let lack := sub32 size (rd t current).size
  let t := set_size t sibling (sub32 (rd t sibling).size lack)
  let t := set_addr t current (sub32 (rd t current).addr lack)
  let t := set_size t current (add32 (rd t current).size lack)
  let t :=
    if (rd t sibling).size == 0 then
      let t :=
        match (rd t sibling).prev with
        | some sibling2 =>
          let t := set_next t sibling2 (some current)
          set_prev t current (some sibling2)
        | none => set_prev t current none
      memset_entry t sibling
    else t
  let t := set_is_buzy t current true
  ((rd t current).addr, t)

/-- The branch of `kmalloc` for `current->size < size`, no left sibling and
no right sibling (lines 94-107): the last block grows in place when the heap
has room. -/
def kmalloc_grow (c : Config) (t : Table) (current size : Nat) : Option (Nat × Table) :=
  let heap_end_addr := add32 (rd t current).addr (rd t current).size
  let lack := sub32 size (rd t current).size
  if add32 heap_end_addr lack < c.KHEAP_END_ADDR then
    let t := set_size t current (add32 (rd t current).size lack)
    let t := set_is_buzy t current true
    some ((rd t current).addr, t)
  else none

/-- The part of `kmalloc` that gives the surplus of `current` to a new
right sibling (lines 131-146). -/
def kmalloc_split (c : Config) (t : Table) (current surplus : Nat) : Table :=
  match kheap_find_block c t none false false with
  | some new_sibling =>
    let t := set_size t current (sub32 (rd t current).size surplus)
    let t := set_is_valid t new_sibling true
    let t := set_is_buzy t new_sibling false
    let t := set_addr t new_sibling (add32 (rd t current).addr (rd t current).size)
    let t := set_size t new_sibling surplus
    let t := set_prev t new_sibling (some current)
    let t := set_next t new_sibling (rd t current).next
    let t :=
      match (rd t current).next with
      | some n => set_prev t n (some new_sibling)
      | none => t
    set_next t current (some new_sibling)
  | none => t

/-- The branch of `kmalloc` for `current->size >= size` (lines 112-152). -/
def kmalloc_occupy (c : Config) (t : Table) (current size : Nat) : Nat × Table :=
  let t := set_is_buzy t current true
  let t :=
    match (rd t current).next with
    | some sibling =>
      let surplus := sub32 (rd t current).size size
      if !(rd t sibling).is_buzy then
        let t := set_size t current (sub32 (rd t current).size surplus)
        let t := set_addr t sibling (sub32 (rd t sibling).addr surplus)
        set_size t sibling (add32 (rd t sibling).size surplus)
      else kmalloc_split c t current surplus
    | none => t
  ((rd t current).addr, t)

/-- The body of the first loop of `kmalloc` for the free valid block
`current` (lines 46-153): `some` when the block is handed out, `none` when
the scan goes on (the table is then untouched). -/
def kmalloc_try (c : Config) (t : Table) (current size : Nat) : Option (Nat × Table) :=
  if (rd t current).size < size then
    match (rd t current).prev with
    | some sibling =>
      if !(rd t sibling).is_buzy then some (kmalloc_take_left t current sibling size)
      else none
    | none =>
      if (rd t current).next = none then kmalloc_grow c t current size
      else none
  else some (kmalloc_occupy c t current size)

/-- The first loop of `kmalloc` (lines 40-155), `do ... while (current != null)`,
run for at most `fuel` iterations. -/
def kmalloc_loop (c : Config) (t : Table) (size : Nat) :
    Nat → Option Nat → Option (Nat × Table)
  | 0, _ => none
  | fuel + 1, current =>
    match kheap_find_block c t current true false with
    | some i =>
      match kmalloc_try c t i size with
      | some r => some r
      | none => kmalloc_loop c t size fuel (some i)
    | none => none

/-- The address at which `kmalloc` appends a block: the right border of the
highest entry, or the start of the heap (lines 161-167). -/
def heap_end (c : Config) (t : Table) : Nat :=
  match kheap_get_highest_entry c t with
  | some h => add32 (rd t h).addr (rd t h).size
  | none => c.KHEAP_START_ADDR

/-- The second part of `kmalloc` (lines 157-196): a new block at the end of
the heap. -/
def kmalloc_append (c : Config) (t : Table) (size : Nat) : Result Nat :=
  let highest := kheap_get_highest_entry c t
  let heap_end_addr := heap_end c t
  if add32 heap_end_addr size ≥ c.KHEAP_END_ADDR then
    Result.panic kpanic_msg.MSG_KERNEL_HEAP_EXCEED t
  else
    match kheap_find_block c t none false false with
    | none => Result.panic kpanic_msg.MSG_KERNEL_HEAP_TABLE_EXCEED t
    | some current =>
      let t := set_addr t current heap_end_addr
      let t := set_size t current size
      let t := set_is_valid t current true
      let t := set_is_buzy t current true
      let t := set_prev t current highest
      let t := set_next t current none
      let t :=
        match highest with
        | some h => set_next t h (some current)
        | none => t
      Result.ret (rd t current).addr t

/-- The function `kmalloc`. Every iteration of the first loop moves
`current` to a later slot, so `KHEAP_MAX_ENTRIES` iterations are enough. -/
def kmalloc (c : Config) (t : Table) (size : Nat) : Result Nat :=
  match kmalloc_loop c t size c.KHEAP_MAX_ENTRIES none with
  | some (p, t) => Result.ret p t
  | none => kmalloc_append c t size

/-- The merge of `current` into a free left sibling in `kfree` (lines 215-220). -/
def kfree_merge_left (t : Table) (current : Nat) : Table :=
  match (rd t current).prev with
  | some p =>
    if !(rd t p).is_buzy then
      let t := set_size t p (add32 (rd t p).size (rd t current).size)
      memset_entry t current
    else t
  | none => t

/-- The merge of a free right sibling into `current` in `kfree` (lines 222-227). -/
def kfree_merge_right (t : Table) (current : Nat) : Table :=
  match (rd t current).next with
  | some n =>
    if !(rd t n).is_buzy then
      let t := set_size t current (add32 (rd t current).size (rd t n).size)
      memset_entry t n
    else t
  | none => t

/-- The body of the loop of `kfree` for the matching block (lines 212-229). -/
def kfree_block (t : Table) (current : Nat) : Table :=
  let t := set_is_buzy t current false
  let t := kfree_merge_left t current
  kfree_merge_right t current

/-- The function `kfree`: the slots before the last one are searched for a
valid busy block at `addr`. -/
def kfree (c : Config) (t : Table) (addr : Nat) : Result Unit :=
  match scan_slots (fun e => e.is_valid && e.addr == addr && e.is_buzy) t
      kheap_table_entries_start (kheap_table_entries_end c) with
  | some current => Result.ret () (kfree_block t current)
  | none => Result.panic kpanic_msg.invalid_kernel_heap_address_to_free t

/-- The loop of `kheap_validate` (lines 372-383) from `current` on, for at
most `fuel` blocks: `some true` when the chain ends without a hole,
`some false` at a hole, `none` when `fuel` blocks did not end the chain. -/
def validate_loop (t : Table) : Nat → Option Nat → Option Bool
  | _, none => some true
  | 0, some _ => none
  | fuel + 1, some current =>
    let addr := add32 (rd t current).addr (rd t current).size
    match (rd t current).next with
    | some next => if (rd t next).addr ≠ addr then some false else validate_loop t fuel (some next)
    | none => some true

/-- The function `kheap_validate` as a debug build has it (`DEBUG` defined,
`kassert` checking): `none` where the source has no defined outcome (it reads
`entry->prev` of a null `entry` when no block is valid) or where `fuel` blocks
do not end the chain. -/
def kheap_validate (c : Config) (t : Table) (fuel : Nat) : Option (Result Unit) :=
  match kheap_find_first_valid_block c t none with
  | none => none
  | some entry =>
    if (rd t entry).prev ≠ none then some (Result.panic kpanic_msg.assertion_failed t)
    else
      match validate_loop t fuel (some entry) with
      | some true => some (Result.ret () t)
      | some false => some (Result.panic kpanic_msg.kernel_heap_corrupted t)
      | none => none

/-- The tables reachable from `kheap_init` by calls of `kmalloc` and `kfree`
that return; the arguments are 32-bit values. -/
inductive Reachable (c : Config) : Table → Prop where
  | init : Reachable c (kheap_init c)
  | kmalloc {t t' : Table} {size p : Nat} : Reachable c t → size < WORD →
      kmalloc c t size = Result.ret p t' → Reachable c t'
  | kfree {t t' : Table} {addr : Nat} : Reachable c t → addr < WORD →
      kfree c t addr = Result.ret () t' → Reachable c t'

/-- What the first loop of `kmalloc` and `kfree` rely on, and what every
call keeps: the table has `KHEAP_MAX_ENTRIES` slots, the last slot is
unused, an unused slot is not busy, no two descriptors that are both free
are each other's `prev`, and every size is a 32-bit value. -/
structure Inv (c : Config) (t : Table) : Prop where
  len : t.length = c.KHEAP_MAX_ENTRIES
  last_unused : (rd t (c.KHEAP_MAX_ENTRIES - 1)).is_valid = false
  unused_free : ∀ i, (rd t i).is_valid = false → (rd t i).is_buzy = false
  no_free_cycle : ∀ i j, (rd t i).prev = some j → (rd t j).prev = some i →
    (rd t i).is_buzy = true ∨ (rd t j).is_buzy = true
  size_lt : ∀ i, (rd t i).size < WORD

/-- The way a returning `kmalloc` that hands out the block in slot `cur`
changes validity, business, `prev` links and sizes: `cur` ends valid and
busy; every other slot is cleared, or keeps the three, or is a new free block
behind `cur`, or is a busy block that stays busy. -/
def AllocStep (c : Config) (t t' : Table) (cur : Nat) : Prop :=
  t'.length = t.length ∧ cur < c.KHEAP_MAX_ENTRIES - 1 ∧
  (rd t' cur).is_valid = true ∧ (rd t' cur).is_buzy = true ∧
  (∀ k, (rd t k).size < WORD → (rd t' k).size < WORD) ∧
  ∀ k, k ≠ cur →
    ((rd t' k).is_valid = false ∧ (rd t' k).is_buzy = false ∧ (rd t' k).prev = none) ∨
    ((rd t' k).is_valid = (rd t k).is_valid ∧ (rd t' k).is_buzy = (rd t k).is_buzy ∧
      (rd t' k).prev = (rd t k).prev) ∨
    (k < c.KHEAP_MAX_ENTRIES - 1 ∧ (rd t' k).is_valid = true ∧ (rd t' k).prev = some cur) ∨
    ((rd t' k).is_valid = (rd t k).is_valid ∧ (rd t' k).is_buzy = true ∧ (rd t k).is_buzy = true)

/-- The way `kfree` changes validity, business, `prev` links and sizes when
it releases the block in slot `cur`. -/
def FreeStep (t t' : Table) (cur : Nat) : Prop :=
  t'.length = t.length ∧ (rd t' cur).is_buzy = false ∧
  (∀ k, (rd t k).size < WORD → (rd t' k).size < WORD) ∧
  (∀ j, (rd t' cur).prev = some j → j ≠ cur ∧ (rd t' j).is_buzy = true) ∧
  ∀ k,
    ((rd t' k).is_valid = false ∧ (rd t' k).is_buzy = false ∧ (rd t' k).prev = none) ∨
    ((rd t' k).is_valid = (rd t k).is_valid ∧ (rd t' k).prev = (rd t k).prev ∧
      (k ≠ cur → (rd t' k).is_buzy = (rd t k).is_buzy))

/-- What a returning `kmalloc(size)` leaves in slot `cur` for the address `p`
it returns: a valid busy block at `p` of the requested size, or a free block
of the table before that was larger and is handed out whole, because it has
no right sibling or because no slot is left for the surplus. -/
def Served (c : Config) (t t' : Table) (cur size p : Nat) : Prop :=
  cur < c.KHEAP_MAX_ENTRIES - 1 ∧ (rd t' cur).is_valid = true ∧ (rd t' cur).is_buzy = true ∧
  (rd t' cur).addr = p ∧
  ((rd t' cur).size = size ∨
    ((rd t cur).is_valid = true ∧ (rd t cur).is_buzy = false ∧ size < (rd t cur).size ∧
      (rd t' cur).size = (rd t cur).size ∧
      ((rd t cur).next = none ∨ kheap_find_block c t none false false = none)))

/-- The right border `entry->addr + entry->size` of the block in slot `i`. -/
def right_border (t : Table) (i : Nat) : Nat := add32 (rd t i).addr (rd t i).size

/-- What `kheap_get_highest_entry` holds after the slots below `i`: no
entry when none of them is valid, else a valid one whose right border is the
largest. -/
def HighestOf (t : Table) (i : Nat) (r : Option Nat) : Prop :=
  match r with
  | none => ∀ j, j < i → (rd t j).is_valid = false
  | some h => h < i ∧ (rd t h).is_valid = true ∧
      ∀ j, j < i → (rd t j).is_valid = true → right_border t j ≤ right_border t h

/-- The value of `max_right_border` that goes with `highest_entry`. -/
def border_of (t : Table) (r : Option Nat) : Nat :=
  match r with
  | some x => right_border t x
  | none => 0

/-- Successive `kmalloc` calls with the sizes of the list and no `kfree` in
between: the returned addresses and the last table, or `none` when a call
halts. -/
def kmalloc_seq (c : Config) : Table → List Nat → Option (List Nat × Table)
  | t, [] => some ([], t)
  | t, s :: ss =>
    match kmalloc c t s with
    | Result.ret p t' =>
      match kmalloc_seq c t' ss with
      | some (ps, t2) => some (p :: ps, t2)
      | none => none
    | Result.panic _ _ => none

/-- The addresses `a`, `a + s_1`, `a + s_1 + s_2`, ... of blocks of the
sizes of the list laid out from `a` on. -/
def contiguous_from : Nat → List Nat → List Nat
  | _, [] => []
  | a, s :: ss => a :: contiguous_from (a + s) ss

/-- A table that holds `j` busy blocks in its first `j` slots and nothing
else, the blocks ending at `a`. -/
def Packed (c : Config) (t : Table) (j a : Nat) : Prop :=
  t.length = c.KHEAP_MAX_ENTRIES ∧
  (∀ i, i < j → (rd t i).is_valid = true ∧ (rd t i).is_buzy = true) ∧
  (∀ i, j ≤ i → (rd t i).is_valid = false ∧ (rd t i).is_buzy = false) ∧
  (∀ i, i < j → right_border t i ≤ a) ∧
  (j = 0 → a = c.KHEAP_START_ADDR) ∧
  (0 < j → ∃ i, i < j ∧ right_border t i = a)

/-- A call of the allocator. -/
inductive Call where
  | kmalloc (size : Nat)
  | kfree (addr : Nat)
  deriving DecidableEq

/-- A sequence of calls with 32-bit arguments, from the table `t` on: the
table after the last call, or `none` when a call halts in `kpanic`. -/
def run_calls (c : Config) : Table → List Call → Option Table
  | t, [] => some t
  | t, Call.kmalloc size :: cs =>
    if size < WORD then
      match kmalloc c t size with
      | Result.ret _ t' => run_calls c t' cs
      | Result.panic _ _ => none
    else none
  | t, Call.kfree addr :: cs =>
    if addr < WORD then
      match kfree c t addr with
      | Result.ret _ t' => run_calls c t' cs
      | Result.panic _ _ => none
    else none

/-- The configuration of the scenarios: 8 descriptor slots and the heap
region from `0x100000` up to `0x200000`. -/
def cfg0 : Config := ⟨8, 0x100000, 0x200000⟩

/-- The table after `a = kmalloc(32); kfree(a)` on a fresh heap: one free
block of 32 bytes. -/
def table_one_free_block : Table :=
  [⟨true, false, 0x100000, 32, none, none⟩, entry_zero, entry_zero, entry_zero,
    entry_zero, entry_zero, entry_zero, entry_zero]

/-- The table after `kmalloc(16)` on a fresh heap. -/
def table_one_block : Table :=
  [⟨true, true, 0x100000, 16, none, none⟩, entry_zero, entry_zero, entry_zero,
    entry_zero, entry_zero, entry_zero, entry_zero]

/-- The fields `is_valid`, `is_buzy`, `addr` and `size` of two descriptors
are the same. -/
def SameBlock (e e' : kernel_heap_entry_t) : Prop :=
  e'.is_valid = e.is_valid ∧ e'.is_buzy = e.is_buzy ∧ e'.addr = e.addr ∧ e'.size = e.size

/-- The table after `a = kmalloc(16); b = kmalloc(16); c = kmalloc(16);
kfree(b)` on a fresh heap: a free block between two busy ones. -/
def table_hole : Table :=
  [⟨true, true, 0x100000, 16, none, some 1⟩, ⟨true, false, 0x100010, 16, some 0, some 2⟩,
    ⟨true, true, 0x100020, 16, some 1, none⟩, entry_zero, entry_zero, entry_zero,
    entry_zero, entry_zero]

/-- The table after `a = kmalloc(16); b = kmalloc(16); kfree(b)` on a fresh
heap: a free last block behind a busy one. -/
def table_free_tail : Table :=
  [⟨true, true, 0x100000, 16, none, some 1⟩, ⟨true, false, 0x100010, 16, some 0, none⟩,
    entry_zero, entry_zero, entry_zero, entry_zero, entry_zero, entry_zero]

end KHeap

/-!
# Scheduler (`src/kernel/sched/sched.c`)

A shallow embedding of `sched_schedule`.

* Memory is a byte for every 32-bit address; the words of the source are read
  and written least significant byte first.
* The task table behind `sched_get_task_by_index` is a function from the
  index to the task; it is kept apart from memory.
* `sched_find_task_to_run_index`, `TASK_QUOTA` and the layout of
  `gp_registers` are not part of the sources at hand and are parameters.
* `kprint` has no effect on the state and is left out.
* A call ends by returning, in `asm_switch_context`, in
  `kpanic(MSG_SCHED_NO_TASKS)`, or at a read through the null `this_task`.
-/

namespace Sched

/-- Memory as the scheduler sees it: a byte for every 32-bit address. -/
abbrev Mem := Nat → Nat

/-- The byte at address `a`. -/
def read_byte (m : Mem) (a : Nat) : Nat := m (a % KHeap.WORD) % 256

/-- Store of the byte `v` at address `a`. -/
def write_byte (m : Mem) (a v : Nat) : Mem :=
  fun x => if x = a % KHeap.WORD then v % 256 else m x

/-- The `n` bytes from address `a` on. -/
def read_bytes (m : Mem) : Nat → Nat → List Nat
  | _, 0 => []
  | a, n + 1 => read_byte m a :: read_bytes m (a + 1) n

/-- Store of the bytes `bs` from address `a` on. -/
def write_bytes (m : Mem) : Nat → List Nat → Mem
  | _, [] => m
  | a, b :: bs => write_bytes (write_byte m a b) (a + 1) bs

/-- The `n` low bytes of `v`, least significant first (x86 byte order). -/
def le_bytes : Nat → Nat → List Nat
  | _, 0 => []
  | v, n + 1 => v % 256 :: le_bytes (v / 256) n

/-- The value of bytes given least significant first. -/
def le_value : List Nat → Nat
  | [] => 0
  | b :: bs => b % 256 + 256 * le_value bs

/-- The read `*(u32*)a`. -/
def read_u32 (m : Mem) (a : Nat) : Nat := le_value (read_bytes m a 4)

/-- The read `*(u16*)a`. -/
def read_u16 (m : Mem) (a : Nat) : Nat := le_value (read_bytes m a 2)

/-- The store `*(u32*)a = v`. -/
def write_u32 (m : Mem) (a v : Nat) : Mem := write_bytes m a (le_bytes v 4)

/-- The store `*(u16*)a = v`. -/
def write_u16 (m : Mem) (a v : Nat) : Mem := write_bytes m a (le_bytes v 2)

/-- Modelled from the spec: the operational registers of a task
(`arch/reg.h` is not among the sources): `eip` (program counter), `cs` (code
segment selector, 16 bits), `esp` (stack pointer). -/
structure op_registers_t where
  eip : Nat
  cs : Nat
  esp : Nat
  deriving DecidableEq

/-- Modelled from the spec: `struct sched_task` (`sched/task.h` is not among
the sources), the fields the scheduler uses: `time`, the ticks consumed since
the task last started; `op_registers`; `flags`, the processor flags at
suspension (32 bits); `gp_registers`, a struct of general-purpose registers
whose layout matches the push order of the trampoline byte for byte, held
here as its byte image. The type of `time` is not known; it is counted
without an upper bound. -/
structure sched_task where
  time : Nat
  op_registers : op_registers_t
  flags : Nat
  gp_registers : List Nat
  deriving DecidableEq

/-- The constants the scheduler is compiled with, none of them among the
sources: `TASK_QUOTA`, `sizeof(gp_registers)` and the offset of the field
`esp` in `gp_registers`. -/
structure Layout where
  TASK_QUOTA : Nat
  GP_SIZE : Nat
  GP_ESP : Nat
  deriving DecidableEq

/-- The state the scheduler works on: `current_task_index`, the task table
behind `sched_get_task_by_index` (modelled from the spec: an external table
indexed by a small integer), and memory. -/
structure SchedState where
  current_task_index : Int
  tasks : Int → sched_task
  mem : Mem

/-- The ways a call of `sched_schedule` ends: it returns to the trampoline,
it calls `asm_switch_context(esp)`, it halts in `kpanic(MSG_SCHED_NO_TASKS)`,
or it comes to read `this_task->op_registers.esp` through a null `this_task`
(line 62), which has no defined outcome. Each carries the state at that
moment. -/
inductive Outcome where
  | returned (s : SchedState)
  | switched (esp : Nat) (s : SchedState)
  | panic_no_tasks (s : SchedState)
  | null_dereference (s : SchedState)

/-- Store of the bytes `bs` into a byte image from offset `off` on. -/
def write_image : List Nat → Nat → List Nat → List Nat
  | g, _, [] => g
  | g, off, b :: bs => write_image (g.set off b) (off + 1) bs

/-- The `n` bytes of a byte image from offset `off` on. -/
def read_image (g : List Nat) : Nat → Nat → List Nat
  | _, 0 => []
  | off, n + 1 => g.getD off 0 :: read_image g (off + 1) n

/-- The field `gp_registers.esp` read from the byte image of the struct. -/
def get_gp_esp (lay : Layout) (g : List Nat) : Nat :=
  le_value (read_image g lay.GP_ESP 4)

/-- The assignment `gp_registers.esp = v` on the byte image of the struct. -/
def set_gp_esp (lay : Layout) (g : List Nat) (v : Nat) : List Nat :=
  write_image g lay.GP_ESP (le_bytes v 4)

/-- Write through the task pointer `sched_get_task_by_index(i)`. -/
def upd_task (s : SchedState) (i : Int) (f : sched_task → sched_task) : SchedState :=
  { s with tasks := fun j => if j = i then f (s.tasks i) else s.tasks j }

/-- The save of the current task in `sched_schedule` (lines 45-50). -/
def sched_save (lay : Layout) (s : SchedState) (this_task : Int) (ret_addr reg_addr : Nat) :
    SchedState :=
  let s := upd_task s this_task (fun t =>
    { t with op_registers := { t.op_registers with eip := read_u32 s.mem ret_addr } })
  let s := upd_task s this_task (fun t =>
    { t with op_registers := { t.op_registers with cs := read_u16 s.mem (KHeap.add32 ret_addr 4) } })
  let s := upd_task s this_task (fun t =>
    { t with flags := read_u32 s.mem (KHeap.add32 ret_addr 6) })
  let s := upd_task s this_task (fun t =>
    { t with op_registers := { t.op_registers with esp := KHeap.add32 ret_addr 10 } })
  let s := upd_task s this_task (fun t =>
    { t with gp_registers := set_gp_esp lay t.gp_registers t.op_registers.esp })
  upd_task s this_task (fun t =>
    { t with gp_registers := read_bytes s.mem reg_addr lay.GP_SIZE })

/-- Lines 57-61 of `sched_schedule`: the return frame of the next task is
stored below its saved `esp`, which then moves down by 10. -/
def sched_push_frame (s : SchedState) (next_task : Int) : SchedState :=
  let next := s.tasks next_task
  let m := write_u32 s.mem (KHeap.sub32 next.op_registers.esp 4) next.flags
  let m := write_u16 m (KHeap.sub32 next.op_registers.esp 6) next.op_registers.cs
  let m := write_u32 m (KHeap.sub32 next.op_registers.esp 10) next.op_registers.eip
  upd_task { s with mem := m } next_task (fun t =>
    { t with op_registers := { t.op_registers with esp := KHeap.sub32 t.op_registers.esp 10 } })

/-- Lines 62-64 of `sched_schedule`, for a `this_task` that is not null:
the `esp` field of the registers of the next task is set to the saved `esp`
of `this_task`, the saved `esp` of the next task moves down by
`sizeof(gp_registers)` and the registers are copied there. -/
def sched_push_registers (lay : Layout) (s : SchedState) (this_task next_task : Int) :
    SchedState :=
  let s := upd_task s next_task (fun t =>
    { t with gp_registers :=
      set_gp_esp lay t.gp_registers (s.tasks this_task).op_registers.esp })
  let s := upd_task s next_task (fun t =>
    { t with op_registers :=
      { t.op_registers with esp := KHeap.sub32 t.op_registers.esp lay.GP_SIZE } })
  let next := s.tasks next_task
  { s with mem := write_bytes s.mem next.op_registers.esp next.gp_registers }

/-- The second half of `sched_schedule` (lines 54-69): the frame and the
registers of the next task are laid out below its saved `esp` and the context
is switched. `this_task` is `none` for a null pointer. -/
def sched_switch (lay : Layout) (s : SchedState) (this_task : Option Int)
    (next_task : Int) : Outcome :=
  let s := sched_push_frame { s with current_task_index := next_task } next_task
  match this_task with
  | none => Outcome.null_dereference s
  | some this_task =>
    let s := sched_push_registers lay s this_task next_task
    Outcome.switched (s.tasks next_task).op_registers.esp s

/-- The function `sched_schedule`. The task finder
`sched_find_task_to_run_index` is not among the sources and is the parameter
`find`. -/
def sched_schedule (lay : Layout) (find : Int → Int) (s : SchedState)
    (ret_addr reg_addr : Nat) : Outcome :=
  let next_task_index := find s.current_task_index
  if next_task_index = -1 then Outcome.panic_no_tasks s
  else if s.current_task_index ≠ -1 then
    let this_task := s.current_task_index
    let s := upd_task s this_task (fun t => { t with time := t.time + 1 })
    if (s.tasks this_task).time < lay.TASK_QUOTA then Outcome.returned s
    else
      let s := upd_task s this_task (fun t => { t with time := 0 })
      let s := sched_save lay s this_task ret_addr reg_addr
      sched_switch lay s (some this_task) next_task_index
  else sched_switch lay s none next_task_index

/-- The state in which the next call of `sched_schedule` is entered: the
state at the return to the trampoline or at the context switch; there is no
next call after a halt. -/
def next_state : Outcome → Option SchedState
  | Outcome.returned s => some s
  | Outcome.switched _ s => some s
  | Outcome.panic_no_tasks _ => none
  | Outcome.null_dereference _ => none

/-- Timer ticks in sequence: `sched_schedule` called once for each pair
`(ret_addr, reg_addr)` of the list. -/
def sched_run (lay : Layout) (find : Int → Int) : SchedState → List (Nat × Nat) → Option SchedState
  | s, [] => some s
  | s, a :: rest =>
    match next_state (sched_schedule lay find s a.1 a.2) with
    | some s1 => sched_run lay find s1 rest
    | none => none

/-- The value of `current_task_index` on entry to each call of a sequence of
timer ticks. -/
def sched_entries (lay : Layout) (find : Int → Int) : SchedState → List (Nat × Nat) → List Int
  | _, [] => []
  | s, a :: rest =>
    s.current_task_index ::
      match next_state (sched_schedule lay find s a.1 a.2) with
      | some s1 => sched_entries lay find s1 rest
      | none => []

/-- Modelled from the spec: `sched_find_task_to_run_index` for two runnable
tasks 0 and 1, which alternate. -/
def alternate (i : Int) : Int := if i = 0 then 1 else 0

/-- A layout for the scenarios: a quota of 3 ticks and the 32-byte register
block of `pusha`, with `esp` at offset 12. -/
def lay0 : Layout := ⟨3, 32, 12⟩

/-- A task at rest: entry point, code segment, stack pointer, flags and a
register block of 32 bytes, each of value `b`. -/
def task_at (eip esp b : Nat) : sched_task := ⟨0, ⟨eip, 8, esp⟩, 0x202, List.replicate 32 b⟩

/-- Two tasks with stacks below `0x8000` and `0x9000`, over zeroed memory,
task 0 running. -/
def sched0 : SchedState :=
  ⟨0, fun i => if i = 0 then task_at 0x1000 0x8000 0x11 else task_at 0x2000 0x9000 0x22,
    fun _ => 0⟩

/-- The state `sched0` with task 0 one tick short of its quota. -/
def sched_due : SchedState := upd_task sched0 0 (fun t => { t with time := 2 })

/-- The state before the first schedule: `current_task_index` is -1. -/
def sched_first : SchedState := { sched0 with current_task_index := -1 }

end Sched

namespace KHeap

/-! ## Reading and writing slots -/

theorem length_upd (t : Table) (i : Nat) (f : kernel_heap_entry_t → kernel_heap_entry_t) :
    (upd t i f).length = t.length := by
  simp [upd]

theorem rd_of_length_le (t : Table) (i : Nat) (h : t.length ≤ i) : rd t i = entry_zero := by
  unfold rd
  exact List.getD_eq_default _ _ h

theorem rd_upd (t : Table) (i j : Nat) (f : kernel_heap_entry_t → kernel_heap_entry_t) :
    rd (upd t i f) j = if j = i ∧ i < t.length then f (rd t i) else rd t j := by
  by_cases h : j = i
  · subst h
    by_cases h2 : j < t.length
    · simp only [h2, and_self, if_true]
      unfold upd
      generalize f (rd t j) = x
      unfold rd
      rw [List.getD_eq_getElem?_getD, List.getElem?_set]
      simp [h2]
    · have h3 : t.length ≤ j := by omega
      simp only [h2, and_false, if_false]
      rw [rd_of_length_le t j h3, rd_of_length_le _ j (by rw [length_upd]; exact h3)]
  · have h3 : ¬ i = j := fun e => h e.symm
    simp only [h, false_and, if_false]
    unfold upd
    generalize f (rd t i) = x
    unfold rd
    rw [List.getD_eq_getElem?_getD, List.getD_eq_getElem?_getD, List.getElem?_set]
    simp [h3]

theorem lt_length_of_valid (t : Table) (i : Nat) (h : (rd t i).is_valid = true) :
    i < t.length := by
  by_contra hc
  rw [rd_of_length_le t i (by omega)] at h
  simp [entry_zero] at h

@[simp] theorem length_set_is_valid (t : Table) (i : Nat) (v : Bool) :
    (set_is_valid t i v).length = t.length := length_upd t i _

@[simp] theorem length_set_is_buzy (t : Table) (i : Nat) (v : Bool) :
    (set_is_buzy t i v).length = t.length := length_upd t i _

@[simp] theorem length_set_addr (t : Table) (i : Nat) (v : Nat) :
    (set_addr t i v).length = t.length := length_upd t i _

@[simp] theorem length_set_size (t : Table) (i : Nat) (v : Nat) :
    (set_size t i v).length = t.length := length_upd t i _

@[simp] theorem length_set_prev (t : Table) (i : Nat) (v : Option Nat) :
    (set_prev t i v).length = t.length := length_upd t i _

@[simp] theorem length_set_next (t : Table) (i : Nat) (v : Option Nat) :
    (set_next t i v).length = t.length := length_upd t i _

@[simp] theorem length_memset_entry (t : Table) (i : Nat) :
    (memset_entry t i).length = t.length := length_upd t i _

@[simp] theorem rd_set_is_valid_is_valid (t : Table) (i j : Nat) (v : Bool) :
    (rd (set_is_valid t i v) j).is_valid = if j = i ∧ i < t.length then v else (rd t j).is_valid := by
  unfold set_is_valid; rw [rd_upd]; split <;> rfl

@[simp] theorem rd_set_is_valid_is_buzy (t : Table) (i j : Nat) (v : Bool) :
    (rd (set_is_valid t i v) j).is_buzy = (rd t j).is_buzy := by
  unfold set_is_valid; rw [rd_upd]; split
  · rename_i h; rw [h.1]
  · rfl

@[simp] theorem rd_set_is_valid_addr (t : Table) (i j : Nat) (v : Bool) :
    (rd (set_is_valid t i v) j).addr = (rd t j).addr := by
  unfold set_is_valid; rw [rd_upd]; split
  · rename_i h; rw [h.1]
  · rfl

@[simp] theorem rd_set_is_valid_size (t : Table) (i j : Nat) (v : Bool) :
    (rd (set_is_valid t i v) j).size = (rd t j).size := by
  unfold set_is_valid; rw [rd_upd]; split
  · rename_i h; rw [h.1]
  · rfl

@[simp] theorem rd_set_is_valid_prev (t : Table) (i j : Nat) (v : Bool) :
    (rd (set_is_valid t i v) j).prev = (rd t j).prev := by
  unfold set_is_valid; rw [rd_upd]; split
  · rename_i h; rw [h.1]
  · rfl

@[simp] theorem rd_set_is_valid_next (t : Table) (i j : Nat) (v : Bool) :
    (rd (set_is_valid t i v) j).next = (rd t j).next := by
  unfold set_is_valid; rw [rd_upd]; split
  · rename_i h; rw [h.1]
  · rfl

@[simp] theorem rd_set_is_buzy_is_valid (t : Table) (i j : Nat) (v : Bool) :
    (rd (set_is_buzy t i v) j).is_valid = (rd t j).is_valid := by
  unfold set_is_buzy; rw [rd_upd]; split
  · rename_i h; rw [h.1]
  · rfl

@[simp] theorem rd_set_is_buzy_is_buzy (t : Table) (i j : Nat) (v : Bool) :
    (rd (set_is_buzy t i v) j).is_buzy = if j = i ∧ i < t.length then v else (rd t j).is_buzy := by
  unfold set_is_buzy; rw [rd_upd]; split <;> rfl

@[simp] theorem rd_set_is_buzy_addr (t : Table) (i j : Nat) (v : Bool) :
    (rd (set_is_buzy t i v) j).addr = (rd t j).addr := by
  unfold set_is_buzy; rw [rd_upd]; split
  · rename_i h; rw [h.1]
  · rfl

@[simp] theorem rd_set_is_buzy_size (t : Table) (i j : Nat) (v : Bool) :
    (rd (set_is_buzy t i v) j).size = (rd t j).size := by
  unfold set_is_buzy; rw [rd_upd]; split
  · rename_i h; rw [h.1]
  · rfl

@[simp] theorem rd_set_is_buzy_prev (t : Table) (i j : Nat) (v : Bool) :
    (rd (set_is_buzy t i v) j).prev = (rd t j).prev := by
  unfold set_is_buzy; rw [rd_upd]; split
  · rename_i h; rw [h.1]
  · rfl

@[simp] theorem rd_set_is_buzy_next (t : Table) (i j : Nat) (v : Bool) :
    (rd (set_is_buzy t i v) j).next = (rd t j).next := by
  unfold set_is_buzy; rw [rd_upd]; split
  · rename_i h; rw [h.1]
  · rfl

@[simp] theorem rd_set_addr_is_valid (t : Table) (i j : Nat) (v : Nat) :
    (rd (set_addr t i v) j).is_valid = (rd t j).is_valid := by
  unfold set_addr; rw [rd_upd]; split
  · rename_i h; rw [h.1]
  · rfl

@[simp] theorem rd_set_addr_is_buzy (t : Table) (i j : Nat) (v : Nat) :
    (rd (set_addr t i v) j).is_buzy = (rd t j).is_buzy := by
  unfold set_addr; rw [rd_upd]; split
  · rename_i h; rw [h.1]
  · rfl

@[simp] theorem rd_set_addr_addr (t : Table) (i j : Nat) (v : Nat) :
    (rd (set_addr t i v) j).addr = if j = i ∧ i < t.length then v else (rd t j).addr := by
  unfold set_addr; rw [rd_upd]; split <;> rfl

@[simp] theorem rd_set_addr_size (t : Table) (i j : Nat) (v : Nat) :
    (rd (set_addr t i v) j).size = (rd t j).size := by
  unfold set_addr; rw [rd_upd]; split
  · rename_i h; rw [h.1]
  · rfl

@[simp] theorem rd_set_addr_prev (t : Table) (i j : Nat) (v : Nat) :
    (rd (set_addr t i v) j).prev = (rd t j).prev := by
  unfold set_addr; rw [rd_upd]; split
  · rename_i h; rw [h.1]
  · rfl

@[simp] theorem rd_set_addr_next (t : Table) (i j : Nat) (v : Nat) :
    (rd (set_addr t i v) j).next = (rd t j).next := by
  unfold set_addr; rw [rd_upd]; split
  · rename_i h; rw [h.1]
  · rfl

@[simp] theorem rd_set_size_is_valid (t : Table) (i j : Nat) (v : Nat) :
    (rd (set_size t i v) j).is_valid = (rd t j).is_valid := by
  unfold set_size; rw [rd_upd]; split
  · rename_i h; rw [h.1]
  · rfl

@[simp] theorem rd_set_size_is_buzy (t : Table) (i j : Nat) (v : Nat) :
    (rd (set_size t i v) j).is_buzy = (rd t j).is_buzy := by
  unfold set_size; rw [rd_upd]; split
  · rename_i h; rw [h.1]
  · rfl

@[simp] theorem rd_set_size_addr (t : Table) (i j : Nat) (v : Nat) :
    (rd (set_size t i v) j).addr = (rd t j).addr := by
  unfold set_size; rw [rd_upd]; split
  · rename_i h; rw [h.1]
  · rfl

@[simp] theorem rd_set_size_size (t : Table) (i j : Nat) (v : Nat) :
    (rd (set_size t i v) j).size = if j = i ∧ i < t.length then v else (rd t j).size := by
  unfold set_size; rw [rd_upd]; split <;> rfl

@[simp] theorem rd_set_size_prev (t : Table) (i j : Nat) (v : Nat) :
    (rd (set_size t i v) j).prev = (rd t j).prev := by
  unfold set_size; rw [rd_upd]; split
  · rename_i h; rw [h.1]
  · rfl

@[simp] theorem rd_set_size_next (t : Table) (i j : Nat) (v : Nat) :
    (rd (set_size t i v) j).next = (rd t j).next := by
  unfold set_size; rw [rd_upd]; split
  · rename_i h; rw [h.1]
  · rfl

@[simp] theorem rd_set_prev_is_valid (t : Table) (i j : Nat) (v : Option Nat) :
    (rd (set_prev t i v) j).is_valid = (rd t j).is_valid := by
  unfold set_prev; rw [rd_upd]; split
  · rename_i h; rw [h.1]
  · rfl

@[simp] theorem rd_set_prev_is_buzy (t : Table) (i j : Nat) (v : Option Nat) :
    (rd (set_prev t i v) j).is_buzy = (rd t j).is_buzy := by
  unfold set_prev; rw [rd_upd]; split
  · rename_i h; rw [h.1]
  · rfl

@[simp] theorem rd_set_prev_addr (t : Table) (i j : Nat) (v : Option Nat) :
    (rd (set_prev t i v) j).addr = (rd t j).addr := by
  unfold set_prev; rw [rd_upd]; split
  · rename_i h; rw [h.1]
  · rfl

@[simp] theorem rd_set_prev_size (t : Table) (i j : Nat) (v : Option Nat) :
    (rd (set_prev t i v) j).size = (rd t j).size := by
  unfold set_prev; rw [rd_upd]; split
  · rename_i h; rw [h.1]
  · rfl

@[simp] theorem rd_set_prev_prev (t : Table) (i j : Nat) (v : Option Nat) :
    (rd (set_prev t i v) j).prev = if j = i ∧ i < t.length then v else (rd t j).prev := by
  unfold set_prev; rw [rd_upd]; split <;> rfl

@[simp] theorem rd_set_prev_next (t : Table) (i j : Nat) (v : Option Nat) :
    (rd (set_prev t i v) j).next = (rd t j).next := by
  unfold set_prev; rw [rd_upd]; split
  · rename_i h; rw [h.1]
  · rfl

@[simp] theorem rd_set_next_is_valid (t : Table) (i j : Nat) (v : Option Nat) :
    (rd (set_next t i v) j).is_valid = (rd t j).is_valid := by
  unfold set_next; rw [rd_upd]; split
  · rename_i h; rw [h.1]
  · rfl

@[simp] theorem rd_set_next_is_buzy (t : Table) (i j : Nat) (v : Option Nat) :
    (rd (set_next t i v) j).is_buzy = (rd t j).is_buzy := by
  unfold set_next; rw [rd_upd]; split
  · rename_i h; rw [h.1]
  · rfl

@[simp] theorem rd_set_next_addr (t : Table) (i j : Nat) (v : Option Nat) :
    (rd (set_next t i v) j).addr = (rd t j).addr := by
  unfold set_next; rw [rd_upd]; split
  · rename_i h; rw [h.1]
  · rfl

@[simp] theorem rd_set_next_size (t : Table) (i j : Nat) (v : Option Nat) :
    (rd (set_next t i v) j).size = (rd t j).size := by
  unfold set_next; rw [rd_upd]; split
  · rename_i h; rw [h.1]
  · rfl

@[simp] theorem rd_set_next_prev (t : Table) (i j : Nat) (v : Option Nat) :
    (rd (set_next t i v) j).prev = (rd t j).prev := by
  unfold set_next; rw [rd_upd]; split
  · rename_i h; rw [h.1]
  · rfl

@[simp] theorem rd_set_next_next (t : Table) (i j : Nat) (v : Option Nat) :
    (rd (set_next t i v) j).next = if j = i ∧ i < t.length then v else (rd t j).next := by
  unfold set_next; rw [rd_upd]; split <;> rfl

theorem rd_memset_entry (t : Table) (i j : Nat) :
    rd (memset_entry t i) j = if j = i ∧ i < t.length then entry_zero else rd t j := by
  unfold memset_entry; rw [rd_upd]

@[simp] theorem rd_memset_entry_is_valid (t : Table) (i j : Nat) :
    (rd (memset_entry t i) j).is_valid = if j = i ∧ i < t.length then false else (rd t j).is_valid := by
  rw [rd_memset_entry]; split <;> rfl

@[simp] theorem rd_memset_entry_is_buzy (t : Table) (i j : Nat) :
    (rd (memset_entry t i) j).is_buzy = if j = i ∧ i < t.length then false else (rd t j).is_buzy := by
  rw [rd_memset_entry]; split <;> rfl

@[simp] theorem rd_memset_entry_addr (t : Table) (i j : Nat) :
    (rd (memset_entry t i) j).addr = if j = i ∧ i < t.length then 0 else (rd t j).addr := by
  rw [rd_memset_entry]; split <;> rfl

@[simp] theorem rd_memset_entry_size (t : Table) (i j : Nat) :
    (rd (memset_entry t i) j).size = if j = i ∧ i < t.length then 0 else (rd t j).size := by
  rw [rd_memset_entry]; split <;> rfl

@[simp] theorem rd_memset_entry_prev (t : Table) (i j : Nat) :
    (rd (memset_entry t i) j).prev = if j = i ∧ i < t.length then none else (rd t j).prev := by
  rw [rd_memset_entry]; split <;> rfl

@[simp] theorem rd_memset_entry_next (t : Table) (i j : Nat) :
    (rd (memset_entry t i) j).next = if j = i ∧ i < t.length then none else (rd t j).next := by
  rw [rd_memset_entry]; split <;> rfl

/-! ## Arithmetic of `size_t` -/

theorem add32_lt (a b : Nat) : add32 a b < WORD := by
  unfold add32 WORD; omega

theorem sub32_lt (a b : Nat) : sub32 a b < WORD := by
  unfold sub32 WORD; omega

theorem sub32_of_le (a b : Nat) (h : b ≤ a) (ha : a < WORD) : sub32 a b = a - b := by
  unfold sub32 WORD at *; omega

theorem add32_sub32_cancel (a b : Nat) (hb : b < WORD) :
    add32 a (sub32 b a) = b := by
  unfold add32 sub32 WORD at *; omega

theorem sub32_sub32_cancel (a b : Nat) (h : b ≤ a) (ha : a < WORD) :
    sub32 a (sub32 a b) = b := by
  unfold sub32 WORD at *; omega

/-! ## The scans -/

theorem scan_slots_some (p : kernel_heap_entry_t → Bool) (t : Table) (n i k : Nat)
    (h : scan_slots p t i n = some k) :
    i ≤ k ∧ k < i + n ∧ p (rd t k) = true ∧ ∀ j, i ≤ j → j < k → p (rd t j) = false := by
  induction n generalizing i with
  | zero => simp [scan_slots] at h
  | succ n ih =>
    unfold scan_slots at h
    by_cases hp : p (rd t i) = true
    · simp only [hp, if_true, Option.some.injEq] at h
      subst h
      exact ⟨le_refl _, by omega, hp, fun j h1 h2 => by omega⟩
    · simp only [hp, if_false] at h
      obtain ⟨h1, h2, h3, h4⟩ := ih (i + 1) h
      refine ⟨by omega, by omega, h3, fun j hj1 hj2 => ?_⟩
      by_cases hji : j = i
      · subst hji; simpa using hp
      · exact h4 j (by omega) hj2

theorem scan_slots_none (p : kernel_heap_entry_t → Bool) (t : Table) (n i : Nat)
    (h : scan_slots p t i n = none) : ∀ j, i ≤ j → j < i + n → p (rd t j) = false := by
  induction n generalizing i with
  | zero => intro j h1 h2; omega
  | succ n ih =>
    unfold scan_slots at h
    by_cases hp : p (rd t i) = true
    · simp [hp] at h
    · simp only [hp, if_false] at h
      intro j hj1 hj2
      by_cases hji : j = i
      · subst hji; simpa using hp
      · exact ih (i + 1) h j (by omega) (by omega)

theorem scan_slots_ne_none (p : kernel_heap_entry_t → Bool) (t : Table) (n i j : Nat)
    (h1 : i ≤ j) (h2 : j < i + n) (hp : p (rd t j) = true) : scan_slots p t i n ≠ none := by
  intro h
  have := scan_slots_none p t n i h j h1 h2
  rw [hp] at this
  exact Bool.noConfusion this

/-- The loop of the source over the entries and the scan of a number of
slots agree. -/
theorem entries_loop_eq_scan_slots (c : Config) (p : kernel_heap_entry_t → Bool) (t : Table)
    (fuel i : Nat) (hi : i ≤ c.KHEAP_MAX_ENTRIES - 1) (hN : 0 < c.KHEAP_MAX_ENTRIES)
    (hf : c.KHEAP_MAX_ENTRIES - 1 - i < fuel) :
    entries_loop c p t fuel (some i) = scan_slots p t i (kheap_table_entries_end c - i) := by
  induction fuel generalizing i with
  | zero => omega
  | succ fuel ih =>
    unfold entries_loop kheap_table_entries_end
    by_cases he : i = c.KHEAP_MAX_ENTRIES - 1
    · rw [if_pos he, he, Nat.sub_self]
      rfl
    · rw [if_neg he]
      obtain ⟨k, hk⟩ : ∃ k, c.KHEAP_MAX_ENTRIES - 1 - i = k + 1 :=
        ⟨c.KHEAP_MAX_ENTRIES - 1 - i - 1, by omega⟩
      rw [hk]
      unfold scan_slots
      by_cases hp : p (rd t i) = true
      · rw [if_pos hp, if_pos hp]
      · rw [if_neg hp, if_neg hp]
        have hnext : kheap_table_entries_next c (some i) = some (i + 1) := by
          show (if i + 1 < c.KHEAP_MAX_ENTRIES then some (i + 1) else none) = some (i + 1)
          rw [if_pos (by omega)]
        rw [hnext, ih (i + 1) (by omega) (by omega)]
        unfold kheap_table_entries_end
        congr 1
        omega

theorem kheap_find_block_some (c : Config) (t : Table) (entry : Option Nat) (v b : Bool)
    (k : Nat) (h : kheap_find_block c t entry v b = some k) :
    scan_start entry ≤ k ∧ k < c.KHEAP_MAX_ENTRIES - 1 ∧
      (rd t k).is_valid = v ∧ (rd t k).is_buzy = b := by
  unfold kheap_find_block kheap_table_entries_end at h
  obtain ⟨h1, h2, h3, _⟩ := scan_slots_some _ t _ _ k h
  simp only [Bool.and_eq_true, beq_iff_eq] at h3
  exact ⟨h1, by omega, h3.1, h3.2⟩

/-! ## The invariant of the reachable tables -/

theorem WORD_pos : 0 < WORD := by unfold WORD; omega

theorem Inv_of_AllocStep (c : Config) (t t' : Table) (cur : Nat) (hI : Inv c t)
    (hS : AllocStep c t t' cur) : Inv c t' := by
  obtain ⟨hlen, hc, hv, hb, hsz, hk⟩ := hS
  refine ⟨by rw [hlen]; exact hI.len, ?_, ?_, ?_, ?_⟩
  · have hne : c.KHEAP_MAX_ENTRIES - 1 ≠ cur := by omega
    have hl := hI.last_unused
    rcases hk _ hne with h | h | h | h
    · exact h.1
    · rw [h.1]; exact hl
    · omega
    · rw [h.1]; exact hl
  · intro i hi
    by_cases hic : i = cur
    · subst hic; rw [hv] at hi; exact Bool.noConfusion hi
    · rcases hk i hic with h | h | h | h
      · exact h.2.1
      · rw [h.2.1]; apply hI.unused_free; rw [← h.1]; exact hi
      · rw [h.2.1] at hi; exact Bool.noConfusion hi
      · have := hI.unused_free i (by rw [← h.1]; exact hi)
        rw [h.2.2] at this; exact Bool.noConfusion this
  · intro i j hij hji
    by_cases hic : i = cur
    · subst hic; exact Or.inl hb
    by_cases hjc : j = cur
    · subst hjc; exact Or.inr hb
    rcases hk i hic with h | h | h | h
    · rw [h.2.2] at hij; exact Option.noConfusion hij
    · rcases hk j hjc with g | g | g | g
      · rw [g.2.2] at hji; exact Option.noConfusion hji
      · rw [h.2.1, g.2.1]
        exact hI.no_free_cycle i j (by rw [← h.2.2]; exact hij) (by rw [← g.2.2]; exact hji)
      · rw [g.2.2] at hji
        exact absurd (Option.some.inj hji).symm hic
      · exact Or.inr g.2.1
    · rw [h.2.2] at hij
      exact absurd (Option.some.inj hij).symm hjc
    · exact Or.inl h.2.1
  · intro k
    exact hsz k (hI.size_lt k)

theorem take_left_step (c : Config) (t : Table) (cur sib size : Nat)
    (hv : (rd t cur).is_valid = true) (hc : cur < c.KHEAP_MAX_ENTRIES - 1) (hne : sib ≠ cur) :
    AllocStep c t (kmalloc_take_left t cur sib size).2 cur := by
  have hl := lt_length_of_valid t cur hv
  have hne' : cur ≠ sib := Ne.symm hne
  unfold AllocStep kmalloc_take_left
  dsimp only
  split
  · split
    · refine ⟨by simp, hc, by simp [hl, hne', hv], by simp [hl], ?_, ?_⟩
      · intro k hk
        simp only [rd_set_is_buzy_size, rd_memset_entry_size, rd_set_prev_size, rd_set_next_size,
          rd_set_size_size, rd_set_addr_size]
        split_ifs <;> first | exact add32_lt _ _ | exact sub32_lt _ _ | exact hk | exact WORD_pos
      · intro k hk
        by_cases hks : k = sib ∧ sib < t.length
        · left; simp [hks, hk, hne]
        · right; left; simp [hks, hk]
    · refine ⟨by simp, hc, by simp [hl, hne', hv], by simp [hl], ?_, ?_⟩
      · intro k hk
        simp only [rd_set_is_buzy_size, rd_memset_entry_size, rd_set_prev_size, rd_set_next_size,
          rd_set_size_size, rd_set_addr_size]
        split_ifs <;> first | exact add32_lt _ _ | exact sub32_lt _ _ | exact hk | exact WORD_pos
      · intro k hk
        by_cases hks : k = sib ∧ sib < t.length
        · left; simp [hks, hk, hne]
        · right; left; simp [hks, hk]
  · refine ⟨by simp, hc, by simp [hl, hne', hv], by simp [hl], ?_, ?_⟩
    · intro k hk
      simp only [rd_set_is_buzy_size, rd_memset_entry_size, rd_set_prev_size, rd_set_next_size,
        rd_set_size_size, rd_set_addr_size]
      split_ifs <;> first | exact add32_lt _ _ | exact sub32_lt _ _ | exact hk
    · intro k hk
      right; left; simp [hk]

theorem grow_step (c : Config) (t t' : Table) (cur size p : Nat)
    (hv : (rd t cur).is_valid = true) (hc : cur < c.KHEAP_MAX_ENTRIES - 1)
    (h : kmalloc_grow c t cur size = some (p, t')) : AllocStep c t t' cur := by
  have hl := lt_length_of_valid t cur hv
  unfold kmalloc_grow at h
  dsimp only at h
  split at h
  · simp only [Option.some.injEq, Prod.mk.injEq] at h
    obtain ⟨_, rfl⟩ := h
    refine ⟨by simp, hc, by simp [hl, hv], by simp [hl], ?_, ?_⟩
    · intro k hk
      simp only [rd_set_is_buzy_size, rd_set_size_size]
      split_ifs <;> first | exact add32_lt _ _ | exact hk
    · intro k hk
      right; left; simp [hk]
  · exact Option.noConfusion h

theorem split_step (c : Config) (t : Table) (cur n surplus : Nat)
    (hv : (rd t cur).is_valid = true) (hb : (rd t cur).is_buzy = true)
    (hc : cur < c.KHEAP_MAX_ENTRIES - 1)
    (hn : (rd t cur).next = some n) (hnb : (rd t n).is_buzy = true) (hs : surplus < WORD) :
    AllocStep c t (kmalloc_split c t cur surplus) cur := by
  have hl := lt_length_of_valid t cur hv
  unfold kmalloc_split
  split
  · rename_i new hnew
    obtain ⟨_, hnew1, hnew2, hnew3⟩ := kheap_find_block_some c t none false false new hnew
    have hnc : new ≠ cur := by
      intro e; rw [e, hv] at hnew2; exact Bool.noConfusion hnew2
    have hcn : cur ≠ new := Ne.symm hnc
    have hnn : n ≠ new := by
      intro e; rw [e, hnew3] at hnb; exact Bool.noConfusion hnb
    dsimp only
    simp only [rd_set_prev_next, rd_set_next_next, rd_set_size_next, rd_set_is_valid_next,
      rd_set_is_buzy_next, rd_set_addr_next, hcn, false_and, if_false, hn]
    refine ⟨by simp, hc, by simp [hl, hv, hcn], by simp [hl, hb, hcn], ?_, ?_⟩
    · intro k hk
      simp only [rd_set_next_size, rd_set_prev_size, rd_set_size_size, rd_set_addr_size,
        rd_set_is_buzy_size, rd_set_is_valid_size, length_set_size, length_set_addr,
        length_set_is_buzy, length_set_is_valid]
      split_ifs <;> first | exact add32_lt _ _ | exact sub32_lt _ _ | exact hk | exact hs
    · intro k hk
      by_cases hkn : k = new
      · subst hkn
        by_cases hkl : k < t.length
        · right; right; left
          refine ⟨hnew1, by simp [hkl], by simp [hkl, Ne.symm hnn]⟩
        · right; left; simp [hkl, Ne.symm hnn]
      · by_cases hkn2 : k = n
        · subst hkn2
          right; right; right
          simp [hkn, hnb]
        · right; left
          simp [hkn, hkn2]
  · refine ⟨rfl, hc, hv, hb, fun k hk => hk, fun k _ => Or.inr (Or.inl ⟨rfl, rfl, rfl⟩)⟩

theorem occupy_step (c : Config) (t : Table) (cur size : Nat)
    (hv : (rd t cur).is_valid = true) (hc : cur < c.KHEAP_MAX_ENTRIES - 1) :
    AllocStep c t (kmalloc_occupy c t cur size).2 cur := by
  have hl := lt_length_of_valid t cur hv
  unfold kmalloc_occupy
  dsimp only
  split
  · rename_i sib hsib
    simp only [rd_set_is_buzy_next] at hsib
    split
    · rename_i hfree
      have hsc : sib ≠ cur := by
        intro e
        rw [e] at hfree
        simp [hl] at hfree
      refine ⟨by simp, hc, by simp [hl, hv], by simp [hl], ?_, ?_⟩
      · intro k hk
        simp only [rd_set_size_size, rd_set_addr_size, rd_set_is_buzy_size, length_set_size,
          length_set_addr, length_set_is_buzy]
        split_ifs <;> first | exact add32_lt _ _ | exact sub32_lt _ _ | exact hk
      · intro k hk
        right; left; simp [hk]
    · rename_i hbusy
      have hb2 : (rd (set_is_buzy t cur true) sib).is_buzy = true := by
        cases hx : (rd (set_is_buzy t cur true) sib).is_buzy
        · rw [hx] at hbusy; exact absurd rfl hbusy
        · rfl
      have hstep := split_step c (set_is_buzy t cur true) cur sib
        (sub32 (rd (set_is_buzy t cur true) cur).size size)
        (by simp [hv]) (by simp [hl]) hc (by simp [hsib]) hb2 (sub32_lt _ _)
      obtain ⟨h1, h2, h3, h4, h5, h6⟩ := hstep
      refine ⟨by rw [h1]; simp, h2, h3, h4, ?_, ?_⟩
      · intro k hk
        exact h5 k (by simpa using hk)
      · intro k hk
        have := h6 k hk
        simpa [hk] using this
  · refine ⟨by simp, hc, by simp [hl, hv], by simp [hl], ?_, ?_⟩
    · intro k hk; simpa using hk
    · intro k hk
      right; left; simp [hk]

theorem try_step (c : Config) (t t' : Table) (cur size p : Nat) (hI : Inv c t)
    (hv : (rd t cur).is_valid = true) (hb : (rd t cur).is_buzy = false)
    (hc : cur < c.KHEAP_MAX_ENTRIES - 1)
    (h : kmalloc_try c t cur size = some (p, t')) : AllocStep c t t' cur := by
  unfold kmalloc_try at h
  split at h
  · split at h
    · rename_i sib hsib
      split at h
      · have hne : sib ≠ cur := by
          intro e
          rw [e] at hsib
          have := hI.no_free_cycle cur cur hsib hsib
          rw [hb] at this
          simp at this
        simp only [Option.some.injEq] at h
        have := take_left_step c t cur sib size hv hc hne
        rw [h] at this
        exact this
      · exact Option.noConfusion h
    · split at h
      · exact grow_step c t t' cur size p hv hc h
      · exact Option.noConfusion h
  · simp only [Option.some.injEq] at h
    have := occupy_step c t cur size hv hc
    rw [h] at this
    exact this

theorem kmalloc_loop_some (c : Config) (t : Table) (size fuel : Nat) (current : Option Nat)
    (r : Nat × Table) (h : kmalloc_loop c t size fuel current = some r) :
    ∃ cur, cur < c.KHEAP_MAX_ENTRIES - 1 ∧ (rd t cur).is_valid = true ∧
      (rd t cur).is_buzy = false ∧ kmalloc_try c t cur size = some r := by
  induction fuel generalizing current with
  | zero => simp [kmalloc_loop] at h
  | succ fuel ih =>
    unfold kmalloc_loop at h
    split at h
    · rename_i i hi
      obtain ⟨_, h1, h2, h3⟩ := kheap_find_block_some c t current true false i hi
      split at h
      · rename_i r' hr
        simp only [Option.some.injEq] at h
        subst h
        exact ⟨i, h1, h2, h3, hr⟩
      · exact ih (some i) h
    · exact Option.noConfusion h

theorem append_step (c : Config) (t t' : Table) (size p : Nat) (hI : Inv c t)
    (hs : size < WORD) (h : kmalloc_append c t size = Result.ret p t') :
    ∃ cur, AllocStep c t t' cur := by
  unfold kmalloc_append at h
  dsimp only at h
  split at h
  · exact Result.noConfusion h
  · split at h
    · exact Result.noConfusion h
    · rename_i cur hcur
      obtain ⟨_, hc1, hc2, hc3⟩ := kheap_find_block_some c t none false false cur hcur
      have hl : cur < t.length := by rw [hI.len]; omega
      simp only [Result.ret.injEq] at h
      obtain ⟨_, rfl⟩ := h
      refine ⟨cur, ?_⟩
      split
      · refine ⟨by simp, hc1, by simp [hl], by simp [hl], ?_, ?_⟩
        · intro k hk
          simp only [rd_set_next_size, rd_set_prev_size, rd_set_is_buzy_size,
            rd_set_is_valid_size, rd_set_size_size, rd_set_addr_size, length_set_addr]
          split_ifs
          · exact hs
          · exact hk
        · intro k hk
          right; left; simp [hk]
      · refine ⟨by simp, hc1, by simp [hl], by simp [hl], ?_, ?_⟩
        · intro k hk
          simp only [rd_set_next_size, rd_set_prev_size, rd_set_is_buzy_size,
            rd_set_is_valid_size, rd_set_size_size, rd_set_addr_size, length_set_addr]
          split_ifs
          · exact hs
          · exact hk
        · intro k hk
          right; left; simp [hk]

theorem kmalloc_step (c : Config) (t t' : Table) (size p : Nat) (hI : Inv c t)
    (hs : size < WORD) (h : kmalloc c t size = Result.ret p t') :
    ∃ cur, AllocStep c t t' cur := by
  unfold kmalloc at h
  split at h
  · rename_i p' t2 hloop
    simp only [Result.ret.injEq] at h
    obtain ⟨rfl, rfl⟩ := h
    obtain ⟨cur, h1, h2, h3, h4⟩ := kmalloc_loop_some c t size _ none _ hloop
    exact ⟨cur, try_step c t _ cur size _ hI h2 h3 h1 h4⟩
  · exact append_step c t t' size p hI hs h

theorem kmalloc_inv (c : Config) (t t' : Table) (size p : Nat) (hI : Inv c t)
    (hs : size < WORD) (h : kmalloc c t size = Result.ret p t') : Inv c t' := by
  obtain ⟨cur, hstep⟩ := kmalloc_step c t t' size p hI hs h
  exact Inv_of_AllocStep c t t' cur hI hstep

theorem init_inv (c : Config) : Inv c (kheap_init c) := by
  have hz : ∀ i, rd (kheap_init c) i = entry_zero := by
    intro i
    unfold rd kheap_init
    rw [List.getD_eq_getElem?_getD]
    by_cases h : i < c.KHEAP_MAX_ENTRIES
    · simp [h]
    · rw [List.getElem?_eq_none (by simp; omega)]
      rfl
  refine ⟨by simp [kheap_init], ?_, ?_, ?_, ?_⟩
  · rw [hz]; rfl
  · intro i _; rw [hz]; rfl
  · intro i j h; rw [hz] at h; exact Option.noConfusion h
  · intro i; rw [hz]; exact WORD_pos

theorem Inv_of_FreeStep (c : Config) (t t' : Table) (cur : Nat) (hI : Inv c t)
    (hS : FreeStep t t' cur) : Inv c t' := by
  obtain ⟨hlen, hb, hsz, hp, hk⟩ := hS
  refine ⟨by rw [hlen]; exact hI.len, ?_, ?_, ?_, fun k => hsz k (hI.size_lt k)⟩
  · rcases hk (c.KHEAP_MAX_ENTRIES - 1) with h | h
    · exact h.1
    · rw [h.1]; exact hI.last_unused
  · intro i hi
    rcases hk i with h | h
    · exact h.2.1
    · by_cases hic : i = cur
      · rw [hic]; exact hb
      · rw [h.2.2 hic]; apply hI.unused_free; rw [← h.1]; exact hi
  · intro i j hij hji
    by_cases hic : i = cur
    · subst hic; exact Or.inr (hp j hij).2
    by_cases hjc : j = cur
    · subst hjc; exact Or.inl (hp i hji).2
    rcases hk i with h | h
    · rw [h.2.2] at hij; exact Option.noConfusion hij
    · rcases hk j with g | g
      · rw [g.2.2] at hji; exact Option.noConfusion hji
      · rw [h.2.2 hic, g.2.2 hjc]
        exact hI.no_free_cycle i j (by rw [← h.2.1]; exact hij) (by rw [← g.2.1]; exact hji)

theorem upd_of_length_le (t : Table) (i : Nat) (f : kernel_heap_entry_t → kernel_heap_entry_t)
    (h : t.length ≤ i) : upd t i f = t := by
  unfold upd
  exact List.set_eq_of_length_le h

theorem merge_right_step (t : Table) (cur : Nat) (hb : (rd t cur).is_buzy = false)
    (hp : ∀ j, (rd t cur).prev = some j → j ≠ cur ∧ (rd t j).is_buzy = true) :
    FreeStep t (kfree_merge_right t cur) cur := by
  unfold kfree_merge_right
  split
  · rename_i n hn
    split
    · rename_i hfree
      have hnb : (rd t n).is_buzy = false := by
        cases hx : (rd t n).is_buzy
        · rfl
        · rw [hx] at hfree; exact absurd hfree (by decide)
      refine ⟨by simp, by simp [hb], ?_, ?_, ?_⟩
      · intro k hk
        simp only [rd_memset_entry_size, rd_set_size_size, length_set_size]
        split_ifs <;> first | exact add32_lt _ _ | exact hk | exact WORD_pos
      · intro j hj
        simp only [rd_memset_entry_prev, rd_set_size_prev, length_set_size] at hj
        split_ifs at hj
        obtain ⟨h1, h2⟩ := hp j hj
        refine ⟨h1, ?_⟩
        have hjn : j ≠ n := by
          intro e; rw [e, hnb] at h2; exact Bool.noConfusion h2
        simp [hjn, h2]
      · intro k
        by_cases hkn : k = n ∧ n < t.length
        · left; simp [hkn]
        · right; simp [hkn]
    · exact ⟨rfl, hb, fun k hk => hk, hp, fun k => Or.inr ⟨rfl, rfl, fun _ => rfl⟩⟩
  · exact ⟨rfl, hb, fun k hk => hk, hp, fun k => Or.inr ⟨rfl, rfl, fun _ => rfl⟩⟩

theorem rd_set_is_buzy_false_self (t : Table) (cur : Nat) :
    (rd (set_is_buzy t cur false) cur).is_buzy = false := by
  by_cases hl : cur < t.length
  · simp [hl]
  · simp only [rd_set_is_buzy_is_buzy, hl, and_false, if_false]
    rw [rd_of_length_le t cur (by omega)]; rfl

theorem FreeStep_of_set_is_buzy (t t' : Table) (cur : Nat)
    (h : FreeStep (set_is_buzy t cur false) t' cur) : FreeStep t t' cur := by
  obtain ⟨g1, g2, g3, g4, g5⟩ := h
  refine ⟨by rw [g1]; simp, g2, fun k hk => g3 k (by simpa using hk), g4, ?_⟩
  intro k
  rcases g5 k with g | g
  · exact Or.inl g
  · right
    refine ⟨by simpa using g.1, by simpa using g.2.1, fun hk => ?_⟩
    have := g.2.2 hk
    simpa [hk] using this

theorem kfree_block_step (t : Table) (cur : Nat) : FreeStep t (kfree_block t cur) cur := by
  apply FreeStep_of_set_is_buzy
  unfold kfree_block
  dsimp only
  have hb := rd_set_is_buzy_false_self t cur
  generalize set_is_buzy t cur false = t1 at hb ⊢
  unfold kfree_merge_left
  split
  · rename_i p hp
    have hl : cur < t1.length := by
      by_contra hc
      rw [rd_of_length_le t1 cur (by omega)] at hp
      exact Option.noConfusion hp
    split
    · have hnext : (rd (memset_entry (set_size t1 p (add32 (rd t1 p).size (rd t1 cur).size)) cur)
          cur).next = none := by simp [hl]
      unfold kfree_merge_right
      rw [hnext]
      dsimp only
      refine ⟨by simp, by simp [hl], ?_, ?_, ?_⟩
      · intro k hk
        simp only [rd_memset_entry_size, rd_set_size_size, length_set_size]
        split_ifs <;> first | exact add32_lt _ _ | exact hk | exact WORD_pos
      · intro j hj
        simp [hl] at hj
      · intro k
        by_cases hkc : k = cur
        · left; simp [hkc, hl]
        · right; simp [hkc]
    · rename_i hbusy
      apply merge_right_step t1 cur hb
      intro j hj
      rw [hp] at hj
      have hjp : j = p := (Option.some.inj hj).symm
      subst hjp
      have hjb : (rd t1 j).is_buzy = true := by
        cases hx : (rd t1 j).is_buzy
        · rw [hx] at hbusy; exact absurd rfl hbusy
        · rfl
      refine ⟨?_, hjb⟩
      intro e
      rw [e, hb] at hjb
      exact Bool.noConfusion hjb
  · rename_i hp
    apply merge_right_step t1 cur hb
    intro j hj
    rw [hp] at hj
    exact Option.noConfusion hj

theorem kfree_inv (c : Config) (t t' : Table) (addr : Nat) (hI : Inv c t)
    (h : kfree c t addr = Result.ret () t') : Inv c t' := by
  unfold kfree at h
  split at h
  · rename_i cur _
    simp only [Result.ret.injEq, true_and] at h
    subst h
    exact Inv_of_FreeStep c t _ cur hI (kfree_block_step t cur)
  · exact Result.noConfusion h

theorem reachable_inv (c : Config) (t : Table) (h : Reachable c t) : Inv c t := by
  induction h with
  | init => exact init_inv c
  | kmalloc _ hs hk ih => exact kmalloc_inv c _ _ _ _ ih hs hk
  | kfree _ _ hk ih => exact kfree_inv c _ _ _ ih hk

/-! ## `kfree` of an unknown address -/

/-- C5. In every table reachable from `kheap_init`, `kfree(addr)` halts in
`kpanic` exactly when no descriptor of the table is valid, busy and at
`addr`; when it does, the table is as it was. -/
theorem kfree_panics_iff_unknown (c : Config) (t : Table) (addr : Nat)
    (h : Reachable c t) :
    ((∃ msg t', kfree c t addr = Result.panic msg t') ↔
      ¬ ∃ i, i < c.KHEAP_MAX_ENTRIES ∧ (rd t i).is_valid = true ∧
        (rd t i).is_buzy = true ∧ (rd t i).addr = addr) ∧
    ∀ msg t', kfree c t addr = Result.panic msg t' →
      msg = kpanic_msg.invalid_kernel_heap_address_to_free ∧ t' = t := by
  have hI := reachable_inv c t h
  constructor
  · constructor
    · rintro ⟨msg, t', hp⟩ ⟨i, hi, hv, hb, ha⟩
      unfold kfree at hp
      split at hp
      · exact Result.noConfusion hp
      · rename_i hnone
        have hlast := hI.last_unused
        have hil : i < c.KHEAP_MAX_ENTRIES - 1 := by
          by_contra hc
          have : i = c.KHEAP_MAX_ENTRIES - 1 := by omega
          rw [this, hlast] at hv
          exact Bool.noConfusion hv
        have := scan_slots_none _ t _ 0 hnone i (Nat.zero_le _)
          (by unfold kheap_table_entries_end; omega)
        simp [hv, hb, ha] at this
    · intro hno
      unfold kfree
      split
      · rename_i cur hcur
        exfalso
        obtain ⟨_, h2, h3, _⟩ := scan_slots_some _ t _ 0 cur hcur
        simp only [Bool.and_eq_true, beq_iff_eq] at h3
        unfold kheap_table_entries_end at h2
        exact hno ⟨cur, by omega, h3.1.1, h3.2, h3.1.2⟩
      · exact ⟨_, _, rfl⟩
  · intro msg t' hp
    unfold kfree at hp
    split at hp
    · exact Result.noConfusion hp
    · simp only [Result.panic.injEq] at hp
      exact ⟨hp.1.symm, hp.2.symm⟩

/-! ## The block that `kmalloc` hands out -/

theorem scan_slots_congr (p : kernel_heap_entry_t → Bool) (t t' : Table) (n i : Nat)
    (h : ∀ j, p (rd t j) = p (rd t' j)) : scan_slots p t i n = scan_slots p t' i n := by
  induction n generalizing i with
  | zero => rfl
  | succ n ih => unfold scan_slots; rw [h i, ih]

theorem find_unused_set_is_buzy (c : Config) (t : Table) (cur : Nat)
    (hv : (rd t cur).is_valid = true) :
    kheap_find_block c (set_is_buzy t cur true) none false false =
      kheap_find_block c t none false false := by
  unfold kheap_find_block
  apply scan_slots_congr
  intro j
  by_cases hj : j = cur
  · subst hj
    simp [hv]
  · simp [hj]

theorem take_left_served (c : Config) (t : Table) (cur sib size : Nat)
    (hv : (rd t cur).is_valid = true) (hc : cur < c.KHEAP_MAX_ENTRIES - 1) (hne : sib ≠ cur)
    (hs : size < WORD) :
    Served c t (kmalloc_take_left t cur sib size).2 cur size (kmalloc_take_left t cur sib size).1 := by
  have hstep := take_left_step c t cur sib size hv hc hne
  have hl := lt_length_of_valid t cur hv
  have hne' : cur ≠ sib := Ne.symm hne
  refine ⟨hc, hstep.2.2.1, hstep.2.2.2.1, rfl, Or.inl ?_⟩
  unfold kmalloc_take_left
  dsimp only
  split
  · split <;> simp [hl, hne', add32_sub32_cancel _ _ hs]
  · simp [hl, hne', add32_sub32_cancel _ _ hs]

theorem grow_served (c : Config) (t t' : Table) (cur size p : Nat)
    (hv : (rd t cur).is_valid = true) (hc : cur < c.KHEAP_MAX_ENTRIES - 1) (hs : size < WORD)
    (h : kmalloc_grow c t cur size = some (p, t')) : Served c t t' cur size p := by
  have hstep := grow_step c t t' cur size p hv hc h
  have hl := lt_length_of_valid t cur hv
  refine ⟨hc, hstep.2.2.1, hstep.2.2.2.1, ?_, Or.inl ?_⟩
  · unfold kmalloc_grow at h
    dsimp only at h
    split at h
    · simp only [Option.some.injEq, Prod.mk.injEq] at h
      obtain ⟨rfl, rfl⟩ := h
      rfl
    · exact Option.noConfusion h
  · unfold kmalloc_grow at h
    dsimp only at h
    split at h
    · simp only [Option.some.injEq, Prod.mk.injEq] at h
      obtain ⟨_, rfl⟩ := h
      simp [hl, add32_sub32_cancel _ _ hs]
    · exact Option.noConfusion h

theorem occupy_served (c : Config) (t : Table) (cur size : Nat)
    (hv : (rd t cur).is_valid = true) (hb : (rd t cur).is_buzy = false)
    (hc : cur < c.KHEAP_MAX_ENTRIES - 1)
    (hle : size ≤ (rd t cur).size) (hw : (rd t cur).size < WORD) :
    Served c t (kmalloc_occupy c t cur size).2 cur size (kmalloc_occupy c t cur size).1 := by
  have hstep := occupy_step c t cur size hv hc
  have hl := lt_length_of_valid t cur hv
  refine ⟨hc, hstep.2.2.1, hstep.2.2.2.1, rfl, ?_⟩
  have hwhole : ∀ t' : Table, (rd t' cur).size = (rd t cur).size →
      ((rd t cur).next = none ∨ kheap_find_block c t none false false = none) →
      ((rd t' cur).size = size ∨
        ((rd t cur).is_valid = true ∧ (rd t cur).is_buzy = false ∧ size < (rd t cur).size ∧
          (rd t' cur).size = (rd t cur).size ∧
          ((rd t cur).next = none ∨ kheap_find_block c t none false false = none))) := by
    intro t' h1 h2
    by_cases he : (rd t cur).size = size
    · left; rw [h1, he]
    · right; exact ⟨hv, hb, by omega, h1, h2⟩
  unfold kmalloc_occupy
  dsimp only
  split
  · rename_i sib hsib
    simp only [rd_set_is_buzy_next] at hsib
    split
    · rename_i hfree
      have hsc : cur ≠ sib := by
        intro e
        rw [← e] at hfree
        simp [hl] at hfree
      left
      simp [hl, hsc, sub32_sub32_cancel _ _ hle hw]
    · rename_i hbusy
      unfold kmalloc_split
      split
      · rename_i new hnew
        obtain ⟨_, _, hnew2, _⟩ := kheap_find_block_some c _ none false false new hnew
        have hcn : cur ≠ new := by
          intro e; rw [← e] at hnew2; simp [hv] at hnew2
        left
        simp [hl, hcn, hsib, sub32_sub32_cancel _ _ hle hw]
      · rename_i hnone
        rw [find_unused_set_is_buzy c t cur hv] at hnone
        exact hwhole _ (by simp) (Or.inr hnone)
  · rename_i hnext
    simp only [rd_set_is_buzy_next] at hnext
    exact hwhole _ (by simp) (Or.inl hnext)

theorem try_served (c : Config) (t t' : Table) (cur size p : Nat) (hI : Inv c t)
    (hv : (rd t cur).is_valid = true) (hb : (rd t cur).is_buzy = false)
    (hc : cur < c.KHEAP_MAX_ENTRIES - 1) (hs : size < WORD)
    (h : kmalloc_try c t cur size = some (p, t')) : Served c t t' cur size p := by
  unfold kmalloc_try at h
  split at h
  · split at h
    · rename_i sib hsib
      split at h
      · have hne : sib ≠ cur := by
          intro e
          rw [e] at hsib
          have := hI.no_free_cycle cur cur hsib hsib
          rw [hb] at this
          simp at this
        simp only [Option.some.injEq] at h
        have := take_left_served c t cur sib size hv hc hne hs
        rw [h] at this
        exact this
      · exact Option.noConfusion h
    · split at h
      · exact grow_served c t t' cur size p hv hc hs h
      · exact Option.noConfusion h
  · rename_i hge
    simp only [Option.some.injEq] at h
    have := occupy_served c t cur size hv hb hc (by omega) (hI.size_lt cur)
    rw [h] at this
    exact this

theorem append_served (c : Config) (t t' : Table) (size p : Nat) (hI : Inv c t)
    (h : kmalloc_append c t size = Result.ret p t') :
    ∃ cur, Served c t t' cur size p := by
  unfold kmalloc_append at h
  dsimp only at h
  split at h
  · exact Result.noConfusion h
  · split at h
    · exact Result.noConfusion h
    · rename_i cur hcur
      obtain ⟨_, hc1, hc2, hc3⟩ := kheap_find_block_some c t none false false cur hcur
      have hl : cur < t.length := by rw [hI.len]; omega
      simp only [Result.ret.injEq] at h
      obtain ⟨rfl, rfl⟩ := h
      refine ⟨cur, hc1, ?_, ?_, rfl, Or.inl ?_⟩
      · split <;> simp [hl]
      · split <;> simp [hl]
      · split <;> simp [hl]

theorem kmalloc_served (c : Config) (t t' : Table) (size p : Nat) (hI : Inv c t)
    (hs : size < WORD) (h : kmalloc c t size = Result.ret p t') :
    ∃ cur, Served c t t' cur size p := by
  unfold kmalloc at h
  split at h
  · rename_i p' t2 hloop
    simp only [Result.ret.injEq] at h
    obtain ⟨rfl, rfl⟩ := h
    obtain ⟨cur, h1, h2, h3, h4⟩ := kmalloc_loop_some c t size _ none _ hloop
    exact ⟨cur, try_served c t _ cur size _ hI h2 h3 h1 hs h4⟩
  · exact append_served c t t' size p hI h

/-- C8. In every table reachable from `kheap_init`, when `kmalloc(n)` returns
the address `p`, the table then holds a valid busy descriptor at `p` whose
size is at least `n`. -/
theorem kmalloc_allocated_size_respected (c : Config) (t t' : Table) (n p : Nat)
    (hr : Reachable c t) (hn : n < WORD) (h : kmalloc c t n = Result.ret p t') :
    ∃ i, i < c.KHEAP_MAX_ENTRIES ∧ (rd t' i).is_valid = true ∧ (rd t' i).is_buzy = true ∧
      (rd t' i).addr = p ∧ n ≤ (rd t' i).size := by
  obtain ⟨cur, h1, h2, h3, h4, h5⟩ := kmalloc_served c t t' n p (reachable_inv c t hr) hn h
  refine ⟨cur, by omega, h2, h3, h4, ?_⟩
  rcases h5 with h5 | h5
  · omega
  · omega

/-! ## The end of the heap -/

theorem highest_loop_spec (t : Table) (n i : Nat) (hi : Option Nat) (m : Nat)
    (h : HighestOf t i hi) (hm : m = border_of t hi) :
    HighestOf t (i + n) (highest_loop t i n hi m) := by
  induction n generalizing i hi m with
  | zero => simpa [highest_loop] using h
  | succ n ih =>
    unfold highest_loop
    have e : i + (n + 1) = (i + 1) + n := by omega
    rw [e]
    by_cases hv : (rd t i).is_valid = true
    · simp only [hv, beq_self_eq_true, if_true]
      by_cases hge : add32 (rd t i).addr (rd t i).size ≥ m
      · simp only [hge, if_true]
        refine ih (i + 1) (some i) _ ?_ rfl
        refine ⟨by omega, hv, ?_⟩
        intro j hj hjv
        by_cases hji : j = i
        · subst hji; exact le_refl _
        · cases hi with
          | none =>
            have := h j (by omega)
            rw [this] at hjv
            exact Bool.noConfusion hjv
          | some h0 =>
            have := h.2.2 j (by omega) hjv
            unfold border_of at hm
            simp only at hm
            unfold right_border at *
            omega
      · simp only [hge, if_false]
        refine ih (i + 1) hi m ?_ hm
        cases hi with
        | none =>
          unfold border_of at hm
          simp only at hm
          omega
        | some h0 =>
          refine ⟨by have := h.1; omega, h.2.1, ?_⟩
          intro j hj hjv
          by_cases hji : j = i
          · subst hji
            unfold border_of at hm
            simp only at hm
            unfold right_border at *
            omega
          · exact h.2.2 j (by omega) hjv
    · have hv' : (rd t i).is_valid = false := by
        cases hx : (rd t i).is_valid
        · rfl
        · exact absurd hx hv
      simp only [hv', Bool.false_eq_true, beq_iff_eq, if_false]
      refine ih (i + 1) hi m ?_ hm
      cases hi with
      | none =>
        intro j hj
        by_cases hji : j = i
        · subst hji; exact hv'
        · exact h j (by omega)
      | some h0 =>
        refine ⟨by have := h.1; omega, h.2.1, ?_⟩
        intro j hj hjv
        by_cases hji : j = i
        · subst hji; rw [hv'] at hjv; exact Bool.noConfusion hjv
        · exact h.2.2 j (by omega) hjv

theorem kheap_get_highest_entry_spec (c : Config) (t : Table) :
    HighestOf t (c.KHEAP_MAX_ENTRIES - 1) (kheap_get_highest_entry c t) := by
  unfold kheap_get_highest_entry kheap_table_entries_end
  have := highest_loop_spec t (c.KHEAP_MAX_ENTRIES - 1) 0 none 0
    (by intro j hj; omega) rfl
  simpa using this

theorem scan_slots_eq_none (p : kernel_heap_entry_t → Bool) (t : Table) (n i : Nat)
    (h : ∀ j, i ≤ j → j < i + n → p (rd t j) = false) : scan_slots p t i n = none := by
  induction n generalizing i with
  | zero => rfl
  | succ n ih =>
    unfold scan_slots
    rw [h i (le_refl _) (by omega)]
    simp only [Bool.false_eq_true, if_false]
    exact ih (i + 1) (fun j h1 h2 => h j (by omega) (by omega))

theorem scan_slots_eq_some (p : kernel_heap_entry_t → Bool) (t : Table) (n i k : Nat)
    (h1 : i ≤ k) (h2 : k < i + n) (hk : p (rd t k) = true)
    (h : ∀ j, i ≤ j → j < k → p (rd t j) = false) : scan_slots p t i n = some k := by
  induction n generalizing i with
  | zero => omega
  | succ n ih =>
    unfold scan_slots
    by_cases hik : i = k
    · subst hik; simp [hk]
    · rw [h i (le_refl _) (by omega)]
      simp only [Bool.false_eq_true, if_false]
      exact ih (i + 1) (by omega) (by omega) (fun j h1 h2 => h j (by omega) h2)

theorem kmalloc_loop_none_of_no_free (c : Config) (t : Table) (size fuel : Nat)
    (h : ∀ i, (rd t i).is_valid = true → (rd t i).is_buzy = true) :
    kmalloc_loop c t size fuel none = none := by
  cases fuel with
  | zero => rfl
  | succ fuel =>
    unfold kmalloc_loop
    have : kheap_find_block c t none true false = none := by
      unfold kheap_find_block
      apply scan_slots_eq_none
      intro j _ _
      cases hv : (rd t j).is_valid
      · rfl
      · rw [h j hv]; rfl
    rw [this]

theorem packed_heap_end (c : Config) (t : Table) (j a : Nat) (h : Packed c t j a)
    (hj : j ≤ c.KHEAP_MAX_ENTRIES - 1) : heap_end c t = a := by
  obtain ⟨_, h1, h2, h3, h4, h5⟩ := h
  have hspec := kheap_get_highest_entry_spec c t
  unfold heap_end
  cases hh : kheap_get_highest_entry c t with
  | none =>
    rw [hh] at hspec
    by_cases hj0 : j = 0
    · exact (h4 hj0).symm
    · have := hspec 0 (by omega)
      rw [(h1 0 (by omega)).1] at this
      exact Bool.noConfusion this
  | some x =>
    rw [hh] at hspec
    obtain ⟨hx1, hx2, hx3⟩ := hspec
    have hxj : x < j := by
      by_contra hc
      rw [(h2 x (by omega)).1] at hx2
      exact Bool.noConfusion hx2
    obtain ⟨i, hi, hia⟩ := h5 (by omega)
    have h6 := hx3 i (by omega) (h1 i hi).1
    have h7 := h3 x hxj
    show right_border t x = a
    omega

theorem packed_kmalloc (c : Config) (t : Table) (j a s : Nat) (h : Packed c t j a)
    (hj : j < c.KHEAP_MAX_ENTRIES - 1) (hs : a + s < c.KHEAP_END_ADDR)
    (hw : c.KHEAP_END_ADDR ≤ WORD) :
    ∃ t', kmalloc c t s = Result.ret a t' ∧ Packed c t' (j + 1) (a + s) := by
  have hend := packed_heap_end c t j a h (by omega)
  obtain ⟨h0, h1, h2, h3, h4, h5⟩ := h
  have hbusy : ∀ i, (rd t i).is_valid = true → (rd t i).is_buzy = true := by
    intro i hv
    by_cases hij : i < j
    · exact (h1 i hij).2
    · rw [(h2 i (by omega)).1] at hv; exact Bool.noConfusion hv
  have hloop := kmalloc_loop_none_of_no_free c t s c.KHEAP_MAX_ENTRIES hbusy
  have hfind : kheap_find_block c t none false false = some j := by
    unfold kheap_find_block kheap_table_entries_end
    show scan_slots _ t 0 (c.KHEAP_MAX_ENTRIES - 1 - 0) = some j
    apply scan_slots_eq_some
    · exact Nat.zero_le j
    · rw [Nat.zero_add, Nat.sub_zero]; exact hj
    · simp [(h2 j (le_refl _)).1, (h2 j (le_refl _)).2]
    · intro i _ hi
      simp [(h1 i hi).1]
  have hadd : add32 a s = a + s := by
    unfold add32; exact Nat.mod_eq_of_lt (by omega)
  have hjl : j < t.length := by omega
  unfold kmalloc
  rw [hloop]
  unfold kmalloc_append
  dsimp only
  rw [hend, hadd, if_neg (by omega), hfind]
  dsimp only
  have hrb : ∀ (t' : Table) (i : Nat), (rd t' i).addr = (rd t i).addr →
      (rd t' i).size = (rd t i).size → right_border t' i = right_border t i := by
    intro t' i e1 e2
    unfold right_border; rw [e1, e2]
  have key : ∀ T : Table, (rd T j).addr = a → Packed c T (j + 1) (a + s) →
      ∃ t', Result.ret (rd T j).addr T = Result.ret a t' ∧ Packed c t' (j + 1) (a + s) :=
    fun T e hp => ⟨T, by rw [e], hp⟩
  apply key
  · split <;> simp [hjl]
  · split
    · rename_i x hx
      refine ⟨by simp [h0], ?_, ?_, ?_, ?_, ?_⟩
      · intro i hi
        by_cases hij : i = j
        · subst hij; simp [hjl]
        · simp [hij, h1 i (by omega)]
      · intro i hi
        have hij : i ≠ j := by omega
        simp [hij, h2 i (by omega)]
      · intro i hi
        by_cases hij : i = j
        · subst hij
          unfold right_border
          simp [hjl, hadd]
        · have := h3 i (by omega)
          rw [hrb _ i (by simp [hij]) (by simp [hij])]
          omega
      · intro hc; omega
      · intro _
        refine ⟨j, by omega, ?_⟩
        unfold right_border
        simp [hjl, hadd]
    · refine ⟨by simp [h0], ?_, ?_, ?_, ?_, ?_⟩
      · intro i hi
        by_cases hij : i = j
        · subst hij; simp [hjl]
        · simp [hij, h1 i (by omega)]
      · intro i hi
        have hij : i ≠ j := by omega
        simp [hij, h2 i (by omega)]
      · intro i hi
        by_cases hij : i = j
        · subst hij
          unfold right_border
          simp [hjl, hadd]
        · have := h3 i (by omega)
          rw [hrb _ i (by simp [hij]) (by simp [hij])]
          omega
      · intro hc; omega
      · intro _
        refine ⟨j, by omega, ?_⟩
        unfold right_border
        simp [hjl, hadd]

theorem packed_kmalloc_seq (c : Config) (sizes : List Nat) (t : Table) (j a : Nat)
    (h : Packed c t j a) (hj : j + sizes.length ≤ c.KHEAP_MAX_ENTRIES - 1)
    (hs : a + sizes.sum < c.KHEAP_END_ADDR) (hw : c.KHEAP_END_ADDR ≤ WORD) :
    ∃ t', kmalloc_seq c t sizes = some (contiguous_from a sizes, t') := by
  induction sizes generalizing t j a with
  | nil => exact ⟨t, rfl⟩
  | cons s ss ih =>
    simp only [List.length_cons, List.sum_cons] at hj hs
    obtain ⟨t1, hk, hp⟩ := packed_kmalloc c t j a s h (by omega) (by omega) hw
    obtain ⟨t2, hseq⟩ := ih t1 (j + 1) (a + s) hp (by omega) (by omega)
    refine ⟨t2, ?_⟩
    unfold kmalloc_seq
    rw [hk]
    dsimp only
    rw [hseq]
    rfl

theorem packed_init (c : Config) : Packed c (kheap_init c) 0 c.KHEAP_START_ADDR := by
  have hI := init_inv c
  have hz : ∀ i, rd (kheap_init c) i = entry_zero := by
    intro i
    unfold rd kheap_init
    rw [List.getD_eq_getElem?_getD]
    by_cases h : i < c.KHEAP_MAX_ENTRIES
    · simp [h]
    · rw [List.getElem?_eq_none (by simp; omega)]
      rfl
  refine ⟨hI.len, fun i hi => by omega, fun i _ => ?_, fun i hi => by omega, fun _ => rfl,
    fun h => by omega⟩
  rw [hz]; exact ⟨rfl, rfl⟩

/-- Allocation in sequence on the slots that the scans reach. On a freshly
initialised heap, successive `kmalloc` calls with the sizes `s_1 .. s_k`, no
`kfree` in between, return `KHEAP_START_ADDR`, `KHEAP_START_ADDR + s_1`, ...,
each block right behind the one before, when `k` is at most
`KHEAP_MAX_ENTRIES - 1` and
`KHEAP_START_ADDR + s_1 + ... + s_k < KHEAP_END_ADDR`. With
`k = KHEAP_MAX_ENTRIES` the last call halts. -/
theorem sequential_allocation_contiguous (c : Config) (sizes : List Nat)
    (hk : sizes.length ≤ c.KHEAP_MAX_ENTRIES - 1)
    (hs : c.KHEAP_START_ADDR + sizes.sum < c.KHEAP_END_ADDR)
    (hw : c.KHEAP_END_ADDR ≤ WORD) :
    ∃ t', kmalloc_seq c (kheap_init c) sizes =
      some (contiguous_from c.KHEAP_START_ADDR sizes, t') :=
  packed_kmalloc_seq c sizes (kheap_init c) 0 c.KHEAP_START_ADDR (packed_init c)
    (by omega) hs hw

/-! ## Sequences of calls and the round trip -/

theorem reachable_run_calls (c : Config) (cs : List Call) (t t' : Table)
    (hr : Reachable c t) (h : run_calls c t cs = some t') : Reachable c t' := by
  induction cs generalizing t with
  | nil =>
    simp only [run_calls, Option.some.injEq] at h
    rw [← h]; exact hr
  | cons x cs ih =>
    cases x with
    | kmalloc size =>
      unfold run_calls at h
      split at h
      · rename_i hs
        split at h
        · rename_i p t1 hk
          exact ih t1 (Reachable.kmalloc hr hs hk) h
        · exact Option.noConfusion h
      · exact Option.noConfusion h
    | kfree addr =>
      unfold run_calls at h
      split at h
      · rename_i hs
        split at h
        · rename_i u t1 hk
          exact ih t1 (Reachable.kfree hr hs hk) h
        · exact Option.noConfusion h
      · exact Option.noConfusion h

theorem upd_upd_same (t : Table) (i : Nat) (f g : kernel_heap_entry_t → kernel_heap_entry_t) :
    upd (upd t i f) i g = upd t i (fun e => g (f e)) := by
  by_cases hl : i < t.length
  · unfold upd
    have : rd (t.set i (f (rd t i))) i = f (rd t i) := by
      have := rd_upd t i i f
      unfold upd at this
      rw [this]; simp [hl]
    rw [this, List.set_set]
  · rw [upd_of_length_le t i f (by omega), upd_of_length_le t i g (by omega),
      upd_of_length_le t i _ (by omega)]

theorem upd_eq_self (t : Table) (i : Nat) (f : kernel_heap_entry_t → kernel_heap_entry_t)
    (h : f (rd t i) = rd t i) : upd t i f = t := by
  by_cases hl : i < t.length
  · unfold upd
    rw [h]
    unfold rd
    rw [List.getD_eq_getElem _ _ hl]
    apply List.ext_getElem
    · simp
    · intro k h1 h2
      rw [List.getElem_set]
      split
      · rename_i e; subst e; rfl
      · rfl
  · exact upd_of_length_le t i f (by omega)

theorem set_is_buzy_restore (t : Table) (i : Nat) (h : (rd t i).is_buzy = false) :
    set_is_buzy (set_is_buzy t i true) i false = t := by
  unfold set_is_buzy
  rw [upd_upd_same]
  apply upd_eq_self
  rw [← h]

/-- C4, as the code has it. When the first free block in slot order (among
the slots `kmalloc` scans) has at least `n` bytes, no right sibling, no free
left sibling, and no earlier slot holds a valid busy block at its address,
`kmalloc(n)` hands it out with nothing but `is_buzy` changed and `kfree` of
the returned address right after gives back the table as it was before. -/
theorem roundtrip_restores_unsplit_block (c : Config) (t : Table) (n i : Nat)
    (hfirst : kheap_find_block c t none true false = some i)
    (hsize : n ≤ (rd t i).size)
    (hnext : (rd t i).next = none)
    (hprev : ∀ p, (rd t i).prev = some p → (rd t p).is_buzy = true)
    (hdup : ∀ j, j < i → ¬ ((rd t j).is_valid = true ∧ (rd t j).is_buzy = true ∧
      (rd t j).addr = (rd t i).addr)) :
    kmalloc c t n = Result.ret (rd t i).addr (set_is_buzy t i true) ∧
    kfree c (set_is_buzy t i true) (rd t i).addr = Result.ret () t := by
  obtain ⟨_, hi, hv, hb⟩ := kheap_find_block_some c t none true false i hfirst
  have hl := lt_length_of_valid t i hv
  constructor
  · unfold kmalloc
    have hN : c.KHEAP_MAX_ENTRIES = (c.KHEAP_MAX_ENTRIES - 1) + 1 := by omega
    rw [hN]
    unfold kmalloc_loop
    rw [hfirst]
    dsimp only
    unfold kmalloc_try
    rw [if_neg (by omega)]
    dsimp only
    unfold kmalloc_occupy
    dsimp only
    rw [rd_set_is_buzy_next, hnext]
    dsimp only
    rw [rd_set_is_buzy_addr]
  · unfold kfree
    have hscan : scan_slots (fun e => e.is_valid && e.addr == (rd t i).addr && e.is_buzy)
        (set_is_buzy t i true) kheap_table_entries_start (kheap_table_entries_end c) =
          some i := by
      apply scan_slots_eq_some
      · exact Nat.zero_le i
      · unfold kheap_table_entries_end; omega
      · simp [hv, hl]
      · intro j _ hj
        have hji : j ≠ i := by omega
        have := hdup j hj
        simp only [rd_set_is_buzy_is_valid, rd_set_is_buzy_addr, rd_set_is_buzy_is_buzy, hji,
          false_and, if_false]
        cases h1 : (rd t j).is_valid <;> cases h2 : (rd t j).is_buzy <;> simp_all
    rw [hscan]
    dsimp only
    congr 1
    unfold kfree_block
    dsimp only
    rw [set_is_buzy_restore t i hb]
    have hleft : kfree_merge_left t i = t := by
      unfold kfree_merge_left
      split
      · rename_i p hp
        rw [hprev p hp]
        rfl
      · rfl
    rw [hleft]
    unfold kfree_merge_right
    rw [hnext]

/-- C9, as the code has it. In every table reachable from `kheap_init` in
which a slot that `kmalloc` can use (any but the last) is unused, when
`kmalloc(n)` returns `p` the table holds a valid busy descriptor at `p` of
size exactly `n`, unless `kmalloc` hands out a larger free block that has no
right sibling: that block is not split and keeps its size. -/
theorem kmalloc_exact_size_unless_tail (c : Config) (t t' : Table) (n p : Nat)
    (hr : Reachable c t) (hn : n < WORD)
    (hspare : ∃ j, j < c.KHEAP_MAX_ENTRIES - 1 ∧ (rd t j).is_valid = false)
    (h : kmalloc c t n = Result.ret p t') :
    ∃ i, i < c.KHEAP_MAX_ENTRIES ∧ (rd t' i).is_valid = true ∧ (rd t' i).is_buzy = true ∧
      (rd t' i).addr = p ∧
      ((rd t' i).size = n ∨
        ((rd t i).is_valid = true ∧ (rd t i).is_buzy = false ∧ (rd t i).next = none ∧
          n < (rd t i).size ∧ (rd t' i).size = (rd t i).size)) := by
  have hI := reachable_inv c t hr
  obtain ⟨cur, h1, h2, h3, h4, h5⟩ := kmalloc_served c t t' n p hI hn h
  refine ⟨cur, by omega, h2, h3, h4, ?_⟩
  rcases h5 with h5 | ⟨g1, g2, g3, g4, g5⟩
  · exact Or.inl h5
  · rcases g5 with g5 | g5
    · exact Or.inr ⟨g1, g2, g5, g3, g4⟩
    · exfalso
      obtain ⟨j, hj1, hj2⟩ := hspare
      have hj3 := hI.unused_free j hj2
      unfold kheap_find_block kheap_table_entries_end at g5
      refine scan_slots_ne_none _ t _ 0 j (Nat.zero_le j) ?_ ?_ g5
      · show j < 0 + (c.KHEAP_MAX_ENTRIES - 1 - 0)
        omega
      · simp [hj2, hj3]

/-! ## Scenarios on the configuration `cfg0` -/

/-- C1. After `a = kmalloc(16); b = kmalloc(16); kfree(a); kfree(b)` on a
fresh heap, none of which halts, the valid block in slot 0 has a `next` link
to slot 1, which `kfree` has cleared (not valid, `addr` 0) without
relinking; `kheap_validate` of the source halts on this table with
"kernel heap corrupted". -/
theorem kfree_left_merge_leaves_dangling_next :
    ∃ t, run_calls cfg0 (kheap_init cfg0)
        [Call.kmalloc 16, Call.kmalloc 16, Call.kfree 0x100000, Call.kfree 0x100010] = some t ∧
      (rd t 0).is_valid = true ∧ (rd t 0).next = some 1 ∧ (rd t 1).is_valid = false ∧
      (rd t 1).addr ≠ add32 (rd t 0).addr (rd t 0).size ∧
      kheap_validate cfg0 t 8 = some (Result.panic kpanic_msg.kernel_heap_corrupted t) :=
  ⟨_, rfl, by decide, by decide, by decide, by decide, by decide⟩

/-- C2. On a fresh heap `a = kmalloc(16)` returns `0x100000` and is never
freed; after `b, c, d = kmalloc(8)` and `kfree(d); kfree(b); kfree(c)`, none
of which halts, `kmalloc(32)` returns `0x100008`: the byte ranges
`[0x100000, 0x100010)` of `a` and `[0x100008, 0x100028)` of the new block
overlap. -/
theorem kmalloc_returns_overlapping_blocks :
    ∃ t1 t t2, kmalloc cfg0 (kheap_init cfg0) 16 = Result.ret 0x100000 t1 ∧
      run_calls cfg0 t1
        [Call.kmalloc 8, Call.kmalloc 8, Call.kmalloc 8,
          Call.kfree 0x100020, Call.kfree 0x100010, Call.kfree 0x100018] = some t ∧
      kmalloc cfg0 t 32 = Result.ret 0x100008 t2 ∧
      0x100008 < 0x100000 + 16 ∧ 0x100000 < 0x100008 + 32 :=
  ⟨_, _, _, rfl, rfl, rfl, by decide, by decide⟩

/-- C3. After `a, b, c = kmalloc(16)` and `kfree(a); kfree(c); kfree(b)` on
a fresh heap, where `b` has a free block on either side when it is freed, the
table holds two valid free blocks next to each other: slot 0 at `0x100000`
of 32 bytes and slot 2 at `0x100020`. -/
theorem kfree_leaves_adjacent_free_blocks :
    ∃ t, run_calls cfg0 (kheap_init cfg0)
        [Call.kmalloc 16, Call.kmalloc 16, Call.kmalloc 16,
          Call.kfree 0x100000, Call.kfree 0x100020, Call.kfree 0x100010] = some t ∧
      (rd t 0).is_valid = true ∧ (rd t 0).is_buzy = false ∧
      (rd t 2).is_valid = true ∧ (rd t 2).is_buzy = false ∧
      (rd t 2).addr = (rd t 0).addr + (rd t 0).size :=
  ⟨_, rfl, by decide, by decide, by decide, by decide, by decide⟩

/-- C7. On a fresh heap `kmalloc(0xFFFFFFFF)` does not halt: the sum
`heap_end + size` wraps below `KHEAP_END_ADDR`, and slot 0 becomes a valid
block at `0x100000` that ends far beyond `KHEAP_END_ADDR`; the next
`kmalloc(16)` returns `0xFFFFF`, below `KHEAP_START_ADDR`. With small sizes
too: after `a, b, c = kmalloc(16); d = kmalloc(32); kfree(a); kfree(c);
kfree(d); kmalloc(16); kmalloc(16)`, none of which halts, slot 3 is a valid
block at `0xFFFF0`, below `KHEAP_START_ADDR`. -/
theorem kmalloc_block_outside_heap :
    (∃ t1 t2, kmalloc cfg0 (kheap_init cfg0) 0xFFFFFFFF = Result.ret 0x100000 t1 ∧
      (rd t1 0).is_valid = true ∧
      cfg0.KHEAP_END_ADDR < (rd t1 0).addr + (rd t1 0).size ∧
      kmalloc cfg0 t1 16 = Result.ret 0xFFFFF t2 ∧
      0xFFFFF < cfg0.KHEAP_START_ADDR) ∧
    ∃ t, run_calls cfg0 (kheap_init cfg0)
        [Call.kmalloc 16, Call.kmalloc 16, Call.kmalloc 16, Call.kmalloc 32,
          Call.kfree 0x100000, Call.kfree 0x100020, Call.kfree 0x100030,
          Call.kmalloc 16, Call.kmalloc 16] = some t ∧
      (rd t 3).is_valid = true ∧ (rd t 3).addr = 0xFFFF0 ∧
      (rd t 3).addr < cfg0.KHEAP_START_ADDR :=
  ⟨⟨_, _, rfl, by decide, by decide, rfl, by decide⟩, _, rfl, by decide, by decide, by decide⟩

/-- C4 fails on the fresh heap: `p = kmalloc(16)` and `kfree(p)` right after
leave slot 0 a valid free block of 16 bytes, not the zeroed slot of before. -/
theorem roundtrip_not_identical_on_fresh_heap :
    Reachable cfg0 (kheap_init cfg0) ∧
    ∃ t1 t2, kmalloc cfg0 (kheap_init cfg0) 16 = Result.ret 0x100000 t1 ∧
      kfree cfg0 t1 0x100000 = Result.ret () t2 ∧ t2 ≠ kheap_init cfg0 :=
  ⟨Reachable.init, _, _, rfl, rfl, by decide⟩

theorem reachable_table_one_free_block : Reachable cfg0 table_one_free_block :=
  reachable_run_calls cfg0 [Call.kmalloc 32, Call.kfree 0x100000] (kheap_init cfg0) _
    Reachable.init rfl

/-- C9 fails after `a = kmalloc(32); kfree(a)` on a fresh heap: seven slots
are unused, and `kmalloc(16)` returns `0x100000` with the only descriptor at
that address still 32 bytes long. -/
theorem kmalloc_hands_out_oversized_tail :
    Reachable cfg0 table_one_free_block ∧
    (∃ j, j < cfg0.KHEAP_MAX_ENTRIES ∧ (rd table_one_free_block j).is_valid = false) ∧
    ∃ t', kmalloc cfg0 table_one_free_block 16 = Result.ret 0x100000 t' ∧
      ∀ i, i < cfg0.KHEAP_MAX_ENTRIES → (rd t' i).is_valid = true → (rd t' i).is_buzy = true →
        (rd t' i).addr = 0x100000 → (rd t' i).size ≠ 16 :=
  ⟨reachable_table_one_free_block, ⟨1, by decide, by decide⟩, _, rfl, by decide⟩

/-! ## Termination of the first loop, and instances -/

/-- The first loop of `kmalloc` ends by itself: once the fuel exceeds the
number of slots left to scan, more fuel changes nothing. -/
theorem kmalloc_loop_fuel (c : Config) (t : Table) (size fuel fuel2 : Nat)
    (current : Option Nat)
    (h1 : c.KHEAP_MAX_ENTRIES - 1 - scan_start current < fuel) (h2 : fuel ≤ fuel2) :
    kmalloc_loop c t size fuel current = kmalloc_loop c t size fuel2 current := by
  induction fuel generalizing current fuel2 with
  | zero => omega
  | succ fuel ih =>
    obtain ⟨f2, rfl⟩ : ∃ f2, fuel2 = f2 + 1 := ⟨fuel2 - 1, by omega⟩
    unfold kmalloc_loop
    cases hf : kheap_find_block c t current true false with
    | none => rfl
    | some i =>
      dsimp only
      cases ht : kmalloc_try c t i size with
      | some r => rfl
      | none =>
        dsimp only
        obtain ⟨g1, g2, _, _⟩ := kheap_find_block_some c t current true false i hf
        apply ih
        · show c.KHEAP_MAX_ENTRIES - 1 - (i + 1) < fuel
          omega
        · omega

/-- The `KHEAP_MAX_ENTRIES` iterations that `kmalloc` runs of its first loop
are enough: the loop has ended by then, whatever the table. -/
theorem kmalloc_loop_terminates (c : Config) (t : Table) (size k : Nat) :
    kmalloc_loop c t size c.KHEAP_MAX_ENTRIES none =
      kmalloc_loop c t size (c.KHEAP_MAX_ENTRIES + k) none := by
  by_cases hN : 0 < c.KHEAP_MAX_ENTRIES
  · apply kmalloc_loop_fuel
    · show c.KHEAP_MAX_ENTRIES - 1 - 0 < c.KHEAP_MAX_ENTRIES
      omega
    · omega
  · have h0 : c.KHEAP_MAX_ENTRIES = 0 := by omega
    rw [h0, Nat.zero_add]
    cases k with
    | zero => rfl
    | succ k =>
      unfold kmalloc_loop
      have : kheap_find_block c t none true false = none := by
        unfold kheap_find_block kheap_table_entries_end
        rw [h0]
        rfl
      rw [this]

/-- Witness of C5: freeing the block of `table_one_free_block` a second time. -/
theorem kfree_panics_iff_unknown_witness :
    Reachable cfg0 table_one_free_block ∧
    (((∃ msg t', kfree cfg0 table_one_free_block 0x100000 = Result.panic msg t') ↔
      ¬ ∃ i, i < cfg0.KHEAP_MAX_ENTRIES ∧ (rd table_one_free_block i).is_valid = true ∧
        (rd table_one_free_block i).is_buzy = true ∧
        (rd table_one_free_block i).addr = 0x100000) ∧
    ∀ msg t', kfree cfg0 table_one_free_block 0x100000 = Result.panic msg t' →
      msg = kpanic_msg.invalid_kernel_heap_address_to_free ∧ t' = table_one_free_block) :=
  ⟨reachable_table_one_free_block,
    kfree_panics_iff_unknown cfg0 table_one_free_block 0x100000 reachable_table_one_free_block⟩

/-- Witness of C8: `kmalloc(16)` on the fresh heap. -/
theorem kmalloc_allocated_size_respected_witness :
    Reachable cfg0 (kheap_init cfg0) ∧ 16 < WORD ∧
    kmalloc cfg0 (kheap_init cfg0) 16 = Result.ret 0x100000 table_one_block ∧
    ∃ i, i < cfg0.KHEAP_MAX_ENTRIES ∧ (rd table_one_block i).is_valid = true ∧
      (rd table_one_block i).is_buzy = true ∧ (rd table_one_block i).addr = 0x100000 ∧
      16 ≤ (rd table_one_block i).size :=
  ⟨Reachable.init, by decide, rfl,
    kmalloc_allocated_size_respected cfg0 (kheap_init cfg0) table_one_block 16 0x100000
      Reachable.init (by decide) rfl⟩

/-- An instance of `sequential_allocation_contiguous`: the sizes 16, 16, 16
give base, base + 16, base + 32. -/
theorem sequential_allocation_contiguous_witness :
    ∃ t', kmalloc_seq cfg0 (kheap_init cfg0) [16, 16, 16] =
      some ([0x100000, 0x100010, 0x100020], t') :=
  sequential_allocation_contiguous cfg0 [16, 16, 16] (by decide) (by decide) (by decide)

/-- Witness of C4 as amended: `kmalloc(16)` takes the free block of
`table_one_free_block` whole and `kfree` gives the table back. -/
theorem roundtrip_restores_unsplit_block_witness :
    kheap_find_block cfg0 table_one_free_block none true false = some 0 ∧
    16 ≤ (rd table_one_free_block 0).size ∧
    (rd table_one_free_block 0).next = none ∧
    kmalloc cfg0 table_one_free_block 16 =
      Result.ret (rd table_one_free_block 0).addr (set_is_buzy table_one_free_block 0 true) ∧
    kfree cfg0 (set_is_buzy table_one_free_block 0 true) (rd table_one_free_block 0).addr =
      Result.ret () table_one_free_block :=
  ⟨rfl, by decide, rfl,
    roundtrip_restores_unsplit_block cfg0 table_one_free_block 16 0 rfl (by decide) rfl
      (fun p hp => Option.noConfusion (show (none : Option Nat) = some p from hp))
      (fun j hj => absurd hj (Nat.not_lt_zero j))⟩

/-- Witness of C9 as amended: `kmalloc(16)` on `table_one_free_block`. -/
theorem kmalloc_exact_size_unless_tail_witness :
    Reachable cfg0 table_one_free_block ∧ 16 < WORD ∧
    (∃ j, j < cfg0.KHEAP_MAX_ENTRIES - 1 ∧ (rd table_one_free_block j).is_valid = false) ∧
    ∃ i, i < cfg0.KHEAP_MAX_ENTRIES ∧
      (rd (set_is_buzy table_one_free_block 0 true) i).is_valid = true ∧
      (rd (set_is_buzy table_one_free_block 0 true) i).is_buzy = true ∧
      (rd (set_is_buzy table_one_free_block 0 true) i).addr = 0x100000 ∧
      ((rd (set_is_buzy table_one_free_block 0 true) i).size = 16 ∨
        ((rd table_one_free_block i).is_valid = true ∧
          (rd table_one_free_block i).is_buzy = false ∧
          (rd table_one_free_block i).next = none ∧ 16 < (rd table_one_free_block i).size ∧
          (rd (set_is_buzy table_one_free_block 0 true) i).size =
            (rd table_one_free_block i).size)) :=
  ⟨reachable_table_one_free_block, by decide, ⟨1, by decide, by decide⟩,
    kmalloc_exact_size_unless_tail cfg0 table_one_free_block
      (set_is_buzy table_one_free_block 0 true) 16 0x100000 reachable_table_one_free_block
      (by decide) ⟨1, by decide, by decide⟩ rfl⟩

/-! ## Blocks that a call leaves as they are -/

theorem take_left_same_block (t : Table) (cur sib size k : Nat) (h1 : k ≠ cur) (h2 : k ≠ sib) :
    SameBlock (rd t k) (rd (kmalloc_take_left t cur sib size).2 k) := by
  unfold SameBlock kmalloc_take_left
  dsimp only
  split
  · split <;> simp [h1, h2]
  · simp [h1, h2]

theorem grow_same_block (c : Config) (t t' : Table) (cur size p k : Nat) (h1 : k ≠ cur)
    (h : kmalloc_grow c t cur size = some (p, t')) : SameBlock (rd t k) (rd t' k) := by
  unfold kmalloc_grow at h
  dsimp only at h
  split at h
  · simp only [Option.some.injEq, Prod.mk.injEq] at h
    obtain ⟨_, rfl⟩ := h
    unfold SameBlock
    simp [h1]
  · exact Option.noConfusion h

theorem split_same_block (c : Config) (t : Table) (cur surplus k : Nat) (h1 : k ≠ cur)
    (hb : (rd t k).is_buzy = true) :
    SameBlock (rd t k) (rd (kmalloc_split c t cur surplus) k) := by
  unfold kmalloc_split
  split
  · rename_i new hnew
    obtain ⟨_, _, _, hnew3⟩ := kheap_find_block_some c t none false false new hnew
    have h2 : k ≠ new := by
      intro e; rw [e, hnew3] at hb; exact Bool.noConfusion hb
    dsimp only
    unfold SameBlock
    split <;> simp [h1, h2]
  · exact ⟨rfl, rfl, rfl, rfl⟩

theorem occupy_same_block (c : Config) (t : Table) (cur size k : Nat) (h1 : k ≠ cur)
    (hb : (rd t k).is_buzy = true) :
    SameBlock (rd t k) (rd (kmalloc_occupy c t cur size).2 k) := by
  unfold kmalloc_occupy
  dsimp only
  split
  · rename_i sib hsib
    split
    · rename_i hfree
      have h2 : k ≠ sib := by
        intro e
        rw [← e] at hfree
        simp [h1, hb] at hfree
      unfold SameBlock
      simp [h1, h2]
    · have := split_same_block c (set_is_buzy t cur true) cur
        (sub32 (rd (set_is_buzy t cur true) cur).size size) k h1 (by simp [h1, hb])
      unfold SameBlock at this ⊢
      simpa [h1] using this
  · unfold SameBlock
    simp [h1]

theorem try_same_block (c : Config) (t t' : Table) (cur size p k : Nat)
    (hcb : (rd t cur).is_buzy = false) (hb : (rd t k).is_buzy = true)
    (h : kmalloc_try c t cur size = some (p, t')) : SameBlock (rd t k) (rd t' k) := by
  have h1 : k ≠ cur := by
    intro e; rw [e, hcb] at hb; exact Bool.noConfusion hb
  unfold kmalloc_try at h
  split at h
  · split at h
    · rename_i sib hsib
      split at h
      · rename_i hfree
        have h2 : k ≠ sib := by
          intro e
          rw [← e, hb] at hfree
          exact absurd hfree (by decide)
        simp only [Option.some.injEq] at h
        have := take_left_same_block t cur sib size k h1 h2
        rw [h] at this
        exact this
      · exact Option.noConfusion h
    · split at h
      · exact grow_same_block c t t' cur size p k h1 h
      · exact Option.noConfusion h
  · simp only [Option.some.injEq] at h
    have := occupy_same_block c t cur size k h1 hb
    rw [h] at this
    exact this

theorem append_same_block (c : Config) (t t' : Table) (size p k : Nat)
    (hb : (rd t k).is_buzy = true)
    (h : kmalloc_append c t size = Result.ret p t') : SameBlock (rd t k) (rd t' k) := by
  unfold kmalloc_append at h
  dsimp only at h
  split at h
  · exact Result.noConfusion h
  · split at h
    · exact Result.noConfusion h
    · rename_i cur hcur
      obtain ⟨_, _, _, hc3⟩ := kheap_find_block_some c t none false false cur hcur
      have h1 : k ≠ cur := by
        intro e; rw [e, hc3] at hb; exact Bool.noConfusion hb
      simp only [Result.ret.injEq] at h
      obtain ⟨_, rfl⟩ := h
      unfold SameBlock
      split <;> simp [h1]

theorem kmalloc_same_block (c : Config) (t t' : Table) (size p k : Nat)
    (hb : (rd t k).is_buzy = true)
    (h : kmalloc c t size = Result.ret p t') : SameBlock (rd t k) (rd t' k) := by
  unfold kmalloc at h
  split at h
  · rename_i p' t2 hloop
    simp only [Result.ret.injEq] at h
    obtain ⟨rfl, rfl⟩ := h
    obtain ⟨cur, _, _, h3, h4⟩ := kmalloc_loop_some c t size _ none _ hloop
    exact try_same_block c t _ cur size _ k h3 hb h4
  · exact append_same_block c t t' size p k hb h

theorem kmalloc_panic_table (c : Config) (t t' : Table) (size : Nat) (msg : kpanic_msg)
    (h : kmalloc c t size = Result.panic msg t') : t' = t := by
  unfold kmalloc at h
  split at h
  · exact Result.noConfusion h
  · unfold kmalloc_append at h
    dsimp only at h
    split at h
    · simp only [Result.panic.injEq] at h; exact h.2.symm
    · split at h
      · simp only [Result.panic.injEq] at h; exact h.2.symm
      · exact Result.noConfusion h

theorem kfree_block_same_block (t : Table) (cur k : Nat) (h1 : k ≠ cur)
    (hb : (rd t k).is_buzy = true) : SameBlock (rd t k) (rd (kfree_block t cur) k) := by
  unfold kfree_block
  dsimp only
  have hL : SameBlock (rd t k) (rd (kfree_merge_left (set_is_buzy t cur false) cur) k) := by
    unfold kfree_merge_left
    split
    · rename_i p hp
      split
      · rename_i hfree
        have h2 : k ≠ p := by
          intro e
          rw [← e] at hfree
          simp [h1, hb] at hfree
        unfold SameBlock
        simp [h1, h2]
      · unfold SameBlock; simp [h1]
    · unfold SameBlock; simp [h1]
  generalize kfree_merge_left (set_is_buzy t cur false) cur = t2 at hL ⊢
  unfold kfree_merge_right
  split
  · rename_i n hn
    split
    · rename_i hfree
      have h2 : k ≠ n := by
        intro e
        rw [← e, hL.2.1, hb] at hfree
        exact absurd hfree (by decide)
      unfold SameBlock at hL ⊢
      simp [h1, h2, hL]
    · exact hL
  · exact hL

/-- C20. In every table, whatever the argument: a `kmalloc` that returns
leaves `is_valid`, `is_buzy`, `addr` and `size` of every descriptor that was
valid and busy as they were, so it changes `addr` or `size` of free or unused
descriptors only; a `kfree` that returns releases one valid busy descriptor
at the given address and leaves those fields of every other valid busy
descriptor as they were; a call that halts leaves the whole table as it
was. -/
theorem allocated_blocks_stable (c : Config) (t : Table) :
    (∀ size p t', kmalloc c t size = Result.ret p t' →
      ∀ k, (rd t k).is_valid = true → (rd t k).is_buzy = true →
        (rd t' k).is_valid = (rd t k).is_valid ∧ (rd t' k).is_buzy = (rd t k).is_buzy ∧
        (rd t' k).addr = (rd t k).addr ∧ (rd t' k).size = (rd t k).size) ∧
    (∀ size msg t', kmalloc c t size = Result.panic msg t' → t' = t) ∧
    (∀ addr t', kfree c t addr = Result.ret () t' →
      ∃ cur, (rd t cur).is_valid = true ∧ (rd t cur).is_buzy = true ∧ (rd t cur).addr = addr ∧
        (rd t' cur).is_buzy = false ∧
        ∀ k, k ≠ cur → (rd t k).is_valid = true → (rd t k).is_buzy = true →
          (rd t' k).is_valid = (rd t k).is_valid ∧ (rd t' k).is_buzy = (rd t k).is_buzy ∧
          (rd t' k).addr = (rd t k).addr ∧ (rd t' k).size = (rd t k).size) ∧
    (∀ addr msg t', kfree c t addr = Result.panic msg t' → t' = t) := by
  refine ⟨?_, ?_, ?_, ?_⟩
  · intro size p t' h k _ hb
    exact kmalloc_same_block c t t' size p k hb h
  · intro size msg t' h
    exact kmalloc_panic_table c t t' size msg h
  · intro addr t' h
    unfold kfree at h
    split at h
    · rename_i cur hcur
      simp only [Result.ret.injEq, true_and] at h
      subst h
      obtain ⟨_, _, h3, _⟩ := scan_slots_some _ t _ _ cur hcur
      simp only [Bool.and_eq_true, beq_iff_eq] at h3
      refine ⟨cur, h3.1.1, h3.2, h3.1.2, (kfree_block_step t cur).2.1, ?_⟩
      intro k hk _ hb
      exact kfree_block_same_block t cur k hk hb
    · exact Result.noConfusion h
  · intro addr msg t' h
    unfold kfree at h
    split at h
    · exact Result.noConfusion h
    · simp only [Result.panic.injEq] at h
      exact h.2.symm

/-! ## The last slot -/

theorem rd_set_of_ne (t : Table) (i j : Nat) (e : kernel_heap_entry_t) (h : j ≠ i) :
    rd (t.set i e) j = rd t j := by
  have := rd_upd t i j (fun _ => e)
  unfold upd at this
  rw [this]
  simp [h]

theorem scan_slots_congr_below (p : kernel_heap_entry_t → Bool) (t t' : Table) (n i m : Nat)
    (hm : i + n ≤ m) (h : ∀ j, j < m → rd t' j = rd t j) :
    scan_slots p t' i n = scan_slots p t i n := by
  induction n generalizing i with
  | zero => rfl
  | succ n ih =>
    unfold scan_slots
    rw [h i (by omega), ih (i + 1) (by omega)]

theorem highest_loop_congr_below (t t' : Table) (n i m : Nat) (hi : Option Nat) (b : Nat)
    (hm : i + n ≤ m) (h : ∀ j, j < m → rd t' j = rd t j) :
    highest_loop t' i n hi b = highest_loop t i n hi b := by
  induction n generalizing i hi b with
  | zero => rfl
  | succ n ih =>
    unfold highest_loop
    rw [h i (by omega)]
    simp only [ih (i + 1) _ _ (by omega)]

theorem count_valid_le (c : Config) (t : Table) (hlen : t.length = c.KHEAP_MAX_ENTRIES)
    (hlast : (rd t (c.KHEAP_MAX_ENTRIES - 1)).is_valid = false) :
    t.countP (fun e => e.is_valid) ≤ c.KHEAP_MAX_ENTRIES - 1 := by
  rw [← List.take_append_drop (c.KHEAP_MAX_ENTRIES - 1) t, List.countP_append]
  have h1 : (t.take (c.KHEAP_MAX_ENTRIES - 1)).countP (fun e => e.is_valid) ≤
      c.KHEAP_MAX_ENTRIES - 1 := by
    refine le_trans (List.countP_le_length _) ?_
    simp
  have h2 : (t.drop (c.KHEAP_MAX_ENTRIES - 1)).countP (fun e => e.is_valid) = 0 := by
    rw [List.countP_eq_zero]
    intro a ha
    obtain ⟨k, hk, rfl⟩ := List.getElem_of_mem ha
    rw [List.length_drop] at hk
    have hk0 : k = 0 := by omega
    subst hk0
    rw [List.getElem_drop]
    have : rd t (c.KHEAP_MAX_ENTRIES - 1) = t[c.KHEAP_MAX_ENTRIES - 1 + 0] := by
      unfold rd
      rw [List.getD_eq_getElem]
      rfl
    rw [← this, hlast]
    simp
  omega

/-- C19. In every table reachable from `kheap_init` the last slot is not
valid, so every valid block is in one of the `KHEAP_MAX_ENTRIES - 1` slots
before it and at most that many blocks exist; `kmalloc` halts with
`MSG_KERNEL_HEAP_TABLE_EXCEED` exactly when it comes to appending a block
(its first loop hands out nothing and the heap has room) and the slots
`0 .. KHEAP_MAX_ENTRIES - 2` are all valid. The content of the last slot has
no part in the scans of `kheap_find_block`, `kheap_get_highest_entry` and
`kfree`. -/
theorem final_slot_never_used (c : Config) (t : Table) (hr : Reachable c t) :
    (rd t (c.KHEAP_MAX_ENTRIES - 1)).is_valid = false ∧
    (∀ i, (rd t i).is_valid = true → i < c.KHEAP_MAX_ENTRIES - 1) ∧
    t.countP (fun e => e.is_valid) ≤ c.KHEAP_MAX_ENTRIES - 1 ∧
    (∀ size, kmalloc c t size = Result.panic kpanic_msg.MSG_KERNEL_HEAP_TABLE_EXCEED t ↔
      (kmalloc_loop c t size c.KHEAP_MAX_ENTRIES none = none ∧
        add32 (heap_end c t) size < c.KHEAP_END_ADDR ∧
        ∀ i, i < c.KHEAP_MAX_ENTRIES - 1 → (rd t i).is_valid = true)) ∧
    ∀ e : kernel_heap_entry_t,
      (∀ entry v b, kheap_find_block c (t.set (c.KHEAP_MAX_ENTRIES - 1) e) entry v b =
        kheap_find_block c t entry v b) ∧
      kheap_get_highest_entry c (t.set (c.KHEAP_MAX_ENTRIES - 1) e) =
        kheap_get_highest_entry c t ∧
      ∀ addr, scan_slots (fun x => x.is_valid && x.addr == addr && x.is_buzy)
          (t.set (c.KHEAP_MAX_ENTRIES - 1) e) kheap_table_entries_start
          (kheap_table_entries_end c) =
        scan_slots (fun x => x.is_valid && x.addr == addr && x.is_buzy) t
          kheap_table_entries_start (kheap_table_entries_end c) := by
  have hI := reachable_inv c t hr
  refine ⟨hI.last_unused, ?_, count_valid_le c t hI.len hI.last_unused, ?_, ?_⟩
  · intro i hv
    have hl := lt_length_of_valid t i hv
    rw [hI.len] at hl
    by_contra hc
    have : i = c.KHEAP_MAX_ENTRIES - 1 := by omega
    rw [this, hI.last_unused] at hv
    exact Bool.noConfusion hv
  · intro size
    unfold kmalloc
    cases hloop : kmalloc_loop c t size c.KHEAP_MAX_ENTRIES none with
    | some r =>
      obtain ⟨p, t1⟩ := r
      simp
    | none =>
      dsimp only
      unfold kmalloc_append
      dsimp only
      by_cases hex : add32 (heap_end c t) size ≥ c.KHEAP_END_ADDR
      · rw [if_pos hex]
        simp
        intro h
        omega
      · rw [if_neg hex]
        cases hfind : kheap_find_block c t none false false with
        | none =>
          simp only [true_and, true_iff]
          refine ⟨by omega, ?_⟩
          intro i hi
          unfold kheap_find_block kheap_table_entries_end at hfind
          have := scan_slots_none _ t _ _ hfind i (Nat.zero_le i)
            (by show i < 0 + (c.KHEAP_MAX_ENTRIES - 1 - 0); omega)
          cases hv : (rd t i).is_valid
          · have hb := hI.unused_free i hv
            simp [hv, hb] at this
          · rfl
        | some cur =>
          dsimp only
          obtain ⟨_, h1, h2, _⟩ := kheap_find_block_some c t none false false cur hfind
          constructor
          · intro h
            exact Result.noConfusion h
          · intro h
            have := h.2.2 cur h1
            rw [h2] at this
            exact Bool.noConfusion this
  · intro e
    have hsame : ∀ j, j < c.KHEAP_MAX_ENTRIES - 1 →
        rd (t.set (c.KHEAP_MAX_ENTRIES - 1) e) j = rd t j :=
      fun j hj => rd_set_of_ne t _ j e (by omega)
    refine ⟨?_, ?_, ?_⟩
    · intro entry v b
      unfold kheap_find_block kheap_table_entries_end
      by_cases hs : scan_start entry ≤ c.KHEAP_MAX_ENTRIES - 1
      · exact scan_slots_congr_below _ t _ _ _ (c.KHEAP_MAX_ENTRIES - 1) (by omega) hsame
      · have : c.KHEAP_MAX_ENTRIES - 1 - scan_start entry = 0 := by omega
        rw [this]
        rfl
    · unfold kheap_get_highest_entry kheap_table_entries_end kheap_table_entries_start
      exact highest_loop_congr_below t _ _ _ (c.KHEAP_MAX_ENTRIES - 1) _ _ (by omega) hsame
    · intro addr
      unfold kheap_table_entries_end kheap_table_entries_start
      exact scan_slots_congr_below _ t _ _ _ (c.KHEAP_MAX_ENTRIES - 1) (by omega) hsame

/-! ## The last block grows -/

theorem kmalloc_loop_first (c : Config) (t : Table) (size i : Nat) (r : Nat × Table)
    (hfirst : kheap_find_block c t none true false = some i)
    (htry : kmalloc_try c t i size = some r) :
    kmalloc_loop c t size c.KHEAP_MAX_ENTRIES none = some r := by
  obtain ⟨_, hi, _, _⟩ := kheap_find_block_some c t none true false i hfirst
  obtain ⟨m, hm⟩ : ∃ m, c.KHEAP_MAX_ENTRIES = m + 1 := ⟨c.KHEAP_MAX_ENTRIES - 1, by omega⟩
  rw [hm]
  unfold kmalloc_loop
  rw [hfirst]
  dsimp only
  rw [htry]

theorem kmalloc_loop_none_of_try_none (c : Config) (t : Table) (size fuel : Nat)
    (current : Option Nat)
    (h : ∀ j, (rd t j).is_valid = true → (rd t j).is_buzy = false →
      kmalloc_try c t j size = none) :
    kmalloc_loop c t size fuel current = none := by
  induction fuel generalizing current with
  | zero => rfl
  | succ fuel ih =>
    unfold kmalloc_loop
    cases hf : kheap_find_block c t current true false with
    | none => rfl
    | some i =>
      obtain ⟨_, _, h2, h3⟩ := kheap_find_block_some c t current true false i hf
      dsimp only
      rw [h i h2 h3]
      exact ih (some i)

theorem find_first_of_only_free (c : Config) (t : Table) (i : Nat)
    (hi : i < c.KHEAP_MAX_ENTRIES - 1)
    (hv : (rd t i).is_valid = true) (hf : (rd t i).is_buzy = false)
    (honly : ∀ j, (rd t j).is_valid = true → (rd t j).is_buzy = false → j = i) :
    kheap_find_block c t none true false = some i := by
  unfold kheap_find_block kheap_table_entries_end
  apply scan_slots_eq_some
  · exact Nat.zero_le i
  · show i < 0 + (c.KHEAP_MAX_ENTRIES - 1 - 0)
    omega
  · simp [hv, hf]
  · intro j _ hj
    cases h1 : (rd t j).is_valid
    · simp
    · cases h2 : (rd t j).is_buzy
      · have := honly j h1 h2
        omega
      · simp

/-- C18, as the code has it. In a table whose only valid free block, among
the slots that `kmalloc` scans, has no right sibling and is smaller than
`n`: when the block has no left sibling either and `addr + n` is below
`KHEAP_END_ADDR`, `kmalloc(n)` returns the block's `addr` and does nothing
but set its size to `n` and mark it busy; when the block has a busy left
sibling `kmalloc(n)` leaves it alone and goes on to append a block at the end
of the heap. -/
theorem kmalloc_grows_block_without_left_sibling (c : Config) (t : Table) (n i : Nat)
    (hi : i < c.KHEAP_MAX_ENTRIES - 1)
    (hv : (rd t i).is_valid = true) (hf : (rd t i).is_buzy = false)
    (honly : ∀ j, (rd t j).is_valid = true → (rd t j).is_buzy = false → j = i)
    (hnext : (rd t i).next = none) (hsize : (rd t i).size < n)
    (hw : c.KHEAP_END_ADDR ≤ WORD) :
    ((rd t i).prev = none → (rd t i).addr + n < c.KHEAP_END_ADDR →
      kmalloc c t n = Result.ret (rd t i).addr (set_is_buzy (set_size t i n) i true)) ∧
    (∀ p, (rd t i).prev = some p → (rd t p).is_buzy = true →
      kmalloc c t n = kmalloc_append c t n) := by
  constructor
  · intro hprev hend
    have hfirst := find_first_of_only_free c t i hi hv hf honly
    have hgrow : kmalloc_try c t i n = some ((rd t i).addr, set_is_buzy (set_size t i n) i true) := by
      unfold kmalloc_try
      rw [if_pos hsize, hprev]
      dsimp only
      rw [if_pos hnext]
      unfold kmalloc_grow
      dsimp only
      have e1 : add32 (add32 (rd t i).addr (rd t i).size) (sub32 n (rd t i).size) =
          (rd t i).addr + n := by
        unfold add32 sub32 WORD at *
        omega
      have e2 : add32 (rd t i).size (sub32 n (rd t i).size) = n := by
        unfold add32 sub32 WORD at *
        omega
      rw [e1, if_pos hend, e2]
      simp
    unfold kmalloc
    rw [kmalloc_loop_first c t n i _ hfirst hgrow]
  · intro p hp hpb
    have hnone : kmalloc_loop c t n c.KHEAP_MAX_ENTRIES none = none := by
      apply kmalloc_loop_none_of_try_none
      intro j hjv hjf
      have := honly j hjv hjf
      subst this
      unfold kmalloc_try
      rw [if_pos hsize, hp]
      dsimp only
      rw [hpb]
      rfl
    unfold kmalloc
    rw [hnone]

/-! ## The split -/

theorem entry_ext (e e' : kernel_heap_entry_t) (h1 : e.is_valid = e'.is_valid)
    (h2 : e.is_buzy = e'.is_buzy) (h3 : e.addr = e'.addr) (h4 : e.size = e'.size)
    (h5 : e.prev = e'.prev) (h6 : e.next = e'.next) : e = e' := by
  cases e; cases e'
  simp only [kernel_heap_entry_t.mk.injEq]
  exact ⟨h1, h2, h3, h4, h5, h6⟩

theorem lt_length_of_busy (t : Table) (i : Nat) (h : (rd t i).is_buzy = true) :
    i < t.length := by
  by_contra hc
  rw [rd_of_length_le t i (by omega)] at h
  simp [entry_zero] at h

/-- The split on the slots that the scans reach. In a table of
`KHEAP_MAX_ENTRIES` slots with 32-bit fields, when the first valid free block
in slot order has size `m > n`, its right sibling is busy and a slot other
than the last is unused, `kmalloc(n)` returns the block's `addr`, marks it
busy with size `n`, and makes an unused slot a valid free block at `addr + n`
of size `m - n` that stands between the block and its former right sibling,
with `prev` and `next` links in both directions; no other descriptor changes.
When only the last slot is unused the block is handed out whole. -/
theorem kmalloc_splits_on_surplus (c : Config) (t : Table) (n i r : Nat)
    (hlen : t.length = c.KHEAP_MAX_ENTRIES)
    (hfirst : kheap_find_block c t none true false = some i)
    (hn : n < (rd t i).size) (hm : (rd t i).size < WORD) (ha : (rd t i).addr + n < WORD)
    (hr : (rd t i).next = some r) (hrb : (rd t r).is_buzy = true)
    (hu : ∃ j, j < c.KHEAP_MAX_ENTRIES - 1 ∧ (rd t j).is_valid = false ∧
      (rd t j).is_buzy = false) :
    ∃ s t', s < c.KHEAP_MAX_ENTRIES - 1 ∧ (rd t s).is_valid = false ∧
      kmalloc c t n = Result.ret (rd t i).addr t' ∧
      rd t' i = { rd t i with is_buzy := true, size := n, next := some s } ∧
      rd t' s = ⟨true, false, (rd t i).addr + n, (rd t i).size - n, some i, some r⟩ ∧
      rd t' r = { rd t r with prev := some s } ∧
      ∀ k, k ≠ i → k ≠ s → k ≠ r → rd t' k = rd t k := by
  obtain ⟨_, hi, hv, hf⟩ := kheap_find_block_some c t none true false i hfirst
  have hil := lt_length_of_valid t i hv
  have hrl := lt_length_of_busy t r hrb
  have hri : r ≠ i := by
    intro e; rw [e, hf] at hrb; exact Bool.noConfusion hrb
  obtain ⟨j, hj1, hj2, hj3⟩ := hu
  have hfind0 : kheap_find_block c t none false false ≠ none := by
    unfold kheap_find_block kheap_table_entries_end
    refine scan_slots_ne_none _ t _ 0 j (Nat.zero_le j) ?_ ?_
    · show j < 0 + (c.KHEAP_MAX_ENTRIES - 1 - 0)
      omega
    · simp [hj2, hj3]
  obtain ⟨s, hs⟩ : ∃ s, kheap_find_block c t none false false = some s := by
    cases h : kheap_find_block c t none false false with
    | none => exact absurd h hfind0
    | some s => exact ⟨s, rfl⟩
  obtain ⟨_, hs1, hs2, hs3⟩ := kheap_find_block_some c t none false false s hs
  have hsl : s < t.length := by omega
  have hsi : s ≠ i := by
    intro e; rw [e, hv] at hs2; exact Bool.noConfusion hs2
  have hrs : r ≠ s := by
    intro e; rw [e, hs3] at hrb; exact Bool.noConfusion hrb
  have hsub : sub32 (rd t i).size n = (rd t i).size - n := sub32_of_le _ _ (by omega) hm
  have hsub2 : sub32 (rd t i).size ((rd t i).size - n) = n := by
    rw [← hsub]; exact sub32_sub32_cancel _ _ (by omega) hm
  have hadd : add32 (rd t i).addr n = (rd t i).addr + n := by
    unfold add32; exact Nat.mod_eq_of_lt ha
  have htry : kmalloc_try c t i n = some (kmalloc_occupy c t i n) := by
    unfold kmalloc_try
    rw [if_neg (by omega)]
  have hfind1 : kheap_find_block c (set_is_buzy t i true) none false false = some s := by
    rw [find_unused_set_is_buzy c t i hv]; exact hs
  have hocc : kmalloc_occupy c t i n =
      ((rd t i).addr,
        set_next (set_prev (set_next (set_prev (set_size (set_addr (set_is_buzy (set_is_valid
          (set_size (set_is_buzy t i true) i n) s true) s false) s ((rd t i).addr + n)) s
          ((rd t i).size - n)) s (some i)) s (some r)) r (some s)) i (some s)) := by
    unfold kmalloc_occupy
    dsimp only
    rw [rd_set_is_buzy_next, hr]
    dsimp only
    have hb1 : (rd (set_is_buzy t i true) r).is_buzy = true := by simp [hri, hrb]
    rw [hb1]
    simp only [Bool.not_true, Bool.false_eq_true, if_false]
    unfold kmalloc_split
    rw [hfind1]
    dsimp only
    simp only [rd_set_is_buzy_size, rd_set_is_buzy_addr, rd_set_is_valid_size,
      rd_set_is_valid_addr, rd_set_size_size, rd_set_size_addr, rd_set_addr_size,
      rd_set_addr_addr, rd_set_prev_size, rd_set_prev_addr, rd_set_next_size, rd_set_next_addr,
      rd_set_is_buzy_next, rd_set_is_valid_next, rd_set_size_next, rd_set_addr_next,
      rd_set_prev_next, rd_set_next_next,
      length_set_is_buzy, length_set_is_valid, length_set_size, length_set_addr,
      length_set_prev, length_set_next, hil, hsl, hsi, Ne.symm hsi, and_true, and_false,
      if_true, if_false, true_and, hsub, hsub2, hadd, hr]
  refine ⟨s, (kmalloc_occupy c t i n).2, hs1, hs2, ?_, ?_⟩
  · unfold kmalloc
    rw [kmalloc_loop_first c t n i _ hfirst htry]
    dsimp only
    rw [hocc]
  · rw [hocc]
    dsimp only
    refine ⟨?_, ?_, ?_, ?_⟩
    · apply entry_ext <;> simp [hil, hsl, hrl, hsi, Ne.symm hsi, hri, Ne.symm hri, hrs, Ne.symm hrs]
    · apply entry_ext <;> simp [hil, hsl, hrl, hsi, Ne.symm hsi, hri, Ne.symm hri, hrs, Ne.symm hrs]
    · apply entry_ext <;> simp [hil, hsl, hrl, hsi, Ne.symm hsi, hri, Ne.symm hri, hrs, Ne.symm hrs]
    · intro k h1 h2 h3
      apply entry_ext <;> simp [h1, h2, h3]

/-! ## Scenarios with a hole and with a free last block -/

theorem reachable_table_hole : Reachable cfg0 table_hole :=
  reachable_run_calls cfg0
    [Call.kmalloc 16, Call.kmalloc 16, Call.kmalloc 16, Call.kfree 0x100010]
    (kheap_init cfg0) _ Reachable.init rfl

theorem reachable_table_free_tail : Reachable cfg0 table_free_tail :=
  reachable_run_calls cfg0 [Call.kmalloc 16, Call.kmalloc 16, Call.kfree 0x100010]
    (kheap_init cfg0) _ Reachable.init rfl

theorem only_free_of_lt (t : Table) (i : Nat)
    (h : ∀ j, j < t.length → (rd t j).is_valid = true → (rd t j).is_buzy = false → j = i) :
    ∀ j, (rd t j).is_valid = true → (rd t j).is_buzy = false → j = i :=
  fun j hv hf => h j (lt_length_of_valid t j hv) hv hf

/-- An instance of `kmalloc_splits_on_surplus`: `kmalloc(8)` on `table_hole`
splits the free block. -/
theorem kmalloc_splits_on_surplus_witness :
    Reachable cfg0 table_hole ∧
    kheap_find_block cfg0 table_hole none true false = some 1 ∧
    ∃ s t', s < cfg0.KHEAP_MAX_ENTRIES - 1 ∧ (rd table_hole s).is_valid = false ∧
      kmalloc cfg0 table_hole 8 = Result.ret (rd table_hole 1).addr t' ∧
      rd t' 1 = { rd table_hole 1 with is_buzy := true, size := 8, next := some s } ∧
      rd t' s = ⟨true, false, (rd table_hole 1).addr + 8, (rd table_hole 1).size - 8,
        some 1, some 2⟩ ∧
      rd t' 2 = { rd table_hole 2 with prev := some s } ∧
      ∀ k, k ≠ 1 → k ≠ s → k ≠ 2 → rd t' k = rd table_hole k :=
  ⟨reachable_table_hole, rfl,
    kmalloc_splits_on_surplus cfg0 table_hole 8 1 2 rfl rfl (by decide) (by decide) (by decide)
      rfl rfl ⟨3, by decide, rfl, rfl⟩⟩

/-- C12. On a fresh heap with `KHEAP_START_ADDR = 0x100000` and 8 slots,
`a, b, c = kmalloc(16); kfree(b); d = kmalloc(8); e = kmalloc(6);
f = kmalloc(16)` gives `f = 0x100030`, and after `kfree(a); kfree(f)`,
`g = kmalloc(4)` is `0x100000` but `h = kmalloc(4)` is `0x100030`, the block
of `f`, not `0x100004`: the scan is in slot order and the slot of `f` comes
before the slot of the 12 bytes left of `a`. -/
theorem second_small_block_reuses_last_block :
    ∃ t6 t7 t9 t10 t11, run_calls cfg0 (kheap_init cfg0)
        [Call.kmalloc 16, Call.kmalloc 16, Call.kmalloc 16, Call.kfree 0x100010,
          Call.kmalloc 8, Call.kmalloc 6] = some t6 ∧
      kmalloc cfg0 t6 16 = Result.ret 0x100030 t7 ∧
      run_calls cfg0 t7 [Call.kfree 0x100000, Call.kfree 0x100030] = some t9 ∧
      kmalloc cfg0 t9 4 = Result.ret 0x100000 t10 ∧
      kmalloc cfg0 t10 4 = Result.ret 0x100030 t11 ∧
      0x100030 ≠ 0x100000 + 4 ∧
      (rd t11 6).is_valid = true ∧ (rd t11 6).is_buzy = false ∧ (rd t11 6).addr = 0x100004 ∧
      (rd t11 6).size = 12 :=
  ⟨_, _, _, _, _, rfl, rfl, rfl, rfl, rfl, by decide, by decide, by decide, by decide,
    by decide⟩

/-- C18 fails on `table_free_tail`: the free last block at `0x100010` has a
busy left sibling, `kmalloc(32)` returns `0x100020`, a new block in slot 2,
and leaves the free block as it was. -/
theorem kmalloc_appends_behind_free_tail :
    Reachable cfg0 table_free_tail ∧
    (rd table_free_tail 1).is_valid = true ∧ (rd table_free_tail 1).is_buzy = false ∧
    (∀ j, (rd table_free_tail j).is_valid = true → (rd table_free_tail j).is_buzy = false →
      j = 1) ∧
    (rd table_free_tail 1).next = none ∧ (rd table_free_tail 1).size < 32 ∧
    (rd table_free_tail 1).prev = some 0 ∧ (rd table_free_tail 0).is_buzy = true ∧
    (rd table_free_tail 1).addr + 32 < cfg0.KHEAP_END_ADDR ∧
    ∃ t', kmalloc cfg0 table_free_tail 32 = Result.ret 0x100020 t' ∧
      0x100020 ≠ (rd table_free_tail 1).addr ∧
      rd t' 1 = { rd table_free_tail 1 with next := some 2 } ∧
      (rd table_free_tail 2).is_valid = false ∧ (rd t' 2).is_valid = true :=
  ⟨reachable_table_free_tail, rfl, rfl,
    only_free_of_lt table_free_tail 1 (by decide), rfl, by decide, rfl, rfl, by decide,
    _, rfl, by decide, by decide, rfl, by decide⟩

/-- Witness of C18 as amended: `kmalloc(64)` grows the only block of
`table_one_free_block`. -/
theorem kmalloc_grows_block_without_left_sibling_witness :
    (rd table_one_free_block 0).prev = none ∧
    (rd table_one_free_block 0).addr + 64 < cfg0.KHEAP_END_ADDR ∧
    kmalloc cfg0 table_one_free_block 64 =
      Result.ret (rd table_one_free_block 0).addr
        (set_is_buzy (set_size table_one_free_block 0 64) 0 true) :=
  ⟨rfl, by decide,
    (kmalloc_grows_block_without_left_sibling cfg0 table_one_free_block 64 0 (by decide) rfl rfl
      (only_free_of_lt table_one_free_block 0 (by decide)) rfl (by decide) (by decide)).1 rfl
      (by decide)⟩

/-- Witness of C19: the last slot of `table_hole`. -/
theorem final_slot_never_used_witness :
    Reachable cfg0 table_hole ∧
    (rd table_hole (cfg0.KHEAP_MAX_ENTRIES - 1)).is_valid = false ∧
    table_hole.countP (fun e => e.is_valid) ≤ cfg0.KHEAP_MAX_ENTRIES - 1 :=
  ⟨reachable_table_hole, (final_slot_never_used cfg0 table_hole reachable_table_hole).1,
    (final_slot_never_used cfg0 table_hole reachable_table_hole).2.2.1⟩

/-! ## The last slot left unused -/

/-- C10. On a fresh heap of 8 slots, where eight blocks of 16 bytes have a
descriptor slot each and fit the heap region, seven `kmalloc(16)` return
`0x100000`, `0x100010`, ..., `0x100060`, and the eighth halts with "heap table
exceed" although slot 7 is unused: `kheap_find_block` stops before the last
slot. -/
theorem kmalloc_halts_with_last_slot_unused :
    (List.replicate 8 16).length ≤ cfg0.KHEAP_MAX_ENTRIES ∧
    cfg0.KHEAP_START_ADDR + (List.replicate 8 16).sum < cfg0.KHEAP_END_ADDR ∧
    ∃ t7, kmalloc_seq cfg0 (kheap_init cfg0) (List.replicate 7 16) =
        some ([0x100000, 0x100010, 0x100020, 0x100030, 0x100040, 0x100050, 0x100060], t7) ∧
      (rd t7 7).is_valid = false ∧
      kmalloc cfg0 t7 16 = Result.panic kpanic_msg.MSG_KERNEL_HEAP_TABLE_EXCEED t7 ∧
      kmalloc_seq cfg0 (kheap_init cfg0) (List.replicate 8 16) = none :=
  ⟨by decide, by decide, _, rfl, by decide, rfl, rfl⟩

/-- C11. After seven `kmalloc(16)` and `kfree(0x100010)` on a fresh heap of 8
slots, the first valid free block in slot order is slot 1 with size 16, its
right sibling in slot 2 is busy, and slot 7 is unused; the table passes
`kheap_validate`. `kmalloc(8)` returns `0x100010` but leaves the block with
size 16 and inserts no descriptor: slot 7 stays unused and no valid free
block exists afterwards, since `kheap_find_block` stops before the last
slot. -/
theorem kmalloc_keeps_surplus_with_last_slot_unused :
    ∃ t t', run_calls cfg0 (kheap_init cfg0)
        [Call.kmalloc 16, Call.kmalloc 16, Call.kmalloc 16, Call.kmalloc 16, Call.kmalloc 16,
          Call.kmalloc 16, Call.kmalloc 16, Call.kfree 0x100010] = some t ∧
      kheap_validate cfg0 t 8 = some (Result.ret () t) ∧
      kheap_find_block cfg0 t none true false = some 1 ∧
      (rd t 1).addr = 0x100010 ∧ (rd t 1).size = 16 ∧
      (rd t 1).next = some 2 ∧ (rd t 2).is_valid = true ∧ (rd t 2).is_buzy = true ∧
      (rd t 7).is_valid = false ∧
      kmalloc cfg0 t 8 = Result.ret 0x100010 t' ∧
      (rd t' 1).is_buzy = true ∧ (rd t' 1).size = 16 ∧ (rd t' 1).next = some 2 ∧
      (rd t' 7).is_valid = false ∧
      ∀ k, k < 8 → ¬ ((rd t' k).is_valid = true ∧ (rd t' k).is_buzy = false) :=
  ⟨_, _, rfl, by decide, by decide, by decide, by decide, by decide, by decide, by decide,
    by decide, rfl, by decide, by decide, by decide, by decide, by decide⟩

end KHeap

namespace Sched

/-! ## The paths of `sched_schedule` -/

theorem sched_schedule_no_tasks (lay : Layout) (find : Int → Int) (s : SchedState)
    (ret_addr reg_addr : Nat) (h : find s.current_task_index = -1) :
    sched_schedule lay find s ret_addr reg_addr = Outcome.panic_no_tasks s := by
  unfold sched_schedule
  simp only [h, if_true]

theorem sched_schedule_continue (lay : Layout) (find : Int → Int) (s : SchedState)
    (ret_addr reg_addr : Nat) (hf : find s.current_task_index ≠ -1)
    (hc : s.current_task_index ≠ -1)
    (hq : (s.tasks s.current_task_index).time + 1 < lay.TASK_QUOTA) :
    sched_schedule lay find s ret_addr reg_addr =
      Outcome.returned
        (upd_task s s.current_task_index (fun t => { t with time := t.time + 1 })) := by
  unfold sched_schedule
  simp only [hf, hc, if_false, ne_eq, not_false_eq_true, if_true]
  have : ((upd_task s s.current_task_index (fun t => { t with time := t.time + 1 })).tasks
      s.current_task_index).time = (s.tasks s.current_task_index).time + 1 := by
    simp [upd_task]
  rw [if_pos (by rw [this]; exact hq)]

theorem sched_schedule_preempt (lay : Layout) (find : Int → Int) (s : SchedState)
    (ret_addr reg_addr : Nat) (hf : find s.current_task_index ≠ -1)
    (hc : s.current_task_index ≠ -1)
    (hq : ¬ (s.tasks s.current_task_index).time + 1 < lay.TASK_QUOTA) :
    sched_schedule lay find s ret_addr reg_addr =
      sched_switch lay
        (sched_save lay
          (upd_task (upd_task s s.current_task_index (fun t => { t with time := t.time + 1 }))
            s.current_task_index (fun t => { t with time := 0 }))
          s.current_task_index ret_addr reg_addr)
        (some s.current_task_index) (find s.current_task_index) := by
  unfold sched_schedule
  simp only [hf, hc, if_false, ne_eq, not_false_eq_true, if_true]
  have : ((upd_task s s.current_task_index (fun t => { t with time := t.time + 1 })).tasks
      s.current_task_index).time = (s.tasks s.current_task_index).time + 1 := by
    simp [upd_task]
  rw [if_neg (by rw [this]; exact hq)]

theorem sched_schedule_first (lay : Layout) (find : Int → Int) (s : SchedState)
    (ret_addr reg_addr : Nat) (hf : find s.current_task_index ≠ -1)
    (hc : s.current_task_index = -1) :
    sched_schedule lay find s ret_addr reg_addr =
      sched_switch lay s none (find s.current_task_index) := by
  unfold sched_schedule
  dsimp only
  rw [if_neg hf, if_neg (fun h => h hc)]

theorem sched_switch_ne_panic (lay : Layout) (s s1 : SchedState) (this_task : Option Int)
    (next_task : Int) : sched_switch lay s this_task next_task ≠ Outcome.panic_no_tasks s1 := by
  cases this_task <;> exact fun h => Outcome.noConfusion h

/-! ## What the save and the switch leave alone -/

@[simp] theorem upd_task_current (s : SchedState) (i : Int) (f : sched_task → sched_task) :
    (upd_task s i f).current_task_index = s.current_task_index := rfl

@[simp] theorem upd_task_mem (s : SchedState) (i : Int) (f : sched_task → sched_task) :
    (upd_task s i f).mem = s.mem := rfl

@[simp] theorem upd_task_same (s : SchedState) (i : Int) (f : sched_task → sched_task) :
    (upd_task s i f).tasks i = f (s.tasks i) := by simp [upd_task]

theorem upd_task_other (s : SchedState) (i j : Int) (f : sched_task → sched_task)
    (h : j ≠ i) : (upd_task s i f).tasks j = s.tasks j := by simp [upd_task, h]

theorem upd_task_time (s : SchedState) (i j : Int) (f : sched_task → sched_task)
    (hf : ∀ t, (f t).time = t.time) : ((upd_task s i f).tasks j).time = (s.tasks j).time := by
  by_cases h : j = i
  · subst h; rw [upd_task_same, hf]
  · rw [upd_task_other _ _ _ _ h]

@[simp] theorem sched_save_current (lay : Layout) (s : SchedState) (i : Int) (ret_addr reg_addr : Nat) :
    (sched_save lay s i ret_addr reg_addr).current_task_index = s.current_task_index := rfl

@[simp] theorem sched_save_mem (lay : Layout) (s : SchedState) (i : Int) (ret_addr reg_addr : Nat) :
    (sched_save lay s i ret_addr reg_addr).mem = s.mem := rfl

theorem sched_save_same (lay : Layout) (s : SchedState) (i : Int) (ret_addr reg_addr : Nat) :
    (sched_save lay s i ret_addr reg_addr).tasks i =
      ⟨(s.tasks i).time,
        ⟨read_u32 s.mem ret_addr, read_u16 s.mem (KHeap.add32 ret_addr 4),
          KHeap.add32 ret_addr 10⟩,
        read_u32 s.mem (KHeap.add32 ret_addr 6), read_bytes s.mem reg_addr lay.GP_SIZE⟩ := by
  simp [sched_save]

theorem sched_save_other (lay : Layout) (s : SchedState) (i j : Int) (ret_addr reg_addr : Nat)
    (h : j ≠ i) : (sched_save lay s i ret_addr reg_addr).tasks j = s.tasks j := by
  simp [sched_save, upd_task, h]

theorem sched_save_time (lay : Layout) (s : SchedState) (i j : Int) (ret_addr reg_addr : Nat) :
    ((sched_save lay s i ret_addr reg_addr).tasks j).time = (s.tasks j).time := by
  by_cases h : j = i
  · subst h; rw [sched_save_same]
  · rw [sched_save_other _ _ _ _ _ _ h]

@[simp] theorem sched_push_frame_current (s : SchedState) (n : Int) :
    (sched_push_frame s n).current_task_index = s.current_task_index := rfl

theorem sched_push_frame_mem (s : SchedState) (n : Int) :
    (sched_push_frame s n).mem =
      write_u32
        (write_u16
          (write_u32 s.mem (KHeap.sub32 (s.tasks n).op_registers.esp 4) (s.tasks n).flags)
          (KHeap.sub32 (s.tasks n).op_registers.esp 6) (s.tasks n).op_registers.cs)
        (KHeap.sub32 (s.tasks n).op_registers.esp 10) (s.tasks n).op_registers.eip := rfl

theorem sched_push_frame_same (s : SchedState) (n : Int) :
    (sched_push_frame s n).tasks n =
      { s.tasks n with op_registers :=
        { (s.tasks n).op_registers with
          esp := KHeap.sub32 (s.tasks n).op_registers.esp 10 } } := by
  simp [sched_push_frame, upd_task]

theorem sched_push_frame_other (s : SchedState) (n j : Int) (h : j ≠ n) :
    (sched_push_frame s n).tasks j = s.tasks j := by
  simp [sched_push_frame, upd_task, h]

theorem sched_push_frame_time (s : SchedState) (n j : Int) :
    ((sched_push_frame s n).tasks j).time = (s.tasks j).time := by
  by_cases h : j = n
  · subst h; rw [sched_push_frame_same]
  · rw [sched_push_frame_other _ _ _ h]

@[simp] theorem sched_push_registers_current (lay : Layout) (s : SchedState) (i n : Int) :
    (sched_push_registers lay s i n).current_task_index = s.current_task_index := rfl

theorem sched_push_registers_same (lay : Layout) (s : SchedState) (i n : Int) :
    (sched_push_registers lay s i n).tasks n =
      { s.tasks n with
        op_registers :=
          { (s.tasks n).op_registers with
            esp := KHeap.sub32 (s.tasks n).op_registers.esp lay.GP_SIZE }
        gp_registers :=
          set_gp_esp lay (s.tasks n).gp_registers (s.tasks i).op_registers.esp } := by
  simp [sched_push_registers, upd_task]

theorem sched_push_registers_other (lay : Layout) (s : SchedState) (i n j : Int) (h : j ≠ n) :
    (sched_push_registers lay s i n).tasks j = s.tasks j := by
  simp [sched_push_registers, upd_task, h]

theorem sched_push_registers_time (lay : Layout) (s : SchedState) (i n j : Int) :
    ((sched_push_registers lay s i n).tasks j).time = (s.tasks j).time := by
  by_cases h : j = n
  · subst h; rw [sched_push_registers_same]
  · rw [sched_push_registers_other _ _ _ _ _ h]

theorem sched_push_registers_mem (lay : Layout) (s : SchedState) (i n : Int) :
    (sched_push_registers lay s i n).mem =
      write_bytes s.mem (KHeap.sub32 (s.tasks n).op_registers.esp lay.GP_SIZE)
        (set_gp_esp lay (s.tasks n).gp_registers (s.tasks i).op_registers.esp) := by
  simp [sched_push_registers, upd_task]

theorem sched_switch_some_eq (lay : Layout) (s : SchedState) (this_task next_task : Int) :
    sched_switch lay s (some this_task) next_task =
      Outcome.switched
        ((sched_push_registers lay
          (sched_push_frame { s with current_task_index := next_task } next_task)
          this_task next_task).tasks next_task).op_registers.esp
        (sched_push_registers lay
          (sched_push_frame { s with current_task_index := next_task } next_task)
          this_task next_task) := rfl

theorem sched_switch_none_eq (lay : Layout) (s : SchedState) (next_task : Int) :
    sched_switch lay s none next_task =
      Outcome.null_dereference
        (sched_push_frame { s with current_task_index := next_task } next_task) := rfl

/-- With a current task, the second half of `sched_schedule` ends in
`asm_switch_context`, with the next task current and every `time` as it
was. -/
theorem sched_switch_some (lay : Layout) (s : SchedState) (this_task next_task : Int) :
    ∃ esp s1, sched_switch lay s (some this_task) next_task = Outcome.switched esp s1 ∧
      s1.current_task_index = next_task ∧ ∀ j, (s1.tasks j).time = (s.tasks j).time := by
  refine ⟨_, _, sched_switch_some_eq lay s this_task next_task, rfl, fun j => ?_⟩
  rw [sched_push_registers_time, sched_push_frame_time]

/-- Without a current task, the second half of `sched_schedule` comes to the
read of `this_task->op_registers.esp` at line 62. -/
theorem sched_switch_none (lay : Layout) (s : SchedState) (next_task : Int) :
    ∃ s1, sched_switch lay s none next_task = Outcome.null_dereference s1 ∧
      s1.current_task_index = next_task ∧ ∀ j, (s1.tasks j).time = (s.tasks j).time := by
  refine ⟨_, sched_switch_none_eq lay s next_task, rfl, fun j => ?_⟩
  rw [sched_push_frame_time]

/-! ## Accounting -/

/-- The accounting of `sched_schedule` with a current task and a next task:
below the quota the call returns with the `time` of the current task one
higher; at the quota it switches to the next task with that `time` reset. No
other `time` changes. -/
theorem sched_schedule_accounting (lay : Layout) (find : Int → Int) (s : SchedState)
    (ret_addr reg_addr : Nat) (hf : find s.current_task_index ≠ -1)
    (hc : s.current_task_index ≠ -1) :
    ((s.tasks s.current_task_index).time + 1 < lay.TASK_QUOTA →
      ∃ s1, sched_schedule lay find s ret_addr reg_addr = Outcome.returned s1 ∧
        s1.current_task_index = s.current_task_index ∧
        (s1.tasks s.current_task_index).time = (s.tasks s.current_task_index).time + 1 ∧
        ∀ j, j ≠ s.current_task_index → (s1.tasks j).time = (s.tasks j).time) ∧
    (¬ (s.tasks s.current_task_index).time + 1 < lay.TASK_QUOTA →
      ∃ esp s1, sched_schedule lay find s ret_addr reg_addr = Outcome.switched esp s1 ∧
        s1.current_task_index = find s.current_task_index ∧
        (s1.tasks s.current_task_index).time = 0 ∧
        ∀ j, j ≠ s.current_task_index → (s1.tasks j).time = (s.tasks j).time) := by
  constructor
  · intro hq
    refine ⟨_, sched_schedule_continue lay find s ret_addr reg_addr hf hc hq, rfl, ?_, ?_⟩
    · rw [upd_task_same]
    · intro j hj
      rw [upd_task_other _ _ _ _ hj]
  · intro hq
    rw [sched_schedule_preempt lay find s ret_addr reg_addr hf hc hq]
    obtain ⟨esp, s1, h1, h2, h3⟩ := sched_switch_some lay
      (sched_save lay
        (upd_task (upd_task s s.current_task_index (fun t => { t with time := t.time + 1 }))
          s.current_task_index (fun t => { t with time := 0 }))
        s.current_task_index ret_addr reg_addr)
      s.current_task_index (find s.current_task_index)
    refine ⟨esp, s1, h1, h2, ?_, ?_⟩
    · rw [h3, sched_save_time, upd_task_same]
    · intro j hj
      rw [h3, sched_save_time, upd_task_other _ _ _ _ hj, upd_task_other _ _ _ _ hj]

theorem alternate_ne (i : Int) : alternate i ≠ -1 := by
  unfold alternate
  split <;> decide

theorem alternate_parity (q : Nat) :
    alternate ((q % 2 : Nat) : Int) = (((q + 1) % 2 : Nat) : Int) := by
  rcases Nat.mod_two_eq_zero_or_one q with h | h
  · have h1 : (q + 1) % 2 = 1 := by omega
    rw [h, h1]; rfl
  · have h1 : (q + 1) % 2 = 0 := by omega
    rw [h, h1]; rfl

theorem parity_ne (q : Nat) : (((q + 1) % 2 : Nat) : Int) ≠ ((q % 2 : Nat) : Int) := by
  omega

theorem parity_ne_neg_one (q : Nat) : ((q % 2 : Nat) : Int) ≠ -1 := by
  omega

theorem parity_add_two (q : Nat) : (q + 1 + 1) % 2 = q % 2 := by
  omega

/-- Round robin over two tasks, from any point of the cycle: after `q * Q + r`
ticks with `r < Q`, task `q % 2` is current with `time = r` and the other task
has `time = 0`; any further ticks lead to a state of the same kind. -/
theorem round_robin_run (lay : Layout) (calls : List (Nat × Nat)) :
    ∀ (s : SchedState) (q r : Nat), r < lay.TASK_QUOTA →
      s.current_task_index = ((q % 2 : Nat) : Int) →
      (s.tasks ((q % 2 : Nat) : Int)).time = r →
      (s.tasks (((q + 1) % 2 : Nat) : Int)).time = 0 →
      ∃ s1 q1 r1, sched_run lay alternate s calls = some s1 ∧
        q1 * lay.TASK_QUOTA + r1 = q * lay.TASK_QUOTA + r + calls.length ∧
        r1 < lay.TASK_QUOTA ∧
        s1.current_task_index = ((q1 % 2 : Nat) : Int) ∧
        (s1.tasks ((q1 % 2 : Nat) : Int)).time = r1 ∧
        (s1.tasks (((q1 + 1) % 2 : Nat) : Int)).time = 0 := by
  induction calls with
  | nil =>
    intro s q r hr hc ht ho
    exact ⟨s, q, r, rfl, rfl, hr, hc, ht, ho⟩
  | cons a rest ih =>
    intro s q r hr hc ht ho
    have hf : alternate s.current_task_index ≠ -1 := alternate_ne _
    have hc1 : s.current_task_index ≠ -1 := by rw [hc]; exact parity_ne_neg_one q
    have acc := sched_schedule_accounting lay alternate s a.1 a.2 hf hc1
    rw [hc] at acc
    by_cases hq : r + 1 < lay.TASK_QUOTA
    · obtain ⟨s1, e1, e2, e3, e4⟩ := acc.1 (by rw [ht]; exact hq)
      obtain ⟨s2, q2, r2, f1, f2, f3, f4, f5, f6⟩ := ih s1 q (r + 1) hq e2
        (by rw [e3, ht]) (by rw [e4 _ (parity_ne q), ho])
      refine ⟨s2, q2, r2, ?_, ?_, f3, f4, f5, f6⟩
      · simp only [sched_run, e1, next_state]
        exact f1
      · rw [f2, List.length_cons]; omega
    · obtain ⟨esp, s1, e1, e2, e3, e4⟩ := acc.2 (by rw [ht]; exact hq)
      rw [alternate_parity] at e2
      obtain ⟨s2, q2, r2, f1, f2, f3, f4, f5, f6⟩ := ih s1 (q + 1) 0 (by omega) e2
        (by rw [e4 _ (parity_ne q), ho]) (by rw [parity_add_two, e3])
      refine ⟨s2, q2, r2, ?_, ?_, f3, f4, f5, f6⟩
      · simp only [sched_run, e1, next_state]
        exact f1
      · rw [f2, List.length_cons]
        have : r + 1 = lay.TASK_QUOTA := by omega
        rw [Nat.add_mul, one_mul]
        omega

theorem div_mod_of_decomp (n Q q r : Nat) (h : q * Q + r = n) (hr : r < Q) :
    n / Q = q ∧ n % Q = r := by
  subst h
  have hQ : 0 < Q := by omega
  constructor
  · rw [Nat.add_comm, Nat.add_mul_div_right _ _ hQ, Nat.div_eq_of_lt hr, Nat.zero_add]
  · rw [Nat.add_comm, Nat.add_mul_mod_self_right, Nat.mod_eq_of_lt hr]

theorem quota_dvd_succ (n Q : Nat) (hQ : 0 < Q) : Q ∣ n + 1 ↔ n % Q + 1 = Q := by
  have h2 : n % Q < Q := Nat.mod_lt _ hQ
  have h0 := Nat.div_add_mod n Q
  constructor
  · intro h
    by_contra hne
    have h3 : n % Q + 1 < Q := by omega
    have h4 : n / Q * Q + (n % Q + 1) = n + 1 := by
      rw [Nat.mul_comm]; omega
    have h5 := (div_mod_of_decomp (n + 1) Q (n / Q) (n % Q + 1) h4 h3).2
    have h1 : (n + 1) % Q = 0 := Nat.mod_eq_zero_of_dvd h
    omega
  · intro h
    have h1 : n + 1 = Q * (n / Q + 1) := by
      rw [Nat.mul_add, Nat.mul_one]; omega
    rw [h1]
    exact Dvd.intro _ rfl

/-! ## Round robin -/

/-- C13. Round-robin quota. With `sched_find_task_to_run_index` alternating
between two tasks 0 and 1, a quota `Q ≥ 1`, and a start with task 0 current
and both `time` fields 0: any number of timer ticks run without halting, and
in the state on entry to call `k = calls.length + 1` the value of
`current_task_index` is `(k - 1) / Q % 2`, the `time` of the current task is
`(k - 1) % Q`, the `time` of both tasks is below `Q`, and call `k` switches
context exactly when `Q` divides `k` and returns to the current task
otherwise. -/
theorem round_robin_quota (lay : Layout) (s : SchedState) (calls : List (Nat × Nat))
    (hQ : 1 ≤ lay.TASK_QUOTA) (hc : s.current_task_index = 0)
    (h0 : (s.tasks 0).time = 0) (h1 : (s.tasks 1).time = 0) :
    ∃ s1, sched_run lay alternate s calls = some s1 ∧
      s1.current_task_index = ((calls.length / lay.TASK_QUOTA % 2 : Nat) : Int) ∧
      (s1.tasks s1.current_task_index).time = calls.length % lay.TASK_QUOTA ∧
      (s1.tasks 0).time < lay.TASK_QUOTA ∧ (s1.tasks 1).time < lay.TASK_QUOTA ∧
      ∀ ret_addr reg_addr,
        ((∃ esp s2, sched_schedule lay alternate s1 ret_addr reg_addr = Outcome.switched esp s2) ↔
          lay.TASK_QUOTA ∣ calls.length + 1) ∧
        ((∃ s2, sched_schedule lay alternate s1 ret_addr reg_addr = Outcome.returned s2) ↔
          ¬ lay.TASK_QUOTA ∣ calls.length + 1) := by
  obtain ⟨s1, q1, r1, f1, f2, f3, f4, f5, f6⟩ :=
    round_robin_run lay calls s 0 0 (by omega) (by rw [hc]; rfl) (by simpa using h0)
      (by simpa using h1)
  simp only [Nat.zero_mul, Nat.zero_add] at f2
  obtain ⟨d1, d2⟩ := div_mod_of_decomp _ _ _ _ f2 f3
  have hboth : (s1.tasks 0).time < lay.TASK_QUOTA ∧ (s1.tasks 1).time < lay.TASK_QUOTA := by
    rcases Nat.mod_two_eq_zero_or_one q1 with h | h
    · have h2 : (q1 + 1) % 2 = 1 := by omega
      rw [h] at f5; rw [h2] at f6
      simp only [Nat.cast_zero] at f5
      simp only [Nat.cast_one] at f6
      rw [f5, f6]; exact ⟨f3, by omega⟩
    · have h2 : (q1 + 1) % 2 = 0 := by omega
      rw [h] at f5; rw [h2] at f6
      simp only [Nat.cast_zero] at f6
      simp only [Nat.cast_one] at f5
      rw [f5, f6]; exact ⟨by omega, f3⟩
  have hf : alternate s1.current_task_index ≠ -1 := alternate_ne _
  have hc1 : s1.current_task_index ≠ -1 := by rw [f4]; exact parity_ne_neg_one q1
  have acc := fun ret_addr reg_addr =>
    sched_schedule_accounting lay alternate s1 ret_addr reg_addr hf hc1
  have ht : (s1.tasks s1.current_task_index).time = r1 := by rw [f4]; exact f5
  refine ⟨s1, f1, by rw [f4, d1], by rw [ht, d2], hboth.1, hboth.2, fun ret_addr reg_addr => ?_⟩
  rw [quota_dvd_succ _ _ (by omega : 0 < lay.TASK_QUOTA), d2]
  by_cases hq : r1 + 1 < lay.TASK_QUOTA
  · obtain ⟨s2, e1, _⟩ := (acc ret_addr reg_addr).1 (by rw [ht]; exact hq)
    constructor
    · constructor
      · rintro ⟨esp, s3, e3⟩
        rw [e1] at e3
        exact Outcome.noConfusion e3
      · intro h; omega
    · constructor
      · intro _; omega
      · intro _; exact ⟨s2, e1⟩
  · obtain ⟨esp, s2, e1, _⟩ := (acc ret_addr reg_addr).2 (by rw [ht]; exact hq)
    constructor
    · constructor
      · intro _; omega
      · intro _; exact ⟨esp, s2, e1⟩
    · constructor
      · rintro ⟨s3, e3⟩
        rw [e1] at e3
        exact Outcome.noConfusion e3
      · intro h; omega

/-- Witness of C13: quota 3, eleven ticks from `sched0`, and the values of
`current_task_index` that the first 12 calls are entered with. -/
theorem round_robin_quota_witness :
    (1 ≤ lay0.TASK_QUOTA ∧ sched0.current_task_index = 0 ∧ (sched0.tasks 0).time = 0 ∧
      (sched0.tasks 1).time = 0) ∧
    (∃ s1, sched_run lay0 alternate sched0 (List.replicate 11 (0x7000, 0x7100)) = some s1 ∧
      s1.current_task_index = 1 ∧ (s1.tasks s1.current_task_index).time = 2 ∧
      ∃ esp s2, sched_schedule lay0 alternate s1 0x7000 0x7100 = Outcome.switched esp s2) ∧
    sched_entries lay0 alternate sched0 (List.replicate 12 (0x7000, 0x7100)) =
      [0, 0, 0, 1, 1, 1, 0, 0, 0, 1, 1, 1] := by
  refine ⟨⟨by decide, rfl, rfl, rfl⟩, ?_, by decide⟩
  obtain ⟨s1, e1, e2, e3, _, _, e6⟩ := round_robin_quota lay0 sched0
    (List.replicate 11 (0x7000, 0x7100)) (by decide) rfl rfl rfl
  exact ⟨s1, e1, e2, e3, ((e6 0x7000 0x7100).1).2 (by decide)⟩

/-! ## Addresses modulo `2 ^ 32` -/

theorem read_byte_congr (m : Mem) (a b : Nat) (h : a % KHeap.WORD = b % KHeap.WORD) :
    read_byte m a = read_byte m b := by
  unfold read_byte
  rw [h]

theorem read_bytes_congr (m : Mem) (n : Nat) :
    ∀ a b, a % KHeap.WORD = b % KHeap.WORD → read_bytes m a n = read_bytes m b n := by
  induction n with
  | zero => intro a b _; rfl
  | succ n ih =>
    intro a b h
    simp only [read_bytes]
    rw [read_byte_congr m a b h, ih (a + 1) (b + 1) (by rw [Nat.add_mod, h, ← Nat.add_mod])]

theorem read_u32_add32 (m : Mem) (a k : Nat) :
    read_u32 m (KHeap.add32 a k) = read_u32 m (a + k) := by
  unfold read_u32
  rw [read_bytes_congr m 4 (KHeap.add32 a k) (a + k) (by unfold KHeap.add32; exact Nat.mod_mod _ _)]

theorem read_u16_add32 (m : Mem) (a k : Nat) :
    read_u16 m (KHeap.add32 a k) = read_u16 m (a + k) := by
  unfold read_u16
  rw [read_bytes_congr m 2 (KHeap.add32 a k) (a + k) (by unfold KHeap.add32; exact Nat.mod_mod _ _)]

/-! ## The first schedule -/

/-- Entered without a current task and with a task to run, `sched_schedule`
makes that task current, stores its return frame and comes to the read of
`this_task->op_registers.esp` at line 62 with `this_task` null. -/
theorem sched_schedule_first_null (lay : Layout) (find : Int → Int) (s : SchedState)
    (ret_addr reg_addr : Nat) (hc : s.current_task_index = -1)
    (hf : find s.current_task_index ≠ -1) :
    ∃ s1, sched_schedule lay find s ret_addr reg_addr = Outcome.null_dereference s1 ∧
      s1.current_task_index = find s.current_task_index ∧
      ∀ j, (s1.tasks j).time = (s.tasks j).time := by
  rw [sched_schedule_first lay find s ret_addr reg_addr hf hc]
  exact sched_switch_none lay s (find s.current_task_index)

/-! ## The save, the halt and the first schedule -/

/-- C14. Snapshot of the preempted task. Entered with a current task and a
task to run: when the `time` of the current task reaches `TASK_QUOTA` on this
tick, `sched_schedule` goes on to the switch from the state after the save
step, in which the current task has `time` 0, `op_registers.eip` the 32-bit
word at `ret_addr`, `op_registers.cs` the 16-bit word at `ret_addr + 4`,
`flags` the 32-bit word at `ret_addr + 6`, `op_registers.esp` equal to
`ret_addr + 10` (as a `size_t`), and `gp_registers` the `sizeof(gp_registers)`
bytes at `reg_addr`, while memory, `current_task_index` and every other task
are as on entry; when `time` stays below `TASK_QUOTA` the call returns with
only `time` of the current task changed, to `time + 1`. -/
theorem sched_save_snapshot (lay : Layout) (find : Int → Int) (s : SchedState)
    (ret_addr reg_addr : Nat) (hc : s.current_task_index ≠ -1)
    (hf : find s.current_task_index ≠ -1) :
    (¬ (s.tasks s.current_task_index).time + 1 < lay.TASK_QUOTA →
      ∃ saved, saved = sched_save lay
          (upd_task (upd_task s s.current_task_index (fun t => { t with time := t.time + 1 }))
            s.current_task_index (fun t => { t with time := 0 }))
          s.current_task_index ret_addr reg_addr ∧
        sched_schedule lay find s ret_addr reg_addr =
          sched_switch lay saved (some s.current_task_index) (find s.current_task_index) ∧
        saved.tasks s.current_task_index =
          ⟨0, ⟨read_u32 s.mem ret_addr, read_u16 s.mem (ret_addr + 4),
              KHeap.add32 ret_addr 10⟩,
            read_u32 s.mem (ret_addr + 6), read_bytes s.mem reg_addr lay.GP_SIZE⟩ ∧
        (ret_addr + 10 < KHeap.WORD →
          (saved.tasks s.current_task_index).op_registers.esp = ret_addr + 10) ∧
        saved.mem = s.mem ∧ saved.current_task_index = s.current_task_index ∧
        ∀ j, j ≠ s.current_task_index → saved.tasks j = s.tasks j) ∧
    ((s.tasks s.current_task_index).time + 1 < lay.TASK_QUOTA →
      ∃ s1, sched_schedule lay find s ret_addr reg_addr = Outcome.returned s1 ∧
        s1.tasks s.current_task_index =
          { s.tasks s.current_task_index with
            time := (s.tasks s.current_task_index).time + 1 } ∧
        s1.mem = s.mem ∧ s1.current_task_index = s.current_task_index ∧
        ∀ j, j ≠ s.current_task_index → s1.tasks j = s.tasks j) := by
  constructor
  · intro hq
    refine ⟨_, rfl, sched_schedule_preempt lay find s ret_addr reg_addr hf hc hq, ?_, ?_,
      rfl, rfl, ?_⟩
    · rw [sched_save_same, upd_task_same, read_u16_add32, read_u32_add32]
      rfl
    · intro h
      rw [sched_save_same]
      exact Nat.mod_eq_of_lt h
    · intro j hj
      rw [sched_save_other _ _ _ _ _ _ hj, upd_task_other _ _ _ _ hj,
        upd_task_other _ _ _ _ hj]
  · intro hq
    refine ⟨_, sched_schedule_continue lay find s ret_addr reg_addr hf hc hq, ?_, rfl, rfl, ?_⟩
    · rw [upd_task_same]
    · intro j hj
      rw [upd_task_other _ _ _ _ hj]

/-- Witness of C14: from `sched0` with the quota 3, a first tick returns with
`time` 1, and a tick with `time` 2 saves the frame at `0x7000` and the
registers at `0x7100`. -/
theorem sched_save_snapshot_witness :
    (sched0.current_task_index ≠ -1 ∧ alternate sched0.current_task_index ≠ -1) ∧
    (∃ s1, sched_schedule lay0 alternate sched0 0x7000 0x7100 = Outcome.returned s1 ∧
      s1.tasks 0 = { sched0.tasks 0 with time := 1 }) ∧
    ∃ saved, sched_schedule lay0 alternate
          (upd_task sched0 0 (fun t => { t with time := 2 })) 0x7000 0x7100 =
        sched_switch lay0 saved (some 0) 1 ∧
      (saved.tasks 0).op_registers.esp = 0x700A ∧
      (saved.tasks 0).gp_registers = List.replicate 32 0 := by
  refine ⟨⟨by decide, by decide⟩, ?_, ?_⟩
  · obtain ⟨s1, e1, e2, _⟩ :=
      (sched_save_snapshot lay0 alternate sched0 0x7000 0x7100 (by decide) (by decide)).2
        (by decide)
    exact ⟨s1, e1, e2⟩
  · obtain ⟨saved, _, e1, e2, _⟩ :=
      (sched_save_snapshot lay0 alternate (upd_task sched0 0 (fun t => { t with time := 2 }))
        0x7000 0x7100 (by decide) (by decide)).1 (by decide)
    refine ⟨saved, e1, ?_, ?_⟩
    · have := congrArg (fun t => t.op_registers.esp) e2
      exact this
    · have := congrArg (fun t => t.gp_registers) e2
      exact this

/-- C16. No runnable task is fatal and free of side effects: when
`sched_find_task_to_run_index(current_task_index)` is -1, `sched_schedule`
halts in `kpanic(MSG_SCHED_NO_TASKS)` with the whole state
(`current_task_index`, every task, memory) as on entry; when it is not -1,
`sched_schedule` does not halt in that panic. -/
theorem sched_no_tasks_panic (lay : Layout) (find : Int → Int) (s : SchedState)
    (ret_addr reg_addr : Nat) :
    (find s.current_task_index = -1 →
      sched_schedule lay find s ret_addr reg_addr = Outcome.panic_no_tasks s) ∧
    (find s.current_task_index ≠ -1 →
      ∀ s1, sched_schedule lay find s ret_addr reg_addr ≠ Outcome.panic_no_tasks s1) := by
  constructor
  · exact sched_schedule_no_tasks lay find s ret_addr reg_addr
  · intro hf s1
    by_cases hc : s.current_task_index = -1
    · rw [sched_schedule_first lay find s ret_addr reg_addr hf hc]
      exact sched_switch_ne_panic _ _ _ _ _
    · by_cases hq : (s.tasks s.current_task_index).time + 1 < lay.TASK_QUOTA
      · rw [sched_schedule_continue lay find s ret_addr reg_addr hf hc hq]
        exact fun h => Outcome.noConfusion h
      · rw [sched_schedule_preempt lay find s ret_addr reg_addr hf hc hq]
        exact sched_switch_ne_panic _ _ _ _ _

/-- Witness of C16: with no task to run `sched_schedule` halts on `sched0`
unchanged, and with the alternating finder it does not halt. -/
theorem sched_no_tasks_panic_witness :
    ((fun _ => -1 : Int → Int) sched0.current_task_index = -1 ∧
      sched_schedule lay0 (fun _ => -1) sched0 0x7000 0x7100 = Outcome.panic_no_tasks sched0) ∧
    (alternate sched0.current_task_index ≠ -1 ∧
      ∀ s1, sched_schedule lay0 alternate sched0 0x7000 0x7100 ≠ Outcome.panic_no_tasks s1) :=
  ⟨⟨rfl, (sched_no_tasks_panic lay0 (fun _ => -1) sched0 0x7000 0x7100).1 rfl⟩,
    ⟨by decide, (sched_no_tasks_panic lay0 alternate sched0 0x7000 0x7100).2 (by decide)⟩⟩

/-- C17. On the first schedule, from `sched_first` (`current_task_index` -1,
the finder picking task 0, whose saved `esp` is `0x8000`), `sched_schedule`
makes task 0 current, stores its return frame at `0x7FF6` and moves its saved
`esp` there, and then reads `this_task->op_registers.esp` (line 62) with
`this_task` null: it does not come to `asm_switch_context`. -/
theorem first_schedule_reads_null_task :
    sched_first.current_task_index = -1 ∧ alternate sched_first.current_task_index = 0 ∧
    ∃ s1, sched_schedule lay0 alternate sched_first 0x7000 0x7100 =
        Outcome.null_dereference s1 ∧
      s1.current_task_index = 0 ∧ (s1.tasks 0).op_registers.esp = 0x7FF6 ∧
      read_u32 s1.mem 0x7FF6 = 0x1000 ∧ read_u16 s1.mem 0x7FFA = 8 ∧
      read_u32 s1.mem 0x7FFC = 0x202 ∧
      ∀ esp s2, sched_schedule lay0 alternate sched_first 0x7000 0x7100 ≠
        Outcome.switched esp s2 :=
  ⟨rfl, rfl, _, rfl, rfl, by decide, by decide, by decide, by decide,
    fun _ _ h => Outcome.noConfusion h⟩

/-! ## Reading what was written -/

theorem read_byte_write_byte (m : Mem) (a v x : Nat) :
    read_byte (write_byte m a v) x =
      if x % KHeap.WORD = a % KHeap.WORD then v % 256 else read_byte m x := by
  unfold read_byte write_byte
  split
  · exact Nat.mod_mod _ _
  · rfl

theorem read_byte_write_bytes_out (bs : List Nat) :
    ∀ (m : Mem) (a x : Nat), (∀ k, k < bs.length → (a + k) % KHeap.WORD ≠ x % KHeap.WORD) →
      read_byte (write_bytes m a bs) x = read_byte m x := by
  induction bs with
  | nil => intro m a x _; rfl
  | cons b bs ih =>
    intro m a x h
    simp only [write_bytes]
    rw [ih (write_byte m a b) (a + 1) x
      (fun k hk => by
        have := h (k + 1) (by simp only [List.length_cons]; omega)
        rwa [Nat.add_assoc, Nat.add_comm 1 k]),
      read_byte_write_byte, if_neg]
    have := h 0 (by simp only [List.length_cons]; omega)
    exact fun e => this e.symm

theorem read_bytes_write_bytes_out (bs : List Nat) (m : Mem) (a : Nat) (n : Nat) :
    ∀ b, a + bs.length ≤ KHeap.WORD → b + n ≤ KHeap.WORD →
      (a + bs.length ≤ b ∨ b + n ≤ a) →
      read_bytes (write_bytes m a bs) b n = read_bytes m b n := by
  induction n with
  | zero => intro b _ _ _; rfl
  | succ n ih =>
    intro b ha hb hd
    simp only [read_bytes]
    rw [ih (b + 1) ha (by omega) (by omega),
      read_byte_write_bytes_out bs m a b (fun k hk => by
        unfold KHeap.WORD at *
        omega)]

theorem read_bytes_write_bytes_self (bs : List Nat) :
    ∀ (m : Mem) (a : Nat), a + bs.length ≤ KHeap.WORD → (∀ x ∈ bs, x < 256) →
      read_bytes (write_bytes m a bs) a bs.length = bs := by
  induction bs with
  | nil => intro m a _ _; rfl
  | cons b bs ih =>
    intro m a ha hb
    simp only [List.length_cons] at ha
    simp only [write_bytes, List.length_cons, read_bytes]
    rw [ih (write_byte m a b) (a + 1) (by omega) (fun x hx => hb x (List.mem_cons_of_mem _ hx)),
      read_byte_write_bytes_out bs (write_byte m a b) (a + 1) a (fun k hk => by
        unfold KHeap.WORD at *
        omega),
      read_byte_write_byte, if_pos rfl,
      Nat.mod_eq_of_lt (hb b (List.mem_cons_self _ _))]

theorem le_bytes_length (n : Nat) : ∀ v, (le_bytes v n).length = n := by
  induction n with
  | zero => intro v; rfl
  | succ n ih => intro v; simp only [le_bytes, List.length_cons, ih]

theorem le_bytes_lt (n : Nat) : ∀ v, ∀ x ∈ le_bytes v n, x < 256 := by
  induction n with
  | zero => intro v x hx; simp [le_bytes] at hx
  | succ n ih =>
    intro v x hx
    simp only [le_bytes, List.mem_cons] at hx
    rcases hx with h | h
    · rw [h]; exact Nat.mod_lt _ (by decide)
    · exact ih _ x h

theorem le_value_le_bytes (n : Nat) : ∀ v, le_value (le_bytes v n) = v % 256 ^ n := by
  induction n with
  | zero => intro v; simp [le_bytes, le_value, Nat.mod_one]
  | succ n ih =>
    intro v
    simp only [le_bytes, le_value, ih, Nat.mod_mod]
    rw [pow_succ', Nat.mod_mul]

theorem read_u32_write_u32 (m : Mem) (a v : Nat) (ha : a + 4 ≤ KHeap.WORD) (hv : v < KHeap.WORD) :
    read_u32 (write_u32 m a v) a = v := by
  unfold read_u32 write_u32
  have := read_bytes_write_bytes_self (le_bytes v 4) m a
    (by rw [le_bytes_length]; exact ha) (le_bytes_lt 4 v)
  rw [le_bytes_length] at this
  rw [this, le_value_le_bytes]
  exact Nat.mod_eq_of_lt hv

theorem read_u16_write_u16 (m : Mem) (a v : Nat) (ha : a + 2 ≤ KHeap.WORD) (hv : v < 65536) :
    read_u16 (write_u16 m a v) a = v := by
  unfold read_u16 write_u16
  have := read_bytes_write_bytes_self (le_bytes v 2) m a
    (by rw [le_bytes_length]; exact ha) (le_bytes_lt 2 v)
  rw [le_bytes_length] at this
  rw [this, le_value_le_bytes]
  exact Nat.mod_eq_of_lt hv

theorem write_image_length (bs : List Nat) :
    ∀ (g : List Nat) (off : Nat), (write_image g off bs).length = g.length := by
  induction bs with
  | nil => intro g off; rfl
  | cons b bs ih => intro g off; simp only [write_image, ih, List.length_set]

theorem write_image_lt (bs : List Nat) :
    ∀ (g : List Nat) (off : Nat), (∀ x ∈ g, x < 256) → (∀ x ∈ bs, x < 256) →
      ∀ x ∈ write_image g off bs, x < 256 := by
  induction bs with
  | nil => intro g off hg _ x hx; exact hg x hx
  | cons b bs ih =>
    intro g off hg hb x hx
    simp only [write_image] at hx
    refine ih (g.set off b) (off + 1) (fun y hy => ?_)
      (fun y hy => hb y (List.mem_cons_of_mem _ hy)) x hx
    rcases List.mem_or_eq_of_mem_set hy with h | h
    · exact hg y h
    · rw [h]; exact hb b (List.mem_cons_self _ _)

theorem write_image_getD_out (bs : List Nat) :
    ∀ (g : List Nat) (off k : Nat), (k < off ∨ off + bs.length ≤ k) →
      (write_image g off bs).getD k 0 = g.getD k 0 := by
  induction bs with
  | nil => intro g off k _; rfl
  | cons b bs ih =>
    intro g off k h
    simp only [List.length_cons] at h
    simp only [write_image]
    rw [ih (g.set off b) (off + 1) k (by omega)]
    simp only [List.getD_eq_getElem?_getD, List.getElem?_set]
    rw [if_neg (by omega)]

theorem write_image_getD_in (bs : List Nat) :
    ∀ (g : List Nat) (off k : Nat), off + bs.length ≤ g.length → k < bs.length →
      (write_image g off bs).getD (off + k) 0 = bs.getD k 0 := by
  induction bs with
  | nil => intro g off k _ hk; exact absurd hk (Nat.not_lt_zero _)
  | cons b bs ih =>
    intro g off k hg hk
    simp only [List.length_cons] at hg hk
    simp only [write_image]
    cases k with
    | zero =>
      show (write_image (g.set off b) (off + 1) bs).getD off 0 = b
      rw [write_image_getD_out bs (g.set off b) (off + 1) off (by omega)]
      simp only [List.getD_eq_getElem?_getD, List.getElem?_set]
      simp [show off < g.length by omega]
    | succ k =>
      have := ih (g.set off b) (off + 1) k (by rw [List.length_set]; omega) (by omega)
      rw [show off + (k + 1) = off + 1 + k by omega, this]
      rfl

theorem read_image_write_image (bs : List Nat) :
    ∀ (g : List Nat) (off : Nat), off + bs.length ≤ g.length →
      read_image (write_image g off bs) off bs.length = bs := by
  induction bs with
  | nil => intro g off _; rfl
  | cons b bs ih =>
    intro g off hg
    simp only [List.length_cons] at hg
    simp only [write_image, List.length_cons, read_image]
    rw [ih (g.set off b) (off + 1) (by rw [List.length_set]; omega),
      write_image_getD_out bs (g.set off b) (off + 1) off (by omega)]
    simp only [List.getD_eq_getElem?_getD, List.getElem?_set]
    simp [show off < g.length by omega]

theorem get_set_gp_esp (lay : Layout) (g : List Nat) (v : Nat)
    (h : lay.GP_ESP + 4 ≤ g.length) :
    get_gp_esp lay (set_gp_esp lay g v) = v % KHeap.WORD := by
  unfold get_gp_esp set_gp_esp
  have := read_image_write_image (le_bytes v 4) g lay.GP_ESP
    (by rw [le_bytes_length]; exact h)
  rw [le_bytes_length] at this
  rw [this, le_value_le_bytes]
  rfl

/-! ## The frame and the registers of the next task -/

/-- The state at `asm_switch_context` after a preemption, when the next task
is another task than the current one and nothing wraps: its saved `esp` and
memory. -/
theorem sched_switch_layout (lay : Layout) (s : SchedState) (this_task next_task : Int)
    (eip cs flags E : Nat) (G : List Nat) (hne : next_task ≠ this_task)
    (hop : (s.tasks next_task).op_registers = ⟨eip, cs, E⟩)
    (hfl : (s.tasks next_task).flags = flags)
    (hgp : (s.tasks next_task).gp_registers = G)
    (hE : 10 + lay.GP_SIZE ≤ E) (hW : E < KHeap.WORD) :
    ((sched_push_registers lay
        (sched_push_frame { s with current_task_index := next_task } next_task)
        this_task next_task).tasks next_task).op_registers.esp = E - 10 - lay.GP_SIZE ∧
    (sched_push_registers lay
        (sched_push_frame { s with current_task_index := next_task } next_task)
        this_task next_task).mem =
      write_bytes
        (write_u32 (write_u16 (write_u32 s.mem (E - 4) flags) (E - 6) cs) (E - 10) eip)
        (E - 10 - lay.GP_SIZE)
        (set_gp_esp lay G (s.tasks this_task).op_registers.esp) := by
  have h1 : (sched_push_frame { s with current_task_index := next_task } next_task).tasks
      next_task = { s.tasks next_task with op_registers := ⟨eip, cs, E - 10⟩ } := by
    rw [sched_push_frame_same]
    show { s.tasks next_task with op_registers :=
      { (s.tasks next_task).op_registers with
        esp := KHeap.sub32 (s.tasks next_task).op_registers.esp 10 } } = _
    rw [hop]
    show { s.tasks next_task with op_registers := ⟨eip, cs, KHeap.sub32 E 10⟩ } = _
    rw [KHeap.sub32_of_le E 10 (by omega) hW]
  have h2 : (sched_push_frame { s with current_task_index := next_task } next_task).tasks
      this_task = s.tasks this_task :=
    sched_push_frame_other _ _ _ hne.symm
  have h3 : (sched_push_frame { s with current_task_index := next_task } next_task).mem =
      write_u32 (write_u16 (write_u32 s.mem (E - 4) flags) (E - 6) cs) (E - 10) eip := by
    rw [sched_push_frame_mem]
    show write_u32 (write_u16 (write_u32 s.mem
      (KHeap.sub32 (s.tasks next_task).op_registers.esp 4) (s.tasks next_task).flags)
      (KHeap.sub32 (s.tasks next_task).op_registers.esp 6) (s.tasks next_task).op_registers.cs)
      (KHeap.sub32 (s.tasks next_task).op_registers.esp 10)
      (s.tasks next_task).op_registers.eip = _
    rw [hop, hfl]
    show write_u32 (write_u16 (write_u32 s.mem (KHeap.sub32 E 4) flags) (KHeap.sub32 E 6) cs)
      (KHeap.sub32 E 10) eip = _
    rw [KHeap.sub32_of_le E 4 (by omega) hW, KHeap.sub32_of_le E 6 (by omega) hW,
      KHeap.sub32_of_le E 10 (by omega) hW]
  constructor
  · rw [sched_push_registers_same, h1]
    show KHeap.sub32 (E - 10) lay.GP_SIZE = _
    rw [KHeap.sub32_of_le _ _ (by omega) (by omega)]
  · rw [sched_push_registers_mem, h1, h2, h3]
    show write_bytes _ (KHeap.sub32 (E - 10) lay.GP_SIZE)
      (set_gp_esp lay (s.tasks next_task).gp_registers _) = _
    rw [KHeap.sub32_of_le _ _ (by omega) (by omega), hgp]

/-! ## The frame at the switch -/

/-- C15, as the code has it. When `sched_schedule` preempts the current task
for another task `next` whose stored state on entry is `(eip, cs, flags,
op_registers.esp = E, gp_registers = G)`, with `10 + sizeof(G) ≤ E < 2^32`, it
calls `asm_switch_context(E - 10 - sizeof(G))` with `eip` at `[E-10, E-6)`,
`cs` at `[E-6, E-4)`, `flags` at `[E-4, E)`, and the `sizeof(G)` bytes below
`E - 10` equal to `G` with its field `esp` overwritten by the saved
`op_registers.esp` of the preempted task, `ret_addr + 10`: every byte outside
that field is the byte of `G`. -/
theorem sched_switch_rebuilds_frame (lay : Layout) (find : Int → Int) (s : SchedState)
    (ret_addr reg_addr eip cs flags E : Nat) (G : List Nat)
    (hc : s.current_task_index ≠ -1) (hf : find s.current_task_index ≠ -1)
    (hne : find s.current_task_index ≠ s.current_task_index)
    (hq : ¬ (s.tasks s.current_task_index).time + 1 < lay.TASK_QUOTA)
    (hop : (s.tasks (find s.current_task_index)).op_registers = ⟨eip, cs, E⟩)
    (hfl : (s.tasks (find s.current_task_index)).flags = flags)
    (hgp : (s.tasks (find s.current_task_index)).gp_registers = G)
    (heip : eip < KHeap.WORD) (hcs : cs < 65536) (hflags : flags < KHeap.WORD)
    (hG : G.length = lay.GP_SIZE) (hGb : ∀ b ∈ G, b < 256)
    (hoff : lay.GP_ESP + 4 ≤ lay.GP_SIZE)
    (hE : 10 + lay.GP_SIZE ≤ E) (hW : E < KHeap.WORD) :
    ∃ s1, sched_schedule lay find s ret_addr reg_addr =
        Outcome.switched (E - 10 - lay.GP_SIZE) s1 ∧
      s1.current_task_index = find s.current_task_index ∧
      read_u32 s1.mem (E - 10) = eip ∧ read_u16 s1.mem (E - 6) = cs ∧
      read_u32 s1.mem (E - 4) = flags ∧
      read_bytes s1.mem (E - 10 - lay.GP_SIZE) lay.GP_SIZE =
        set_gp_esp lay G (KHeap.add32 ret_addr 10) ∧
      get_gp_esp lay (set_gp_esp lay G (KHeap.add32 ret_addr 10)) = KHeap.add32 ret_addr 10 ∧
      ∀ k, k < lay.GP_ESP ∨ lay.GP_ESP + 4 ≤ k →
        (set_gp_esp lay G (KHeap.add32 ret_addr 10)).getD k 0 = G.getD k 0 := by
  have hsaved : ∀ j, j ≠ s.current_task_index →
      (sched_save lay
        (upd_task (upd_task s s.current_task_index (fun t => { t with time := t.time + 1 }))
          s.current_task_index (fun t => { t with time := 0 }))
        s.current_task_index ret_addr reg_addr).tasks j = s.tasks j := by
    intro j hj
    rw [sched_save_other _ _ _ _ _ _ hj, upd_task_other _ _ _ _ hj, upd_task_other _ _ _ _ hj]
  have hthis : ((sched_save lay
        (upd_task (upd_task s s.current_task_index (fun t => { t with time := t.time + 1 }))
          s.current_task_index (fun t => { t with time := 0 }))
        s.current_task_index ret_addr reg_addr).tasks s.current_task_index).op_registers.esp =
      KHeap.add32 ret_addr 10 := by
    rw [sched_save_same]
  obtain ⟨e1, e2⟩ := sched_switch_layout lay
    (sched_save lay
      (upd_task (upd_task s s.current_task_index (fun t => { t with time := t.time + 1 }))
        s.current_task_index (fun t => { t with time := 0 }))
      s.current_task_index ret_addr reg_addr)
    s.current_task_index (find s.current_task_index) eip cs flags E G hne
    (by rw [hsaved _ hne]; exact hop) (by rw [hsaved _ hne]; exact hfl)
    (by rw [hsaved _ hne]; exact hgp) hE hW
  rw [hthis] at e2
  have hlen : (set_gp_esp lay G (KHeap.add32 ret_addr 10)).length = lay.GP_SIZE := by
    unfold set_gp_esp
    rw [write_image_length, hG]
  have hlt : ∀ x ∈ set_gp_esp lay G (KHeap.add32 ret_addr 10), x < 256 :=
    write_image_lt _ _ _ hGb (le_bytes_lt 4 _)
  refine ⟨sched_push_registers lay
    (sched_push_frame
      { sched_save lay
          (upd_task (upd_task s s.current_task_index (fun t => { t with time := t.time + 1 }))
            s.current_task_index (fun t => { t with time := 0 }))
          s.current_task_index ret_addr reg_addr with
        current_task_index := find s.current_task_index }
      (find s.current_task_index))
    s.current_task_index (find s.current_task_index), ?_, rfl, ?_, ?_, ?_, ?_, ?_, ?_⟩
  · rw [sched_schedule_preempt lay find s ret_addr reg_addr hf hc hq, sched_switch_some_eq, e1]
  · rw [e2]
    unfold read_u32
    rw [read_bytes_write_bytes_out _ _ _ _ _ (by rw [hlen]; omega) (by omega)
      (by rw [hlen]; omega)]
    exact read_u32_write_u32 _ _ _ (by omega) heip
  · rw [e2]
    unfold read_u16
    rw [read_bytes_write_bytes_out _ _ _ _ _ (by rw [hlen]; omega) (by omega)
      (by rw [hlen]; omega)]
    unfold write_u32
    rw [read_bytes_write_bytes_out _ _ _ _ _ (by rw [le_bytes_length]; omega) (by omega)
      (by rw [le_bytes_length]; omega)]
    exact read_u16_write_u16 _ _ _ (by omega) hcs
  · rw [e2]
    unfold read_u32
    rw [read_bytes_write_bytes_out _ _ _ _ _ (by rw [hlen]; omega) (by omega)
      (by rw [hlen]; omega)]
    unfold write_u32 write_u16
    rw [read_bytes_write_bytes_out _ _ _ _ _ (by rw [le_bytes_length]; omega) (by omega)
      (by rw [le_bytes_length]; omega),
      read_bytes_write_bytes_out _ _ _ _ _ (by rw [le_bytes_length]; omega) (by omega)
      (by rw [le_bytes_length]; omega)]
    exact read_u32_write_u32 _ _ _ (by omega) hflags
  · rw [e2]
    have := fun m => read_bytes_write_bytes_self (set_gp_esp lay G (KHeap.add32 ret_addr 10))
      m (E - 10 - lay.GP_SIZE) (by rw [hlen]; omega) hlt
    rw [hlen] at this
    exact this _
  · rw [get_set_gp_esp lay G _ (by rw [hG]; exact hoff)]
    unfold KHeap.add32
    exact Nat.mod_mod _ _
  · intro k hk
    unfold set_gp_esp
    exact write_image_getD_out _ _ _ _ (by rw [le_bytes_length]; exact hk)

/-- Witness of C15 as amended: on `sched_due`, a tick at the quota switches
from task 0 to task 1, whose saved `esp` is `0x9000`. -/
theorem sched_switch_rebuilds_frame_witness :
    ∃ s1, sched_schedule lay0 alternate sched_due 0x7000 0x7100 =
        Outcome.switched 0x8FD6 s1 ∧
      read_u32 s1.mem 0x8FF6 = 0x2000 ∧ read_u16 s1.mem 0x8FFA = 8 ∧
      read_u32 s1.mem 0x8FFC = 0x202 ∧
      read_bytes s1.mem 0x8FD6 32 = set_gp_esp lay0 (List.replicate 32 0x22) 0x700A := by
  obtain ⟨s1, e1, _, e3, e4, e5, e6, _⟩ := sched_switch_rebuilds_frame lay0 alternate sched_due
    0x7000 0x7100 0x2000 8 0x202 0x9000 (List.replicate 32 0x22)
    (by decide) (by decide) (by decide) (by decide) rfl rfl rfl
    (by decide) (by decide) (by decide) rfl (by decide) (by decide) (by decide) (by decide)
  exact ⟨s1, e1, e3, e4, e5, e6⟩

/-- Counterexample to C15 as stated. On `sched_due` the tick at the quota
switches to task 1, whose stored registers `G` are 32 bytes `0x22`; the 32
bytes below `E - 10 = 0x8FF6` at `asm_switch_context` differ from `G`: the
field `esp` reads `0x700A`, the saved `esp` of the preempted task, where `G`
has `0x22222222`. -/
theorem sched_switch_overwrites_saved_esp :
    (sched_due.tasks 1).op_registers.esp = 0x9000 ∧
    (sched_due.tasks 1).gp_registers = List.replicate 32 0x22 ∧
    ∃ s1, sched_schedule lay0 alternate sched_due 0x7000 0x7100 =
        Outcome.switched 0x8FD6 s1 ∧
      read_bytes s1.mem 0x8FD6 32 ≠ List.replicate 32 0x22 ∧
      get_gp_esp lay0 (read_bytes s1.mem 0x8FD6 32) = 0x700A ∧
      get_gp_esp lay0 (List.replicate 32 0x22) = 0x22222222 :=
  ⟨rfl, rfl, _, rfl, by decide, by decide, by decide⟩

end Sched
